import Mathlib

/-!
Operational-mode command resolution (`op`)

A shallow embedding of

* `yang/yang.go` (package `yang`): the authorisation helpers, `MergeMatches`,
  `ProcessMatches`, `ExpandMatches`, `Expand`, `Completion`, `TmplGetChildren` and
  `TmplGet`;
* `tmpl/tmpl.go`: the template record `OpTmpl`;
* `tmpl/parse`: the template lexer and parser;
* `tmpl/tree/optree.go`: the template tree, its lookups and the paths shown
  with secrets masked;
* `tmpl/tree/features.go` and `tmpl/tree/buildtree.go`: the feature gate and
  the build of the tree from a directory hierarchy.

The compiled schema graph (`github.com/danos/config/schema`) is an external
collaborator.  It is taken as a parameter: a `Schema` is a table giving, for
every node handle, exactly the accessors the Go code calls on a `schema.Node`
(`Name`, `Children`, `Parent`, `Arguments`, `Type`, the dynamic type the
`switch sch.(type)` selects, `schema.GetHelp`, and the attribute accessors of
`TmplGet`).  Nothing is assumed about how these accessors relate to each other.

Go run-time panics (index out of range) are modelled by `none`.
-/

namespace Op

/-! ## Go strings -/

/-- Go `strings.HasPrefix(s, prefix)`; a Go string is a Lean `String`, compared
character by character. -/
def HasPrefix (s pre : String) : Bool := pre.toList.isPrefixOf s.toList

/-! ## Schema nodes (external, taken as a parameter) -/

/-- The case of `switch sch.(type)` in `processnode` a node falls into. -/
inductive NodeKind where
  | Tree
  | OpdCommand
  | OpdOption
  | OpdArgument
  | Other
  deriving DecidableEq, Repr

/-- The case of `switch ty.(type)` in `TmplGet` a type other than
`schema.Empty` falls into. -/
inductive TypeClass where
  | Integer
  | Uinteger
  | Boolean
  | Other
  deriving DecidableEq, Repr

/-- A compiled schema: node handles are natural numbers, every accessor the
code uses on a `schema.Node` is a field.  The accessors only `Completion`,
`TmplGet` and `TmplGetChildren` use have a default, so that a schema that is
walked by `ExpandMatches` alone need not give them.  The interfaces behind
`Kind` are taken to exclude each other. -/
structure Schema where
  /-- the node the model set itself stands for (`y.stOpd`) -/
  root : Nat
  /-- Go `sch.Name()` -/
  Name : Nat → String
  /-- the dynamic type selected by `switch sch.(type)` -/
  Kind : Nat → NodeKind
  /-- Go `sch.Children()` -/
  Children : Nat → List Nat
  /-- Go `sch.Parent()`, `none` for a nil parent -/
  Parent : Nat → Option Nat
  /-- Go `sch.Arguments()` -/
  Arguments : Nat → List String
  /-- whether `sch.Type()` is `schema.Empty` -/
  TypeIsEmpty : Nat → Bool
  /-- Go `schema.GetHelp(node)` -/
  GetHelp : Nat → String
  /-- Go `schema.Descendant(y.stOpd, path)`, `none` for nil -/
  Descendant : List String → Option Nat := fun _ => none
  /-- Go `sn.HelpMap()`, a map from completion to help text -/
  HelpMap : Nat → List (String × String) := fun _ => []
  /-- Go `y.stOpd.OpdPathDescendant(ps)`: the fields `Node` and `Val` of the
  `TmplCompat` it returns, `none` for nil -/
  OpdPathDescendant : List String → Option (Nat × Bool) := fun _ => none
  /-- Go `sn.SchemaChild(name)`, `none` for nil -/
  SchemaChild : Nat → String → Option Nat := fun _ _ => none
  /-- Go `node.OpdChildren()` -/
  OpdChildren : Nat → List Nat := fun _ => []
  /-- Go `sn.Description()` -/
  Description : Nat → String := fun _ => ""
  /-- Go `sn.ConfigdExt().Secret` -/
  ExtSecret : Nat → Bool := fun _ => false
  /-- Go `sn.ConfigdExt().GetHelp()` -/
  ExtGetHelp : Nat → String := fun _ => ""
  /-- Go `sn.ConfigdExt().OpdAllowed` -/
  OpdAllowed : Nat → String := fun _ => ""
  /-- Go `v.OnEnter()` -/
  OnEnter : Nat → String := fun _ => ""
  /-- Go `v.Privileged()` -/
  Privileged : Nat → Bool := fun _ => false
  /-- Go `v.Local()` -/
  Local : Nat → Bool := fun _ => false
  /-- Go `v.Secret()` -/
  Secret : Nat → Bool := fun _ => false
  /-- Go `v.PassOpcArgs()` -/
  PassOpcArgs : Nat → Bool := fun _ => false
  /-- the case of `switch ty.(type)` in `TmplGet` a type that is not
  `schema.Empty` falls into -/
  TypeClass : Nat → TypeClass := fun _ => .Other

/-- The `Yang` struct: `stOpd` may be nil. -/
structure Yang where
  stOpd : Option Schema

/-! ## Authorisation -/

/-- Go `type Authoriser func(path []string) (bool, error)`; the error is kept
as an optional message. -/
abbrev Authoriser := List String → Bool × Option String

/-- Go `permitted`. -/
def permitted (res : Bool × Option String) : Bool :=
  res.1 && res.2.isNone

/-- Go `authorise`; a nil authoriser is `none`. -/
def authorise (path : List String) (child : String) (auth : Option Authoriser) :
    Bool × Option String :=
  match auth with
  | some f => f (path ++ [child])
  | none => (true, none)

/-! ## Matches -/

/-- The `Match` interface, as the record of what its three methods return. -/
structure Match where
  Name : String
  Help : String
  IsArg : Bool
  deriving DecidableEq, Repr

/-- Go `expandMatch`. -/
structure expandMatch where
  node : Nat
  isarg : Bool
  deriving DecidableEq, Repr

/-- The `Match` methods of an `expandMatch`. -/
def expandMatch.toMatch (S : Schema) (e : expandMatch) : Match :=
  { Name := S.Name e.node, Help := S.GetHelp e.node, IsArg := e.isarg }

/-! ## MergeMatches -/

/-- The closure `appendEntry` of `MergeMatches`. -/
def appendEntry (a : List Match) (b : Match) : List Match :=
  if a.any (fun i => i.Name == b.Name || (i.IsArg && b.IsArg)) then a else a ++ [b]

/-- The body of the `for i := 0; i < idx; i++` loop of `MergeMatches`. -/
def mergeAt (high low : List (List Match)) (i : Nat) : List Match :=
  let m : List Match := []
  let m := if high.length > i then m ++ high.getD i [] else m
  if low.length > i then (low.getD i []).foldl appendEntry m else m

/-- Go `MergeMatches`. -/
def MergeMatches (high low : List (List Match)) : List (List Match) :=
  let idx := if low.length > high.length then low.length else high.length
  (List.range idx).map (mergeAt high low)

/-! ## ProcessMatches -/

/-- The errors `ProcessMatches` returns (`patherr.CommandInval`,
`patherr.PathAmbig`); the Go map `Matches` is an association list. -/
inductive PathErr where
  | CommandInval (Path : List String) (Fail : String)
  | PathAmbig (Path : List String) (Fail : String) (Matches : List (String × String))
      (Operational : Bool)
  deriving DecidableEq, Repr

/-- Go map assignment `m[k] = v` on an association list: an existing key is
overwritten in place, a new key is added at the end. -/
def mapSet (m : List (String × String)) (k v : String) : List (String × String) :=
  match m with
  | [] => [(k, v)]
  | (k', v') :: rest => if k' = k then (k, v) :: rest else (k', v') :: mapSet rest k v

/-- The inner `for _, ent := range entry` loop of the `default` case: returns
`(exactMatch, matched)` (the Go variables `exactMatch`, `matches`). -/
def ambigScan (tok : String) : List Match → List (String × String) →
    Bool × List (String × String)
  | [], acc => (false, acc)
  | ent :: rest, acc =>
    if ent.Name = tok || ent.IsArg then (true, acc)
    else ambigScan tok rest (mapSet acc ent.Name ent.Help)

/-- The `for idx, entry := range matches` loop of `ProcessMatches`, from
index `idx` with the path emitted so far `epath`.  `none` is the index
panic of `path[idx]`. -/
def processMatchesLoop (path : List String) :
    Nat → List String → List (List Match) → Option (Except PathErr (List String))
  | _, epath, [] => some (.ok epath)
  | idx, epath, [] :: _ =>
    match path[idx]? with
    | none => none
    | some tok => some (.error (.CommandInval epath tok))
  | idx, epath, [e] :: rest =>
    if e.IsArg then
      match path[idx]? with
      | none => none
      | some tok => processMatchesLoop path (idx + 1) (epath ++ [tok]) rest
    else processMatchesLoop path (idx + 1) (epath ++ [e.Name]) rest
  | idx, epath, entry :: rest =>
    match path[idx]? with
    | none => none
    | some tok =>
      let (exactMatch, matched) := ambigScan tok entry []
      if !exactMatch then some (.error (.PathAmbig epath tok matched true))
      else processMatchesLoop path (idx + 1) (epath ++ [tok]) rest

/-- Go `ProcessMatches`. -/
def ProcessMatches (path : List String) (matchLists : List (List Match)) :
    Option (Except PathErr (List String)) :=
  processMatchesLoop path 0 [] matchLists

/-! ## ExpandMatches -/

/-- The local `results` struct of `ExpandMatches`. -/
structure results where
  m : List (List expandMatch)
  cpath : List String
  deriving DecidableEq, Repr

/-- The children `processchildren` enumerates: the cursor's own, or its
parent's when it has none and has a parent. -/
def effChildren (S : Schema) (sch : Nat) : List Nat :=
  match S.Children sch, S.Parent sch with
  | [], some p => S.Children p
  | cs, _ => cs

/-- The value of `argNm` in `processchildren`. -/
def effArgNm (S : Schema) (sch : Nat) : String :=
  match S.Children sch, S.Parent sch with
  | [], some p => (S.Arguments p).headD ""
  | _, _ => (S.Arguments sch).headD ""

/-- The variables the `for _, c := range children` loop of `processchildren`
assigns. -/
structure scan where
  argChild : Option Nat
  nextNode : Option Nat
  matched : List expandMatch
  deriving DecidableEq, Repr

/-- The `for _, c := range children` loop of `processchildren`. -/
def scanChildren (S : Schema) (auth : Option Authoriser) (cpath : List String)
    (argNm val : String) : List Nat → scan → scan
  | [], st => st
  | c :: cs, st =>
    let name := S.Name c
    if name = argNm then
      scanChildren S auth cpath argNm val cs { st with argChild := some c }
    else if name = val then
      if permitted (authorise cpath (S.Name c) auth) then
        { st with matched := [⟨c, false⟩], nextNode := some c }
      else scanChildren S auth cpath argNm val cs st
    else if HasPrefix name val then
      if permitted (authorise cpath (S.Name c) auth) then
        scanChildren S auth cpath argNm val cs
          { st with matched := st.matched ++ [⟨c, false⟩], nextNode := some c }
      else scanChildren S auth cpath argNm val cs st
    else scanChildren S auth cpath argNm val cs st

/-- The `for _, ch := range sch.Children()` loop of `processopdcommand`:
`none` is the index panic of `sch.Arguments()[0]`, `some true` the early
return, `some false` the fall-through. -/
def commandScan (S : Schema) (sch : Nat) (tok : String) : List Nat → Option Bool
  | [] => some false
  | ch :: chs =>
    match (S.Arguments sch)[0]? with
    | none => none
    | some a =>
      if S.Name ch = a then commandScan S sch tok chs
      else if tok = S.Name ch then some true
      else commandScan S sch tok chs

mutual

/-- The closure `processchildren` of `ExpandMatches`. -/
def processchildren (S : Schema) (auth : Option Authoriser) (sch : Nat)
    (path : List String) (r : results) : Option results :=
  match path with
  | [] => some r
  | val :: path =>
    let st := scanChildren S auth r.cpath (effArgNm S sch) val (effChildren S sch)
      ⟨none, none, []⟩
    match st.matched with
    | [] =>
      match st.argChild with
      | some argChild =>
        processnode S auth (some argChild) path
          { m := r.m ++ [[⟨argChild, true⟩]], cpath := r.cpath ++ [val] }
      | none => some { r with m := r.m ++ [[]] }
    | [m0] =>
      processnode S auth st.nextNode path
        { m := r.m ++ [[m0]], cpath := r.cpath ++ [S.Name m0.node] }
    | ms => some { r with m := r.m ++ [ms] }
termination_by (path.length, 0)

/-- The closure `processopdcommand` of `ExpandMatches`. -/
def processopdcommand (S : Schema) (auth : Option Authoriser) (sch : Nat)
    (path : List String) (r : results) : Option results :=
  match path with
  | [] => some r
  | tok :: rest =>
    match commandScan S sch tok (S.Children sch) with
    | none => none
    | some _ => processchildren S auth sch (tok :: rest) r
termination_by (path.length, 1)

/-- The closure `processopdoption` of `ExpandMatches`. -/
def processopdoption (S : Schema) (auth : Option Authoriser) (sch : Nat)
    (path : List String) (r : results) : Option results :=
  if !S.TypeIsEmpty sch then
    match path with
    | [] => some r
    | val :: path =>
      processchildren S auth sch path
        { m := r.m ++ [[⟨sch, true⟩]], cpath := r.cpath ++ [val] }
  else processopdcommand S auth sch path r
termination_by (path.length, 2)

/-- The closure `processnode` of `ExpandMatches`; a nil node is `none`. -/
def processnode (S : Schema) (auth : Option Authoriser) (sch : Option Nat)
    (path : List String) (r : results) : Option results :=
  match sch with
  | none => some r
  | some n =>
    match S.Kind n with
    | .Tree => processchildren S auth n path r
    | .OpdCommand => processopdcommand S auth n path r
    | .OpdOption => processopdoption S auth n path r
    | .OpdArgument => processchildren S auth n path r
    | .Other => some r
termination_by (path.length, 3)

end

/-- Go `(*Yang).ExpandMatches`. -/
def ExpandMatches (y : Yang) (path : List String) (auth : Option Authoriser) :
    Option (List (List Match)) :=
  match y.stOpd with
  | none => some []
  | some S =>
    (processnode S auth (some S.root) path ⟨[], []⟩).map
      (fun r => r.m.map (List.map (expandMatch.toMatch S)))

/-- Go `(*Yang).Expand`. -/
def Expand (y : Yang) (path : List String) (auth : Option Authoriser) :
    Option (Except PathErr (List String)) :=
  match ExpandMatches y path auth with
  | none => none
  | some ms => ProcessMatches path ms

/-! ## Vocabulary for statements about the walk of `ExpandMatches` -/

/-- Whether the loop of `processchildren` takes child `c` as a name match
for the token `val`: `c` is not the argument child, `val` is a prefix of its
name (its whole name included), and the authoriser permits it. -/
def nameCandidate (S : Schema) (auth : Option Authoriser) (cpath : List String)
    (argNm val : String) (c : Nat) : Bool :=
  S.Name c != argNm && HasPrefix (S.Name c) val &&
    permitted (authorise cpath (S.Name c) auth)

/-- Whether the loop of `processchildren` takes child `c` as an exact match
for the token `val`. -/
def exactCandidate (S : Schema) (auth : Option Authoriser) (cpath : List String)
    (argNm val : String) (c : Nat) : Bool :=
  S.Name c != argNm && S.Name c == val && permitted (authorise cpath (S.Name c) auth)

/-- The last element of `l`, or `d` when `l` is empty: the value of a
variable that a loop over `l` assigns at every element. -/
def lastOr (d : Option Nat) (l : List Nat) : Option Nat :=
  l.foldl (fun _ c => some c) d

/-- The lists of `r.m` as `Match` values, as `ExpandMatches` returns them. -/
def results.matchLists (S : Schema) (r : results) : List (List Match) :=
  r.m.map (List.map (expandMatch.toMatch S))

/-- The accumulated results `r` agree with `path`: one candidate list per
token consumed so far, and `r.cpath` is what `ProcessMatches` emits for
them (the canonical expansion of the tokens before the cursor). -/
def Consistent (S : Schema) (path : List String) (r : results) : Prop :=
  r.m.length ≤ path.length ∧ ProcessMatches path (r.matchLists S) = some (.ok r.cpath)

/-- The walk of `ExpandMatches` on `path` is at the call
`processnode(sch, path[len(r.m):], r)`. -/
def AtNode (S : Schema) (auth : Option Authoriser) (path : List String)
    (sch : Option Nat) (r : results) : Prop :=
  Consistent S path r ∧
    processnode S auth (some S.root) path ⟨[], []⟩ =
      processnode S auth sch (path.drop r.m.length) r

/-- The walk of `ExpandMatches` on `path` is at the call
`processchildren(sch, path[len(r.m):], r)`. -/
def AtChildren (S : Schema) (auth : Option Authoriser) (path : List String)
    (sch : Nat) (r : results) : Prop :=
  Consistent S path r ∧
    processnode S auth (some S.root) path ⟨[], []⟩ =
      processchildren S auth sch (path.drop r.m.length) r

/-- The values the loop of `processchildren` leaves in `argChild`, `nextNode`
and `matches` at cursor `sch` for the token `val`. -/
def scanAt (S : Schema) (auth : Option Authoriser) (sch : Nat) (r : results)
    (val : String) : scan :=
  scanChildren S auth r.cpath (effArgNm S sch) val (effChildren S sch) ⟨none, none, []⟩

/-- The candidate list `processchildren` appends to `r.m` for the token `val`
at cursor `sch`: the name matches, else the argument child alone (as an
argument match), else nothing. -/
def candidatesAt (S : Schema) (auth : Option Authoriser) (sch : Nat) (r : results)
    (val : String) : List expandMatch :=
  match (scanAt S auth sch r val).matched with
  | [] =>
    match (scanAt S auth sch r val).argChild with
    | some argChild => [⟨argChild, true⟩]
    | none => []
  | ms => ms

/-! ## Example schemas -/

/-- The schema of `TestExpandPartialCommands` (expand_test.go): node 0 is the
model set; `test-command` (1) has the argument `test-argument` (3), the option
`test-option` (4) and the command `another-command` (5);
`alternative-command` (2) has the argument `an-argument` (6), the command
`a-command` (7, with options 10, 11, 12) and the options `an-option` (8) and
`another-option` (9).  Every option is of type string.  What the test does
not show is chosen here: no node has a parent link, and `Arguments` of a
command is the name of its `opd:argument` child. -/
def partialCommands : Schema where
  root := 0
  Name := fun n =>
    match n with
    | 1 => "test-command" | 2 => "alternative-command" | 3 => "test-argument"
    | 4 => "test-option" | 5 => "another-command" | 6 => "an-argument"
    | 7 => "a-command" | 8 => "an-option" | 9 => "another-option"
    | 10 => "opt-one" | 11 => "opt-two" | 12 => "opt-three" | _ => ""
  Kind := fun n =>
    match n with
    | 0 => .Tree
    | 1 => .OpdCommand | 2 => .OpdCommand | 5 => .OpdCommand | 7 => .OpdCommand
    | 3 => .OpdArgument | 6 => .OpdArgument
    | _ => .OpdOption
  Children := fun n =>
    match n with
    | 0 => [1, 2] | 1 => [3, 4, 5] | 2 => [6, 7, 8, 9] | 7 => [10, 11, 12] | _ => []
  Parent := fun _ => none
  Arguments := fun n =>
    match n with
    | 1 => ["test-argument"] | 2 => ["an-argument"] | _ => []
  TypeIsEmpty := fun _ => false
  GetHelp := fun n =>
    match n with
    | 1 => "Command help" | 3 => "Argument help" | 4 => "Option help"
    | 5 => "Another command help text" | _ => ""

/-- Two sibling commands without children, one name a prefix of the other,
each with the model set as its parent. -/
def showCommands : Schema where
  root := 0
  Name := fun n =>
    match n with
    | 1 => "show" | 2 => "show-all" | _ => ""
  Kind := fun n =>
    match n with
    | 0 => .Tree | _ => .OpdCommand
  Children := fun n =>
    match n with
    | 0 => [1, 2] | _ => []
  Parent := fun n =>
    match n with
    | 0 => none | _ => some 0
  Arguments := fun _ => []
  TypeIsEmpty := fun _ => true
  GetHelp := fun _ => ""

/-- The authoriser `authoriseDenyTestCommand` of authorise_test.go. -/
def authoriseDenyTestCommand : Authoriser := fun path =>
  if path.length > 0 && path.head? == some "test-command" then (false, none)
  else (true, none)

/-! ## Template records (`tmpl/tmpl.go`) -/

/-- Go `tmpl.OpTmpl`. -/
structure OpTmpl where
  allowed : String
  comptype : String
  help : String
  include_ : String
  run : String
  features : String
  priv : Bool
  local_ : Bool
  secret : Bool
  yang : Bool
  passOpcArgs : Bool
  deriving DecidableEq, Repr

/-- Go `tmpl.NewOpTmpl`: the fields it does not name get their zero value. -/
def NewOpTmpl (allowed help comptype run : String) : OpTmpl :=
  { allowed := allowed, comptype := comptype, help := help, include_ := "", run := run,
    features := "", priv := false, local_ := false, secret := false, yang := false,
    passOpcArgs := false }

/-! The accessors and mutators of `OpTmpl`, for a receiver that is not nil (the
receivers here are `p.tmpl`, a struct value, and the result of `NewOpTmpl`). -/

/-- Go `(*OpTmpl).Allowed`. -/
def OpTmpl.Allowed (t : OpTmpl) : String := t.allowed

/-- Go `(*OpTmpl).SetAllowed`. -/
def OpTmpl.SetAllowed (t : OpTmpl) (v : String) : OpTmpl := { t with allowed := v }

/-- Go `(*OpTmpl).Comptype`. -/
def OpTmpl.Comptype (t : OpTmpl) : String := t.comptype

/-- Go `(*OpTmpl).SetComptype`. -/
def OpTmpl.SetComptype (t : OpTmpl) (v : String) : OpTmpl := { t with comptype := v }

/-- Go `(*OpTmpl).Help`. -/
def OpTmpl.Help (t : OpTmpl) : String := t.help

/-- Go `(*OpTmpl).SetHelp`. -/
def OpTmpl.SetHelp (t : OpTmpl) (v : String) : OpTmpl := { t with help := v }

/-- Go `(*OpTmpl).Include`. -/
def OpTmpl.Include (t : OpTmpl) : String := t.include_

/-- Go `(*OpTmpl).SetInclude`. -/
def OpTmpl.SetInclude (t : OpTmpl) (v : String) : OpTmpl := { t with include_ := v }

/-- Go `(*OpTmpl).Run`. -/
def OpTmpl.Run (t : OpTmpl) : String := t.run

/-- Go `(*OpTmpl).SetRun`. -/
def OpTmpl.SetRun (t : OpTmpl) (v : String) : OpTmpl := { t with run := v }

/-- Go `(*OpTmpl).Features`. -/
def OpTmpl.Features (t : OpTmpl) : String := t.features

/-- Go `(*OpTmpl).SetFeatures`. -/
def OpTmpl.SetFeatures (t : OpTmpl) (v : String) : OpTmpl := { t with features := v }

/-- Go `(*OpTmpl).Priv`. -/
def OpTmpl.Priv (t : OpTmpl) : Bool := t.priv

/-- Go `(*OpTmpl).SetPriv`. -/
def OpTmpl.SetPriv (t : OpTmpl) (v : Bool) : OpTmpl := { t with priv := v }

/-- Go `(*OpTmpl).Local`. -/
def OpTmpl.Local (t : OpTmpl) : Bool := t.local_

/-- Go `(*OpTmpl).SetLocal`. -/
def OpTmpl.SetLocal (t : OpTmpl) (v : Bool) : OpTmpl := { t with local_ := v }

/-- Go `(*OpTmpl).Secret`. -/
def OpTmpl.Secret (t : OpTmpl) : Bool := t.secret

/-- Go `(*OpTmpl).SetSecret`. -/
def OpTmpl.SetSecret (t : OpTmpl) (v : Bool) : OpTmpl := { t with secret := v }

/-- Go `(*OpTmpl).PassOpcArgs`. -/
def OpTmpl.PassOpcArgs (t : OpTmpl) : Bool := t.passOpcArgs

/-- Go `(*OpTmpl).SetPassOpcArgs`. -/
def OpTmpl.SetPassOpcArgs (t : OpTmpl) (v : Bool) : OpTmpl := { t with passOpcArgs := v }

/-- Go `(*OpTmpl).Yang`. -/
def OpTmpl.Yang (t : OpTmpl) : Bool := t.yang

/-- Go `(*OpTmpl).SetYang`. -/
def OpTmpl.SetYang (t : OpTmpl) (v : Bool) : OpTmpl := { t with yang := v }

/-! ## Completion, TmplGetChildren, TmplGet (`yang/yang.go`) -/

/-- Go map read `m[k]` on an association list, the zero value `""` for a
missing key. -/
def mapGet (m : List (String × String)) (k : String) : String :=
  match m with
  | [] => ""
  | (k', v) :: rest => if k' = k then v else mapGet rest k

/-- Go `(*Yang).Completion`: the map (`none` for nil) and the error, which is
never set. -/
def Completion (y : Yang) (path : List String) (auth : Option Authoriser) :
    Option (List (String × String)) × Option String :=
  match y.stOpd with
  | none => (none, none)
  | some S =>
    match S.Descendant path with
    | none => (none, none)
    | some sn =>
      ((S.HelpMap sn).filter (fun kv => permitted (authorise path kv.1 auth)), none)

/-- The errors of `validatePath` (`patherr.PathInval`) and of `getPathError`
(`fmt.Errorf`). -/
inductive YangErr where
  | PathInval (Path : List String) (Fail : String)
  | Errorf (msg : String)
  deriving DecidableEq, Repr

/-- The loop of `(*Yang).validatePath` from index `i` at node `sn`. -/
def validatePathLoop (S : Schema) (ps : List String) : Nat → Nat → List String →
    Option YangErr
  | _, _, [] => none
  | i, sn, v :: rest =>
    match S.SchemaChild sn v with
    | none => some (.PathInval (ps.take i) v)
    | some c => validatePathLoop S ps (i + 1) c rest

/-- Go `(*Yang).validatePath`. -/
def validatePath (y : Yang) (ps : List String) : Option YangErr :=
  match y.stOpd with
  | none => none
  | some S => validatePathLoop S ps 0 S.root ps

/-- Go `(*Yang).getPathError`. -/
def getPathError (y : Yang) (ps : List String) (unexpected : String) : YangErr :=
  match validatePath y ps with
  | some err => err
  | none => .Errorf unexpected

/-- Go `(*Yang).opdSchemaPathDescendant`: the `TmplCompat` as the pair of its
`Node` and `Val` (`none` for nil), or the error. -/
def opdSchemaPathDescendant (y : Yang) (ps : List String) :
    Except YangErr (Option (Nat × Bool)) :=
  match y.stOpd with
  | none => .ok none
  | some S =>
    match S.OpdPathDescendant ps with
    | none => .error (getPathError y ps "Schema not found")
    | some tmpl => .ok (some tmpl)

/-- Go `(*Yang).TmplGetChildren`: the slice (`none` for nil) or the error.
With a schema loaded `opdSchemaPathDescendant` returns an error or a descendant
that is not nil, so the branch for a nil descendant is never taken. -/
def TmplGetChildren (y : Yang) (path : List String) (auth : Option Authoriser) :
    Except YangErr (Option (List String)) :=
  match y.stOpd with
  | none => .ok none
  | some S =>
    match opdSchemaPathDescendant y path with
    | .error err => .error err
    | .ok none => .ok none
    | .ok (some (node, val)) =>
      let argName : Option String :=
        match S.Kind node with
        | .OpdCommand => some ((S.Arguments node).headD "")
        | .OpdOption => if !val then none else some ((S.Arguments node).headD "")
        | .OpdArgument => some ((S.Arguments node).headD "")
        | _ => some ""
      match argName with
      | none => .ok (some [])
      | some argName =>
        .ok (some (((S.OpdChildren node).filter (fun n =>
          permitted (authorise path (S.Name n) auth) && S.Name n != argName)).map S.Name))

/-- The map `m` of `TmplGet` as it is before the switch on the node's kind. -/
def tmplMapHead (S : Schema) (sn : Nat) (val : Bool) : List (String × String) :=
  let m : List (String × String) := []
  let m := if val then mapSet m "is_value" "1" else m
  let m := if S.Description sn ≠ "" then mapSet m "comp_help" (S.Description sn) else m
  let m := if S.ExtSecret sn then mapSet m "secret" "1" else m
  if S.ExtGetHelp sn ≠ "" then mapSet m "help" (S.ExtGetHelp sn) else m

/-- The assignments to `m` that the three cases of the switch on the node's
kind in `TmplGet` have in common. -/
def tmplMapKind (S : Schema) (sn : Nat) (m : List (String × String)) :
    List (String × String) :=
  let m := mapSet m "run" (S.OnEnter sn)
  let m := mapSet m "allowed" (S.OpdAllowed sn)
  if S.Privileged sn then mapSet m "privileged" "1" else mapSet m "privileged" "0"

/-- The switch on the node's type in `TmplGet`. -/
def tmplMapType (S : Schema) (sn : Nat) (m : List (String × String)) :
    List (String × String) :=
  if S.TypeIsEmpty sn then m
  else
    match S.TypeClass sn with
    | .Integer => mapSet m "type" "u32"
    | .Uinteger => mapSet m "type" "u32"
    | .Boolean => mapSet m "type" "bool"
    | .Other => mapSet m "type" "txt"

/-- The part of `TmplGet` after the descendant is found: the map `m`, the
variables `local`, `secret`, `passOpcArgs`, and the record built from them. -/
def tmplOfNode (S : Schema) (sn : Nat) (val : Bool) : OpTmpl :=
  let m := tmplMapHead S sn val
  let (m, loc, secret, passOpcArgs) :=
    match S.Kind sn with
    | .OpdCommand => (tmplMapKind S sn m, S.Local sn, S.Secret sn, S.PassOpcArgs sn)
    | .OpdArgument => (tmplMapKind S sn m, S.Local sn, S.Secret sn, S.PassOpcArgs sn)
    | .OpdOption =>
      (tmplMapKind S sn m, if val then S.Local sn else false, S.Secret sn,
        S.PassOpcArgs sn)
    | _ => (m, false, false, false)
  let m := tmplMapType S sn m
  let template := NewOpTmpl (mapGet m "allowed") (mapGet m "help") "" (mapGet m "run")
  let template := if mapGet m "privileged" = "1" then template.SetPriv true else template
  let template := template.SetLocal loc
  let template := if mapGet m "is_value" = "1" then template.SetSecret secret else template
  let template := template.SetPassOpcArgs passOpcArgs
  template.SetYang true

/-- Go `(*Yang).TmplGet`: the record (`none` for nil) or the error; the branch
for a nil descendant is never taken. -/
def TmplGet (y : Yang) (path : List String) : Except YangErr (Option OpTmpl) :=
  match y.stOpd with
  | none => .ok none
  | some S =>
    match opdSchemaPathDescendant y path with
    | .error err => .error err
    | .ok none => .ok none
    | .ok (some (sn, val)) => .ok (some (tmplOfNode S sn val))

/-! ## The template lexer (`tmpl/parse/lex.go`)

The lexer runs as a goroutine that sends its items on a channel; here
`lexField` and `lexValue` return the list of the items sent, in order, until the
channel is closed.  The input is the list of its runes; `pending` is
`l.input[l.start:l.pos]`, the runes read since the last `emit` or `ignore`.  The
field `pos` of an item, which nothing reads, is left out. -/

/-- Go `itemType`, in the order of its constants. -/
inductive itemType where
  | itemError
  | itemEOF
  | itemValue
  | itemKeyword
  | itemAllowed
  | itemComptype
  | itemInclude
  | itemHelp
  | itemRun
  | itemPrivileged
  | itemLocal
  | itemFeatures
  | itemSecret
  deriving DecidableEq, Repr

/-- The number `iota` gives an `itemType`. -/
def itemType.toNat : itemType → Nat
  | .itemError => 0
  | .itemEOF => 1
  | .itemValue => 2
  | .itemKeyword => 3
  | .itemAllowed => 4
  | .itemComptype => 5
  | .itemInclude => 6
  | .itemHelp => 7
  | .itemRun => 8
  | .itemPrivileged => 9
  | .itemLocal => 10
  | .itemFeatures => 11
  | .itemSecret => 12

/-- Go `item`. -/
structure item where
  typ : itemType
  val : String
  deriving DecidableEq, Repr

/-- Go `fieldDelim`. -/
def fieldDelim : Char := ':'

/-- The map `key`; the words of the `case` in `lexField` are exactly its keys. -/
def key (word : String) : Option itemType :=
  if word = "allowed" then some .itemAllowed
  else if word = "comptype" then some .itemComptype
  else if word = "include" then some .itemInclude
  else if word = "help" then some .itemHelp
  else if word = "run" then some .itemRun
  else if word = "privileged" then some .itemPrivileged
  else if word = "local" then some .itemLocal
  else if word = "features" then some .itemFeatures
  else if word = "secret" then some .itemSecret
  else none

/-- The runes `acceptRun("abcdefghijklmnopqrstuvwxyz")` accepts. -/
def isLowerLetter (c : Char) : Bool := 'a' ≤ c && c ≤ 'z'

mutual

/-- Go `lexField`, with `pending` read and `rest` to read.  After a newline
`l.pos > l.start` always holds, so the state starts again with nothing
pending. -/
def lexField (pending rest : List Char) : List item :=
  let word := pending ++ rest.takeWhile isLowerLetter
  match h : rest.dropWhile isLowerLetter with
  | [] => [⟨.itemEOF, ""⟩]
  | c :: rest2 =>
    if c = '\n' then lexField [] rest2
    else if c = fieldDelim then
      match key (String.mk word) with
      | some t => ⟨t, String.mk word⟩ :: lexValue [] rest2
      | none => [⟨.itemError, "bad field " ++ String.mk word⟩]
    else lexField [] rest2
termination_by (rest.length, 0)
decreasing_by
  all_goals
    have hl := (List.dropWhile_suffix (l := rest) isLowerLetter).length_le
    rw [h] at hl
    simp only [List.length_cons] at hl
    exact Prod.Lex.left _ _ (by omega)

/-- Go `lexValue`, with `pending` read and `rest` to read. -/
def lexValue (pending rest : List Char) : List item :=
  match rest with
  | [] => [⟨.itemValue, String.mk pending⟩]
  | c :: rest1 =>
    if c = '\n' then
      match h : rest1.dropWhile isLowerLetter with
      | d :: rest2 =>
        if d = fieldDelim then
          ⟨.itemValue, String.mk (pending ++ [c])⟩ ::
            lexField (rest1.takeWhile isLowerLetter) (d :: rest2)
        else lexValue (pending ++ c :: rest1.takeWhile isLowerLetter) (d :: rest2)
      | [] => lexValue (pending ++ c :: rest1.takeWhile isLowerLetter) []
    else lexValue (pending ++ [c]) rest1
termination_by (rest.length, 1)
decreasing_by
  all_goals simp_wf
  · have hl := (List.dropWhile_suffix (l := rest1) isLowerLetter).length_le
    rw [h] at hl
    simp only [List.length_cons] at hl
    exact Prod.Lex.left _ _ (by omega)
  · have hl := (List.dropWhile_suffix (l := rest1) isLowerLetter).length_le
    rw [h] at hl
    simp only [List.length_cons] at hl
    exact Prod.Lex.left _ _ (by omega)
  · exact Prod.Lex.left _ _ (by omega)
  · exact Prod.Lex.left _ _ (by omega)

end

/-- Go `lex`: the items the lexer sends before it closes the channel. -/
def lex (_name input : String) : List item := lexField [] input.toList

/-! ## The template parser (`tmpl/parse/parse.go`) -/

/-- Go `strconv.ParseBool`, `none` for its error. -/
def ParseBool (s : String) : Option Bool :=
  if s = "1" ∨ s = "t" ∨ s = "T" ∨ s = "TRUE" ∨ s = "true" ∨ s = "True" then some true
  else if s = "0" ∨ s = "f" ∨ s = "F" ∨ s = "FALSE" ∨ s = "false" ∨ s = "False" then
    some false
  else none

/-- Go `strings.Trim(s, cutset)`. -/
def Trim (s cutset : String) : String :=
  String.mk
    (((s.toList.dropWhile (fun c => cutset.toList.contains c)).reverse.dropWhile
      (fun c => cutset.toList.contains c)).reverse)

/-- Go `parser`: `items` is what is still to be received from `p.lex.items`. -/
structure parser where
  items : List item
  tmpl : OpTmpl
  text : String

/-- Go `newParser`: `p.tmpl` starts as the zero record, then `SetPriv(true)`. -/
def newParser (items : List item) (text : String) : parser :=
  { items := items, tmpl := (NewOpTmpl "" "" "" "").SetPriv true, text := text }

/-- The inner `switch i.typ` of `parser.parse`, for a field of type `typ` with
the trimmed value `val`. -/
def applyField (t : OpTmpl) (typ : itemType) (val : String) : OpTmpl :=
  match typ with
  | .itemAllowed => t.SetAllowed val
  | .itemComptype => t.SetComptype val
  | .itemInclude => t.SetInclude val
  | .itemHelp => t.SetHelp val
  | .itemRun => t.SetRun val
  | .itemPrivileged =>
    let t := match ParseBool val with
      | some b => t.SetPriv b
      | none => t.SetPriv true
    if t.Local = true then t.SetPriv false else t
  | .itemLocal =>
    match ParseBool val with
    | some b =>
      let t := t.SetLocal b
      if b = true then t.SetPriv false else t
    | none => t
  | .itemSecret =>
    match ParseBool val with
    | some b => t.SetSecret b
    | none => t
  | .itemFeatures => t.SetFeatures (t.Features ++ ";" ++ val)
  | _ => t

/-- Go `parser.parse`: the record `p.tmpl` at the return, and the error.  A
receive from the closed channel gives the zero item, whose type is `itemError`,
not `itemValue`. -/
def parseLoop : List item → OpTmpl → OpTmpl × Option String
  | [], t => (t, none)
  | i :: rest, t =>
    if i.typ = .itemError then (t, some i.val)
    else if i.typ.toNat > itemType.itemKeyword.toNat then
      match rest with
      | [] => (t, none)
      | v :: rest2 =>
        if v.typ ≠ .itemValue then parseLoop rest2 t
        else parseLoop rest2 (applyField t i.typ (Trim v.val " \n\t"))
    else parseLoop rest t

/-- Go `Parse`: the record and the error. -/
def Parse (name text : String) : OpTmpl × Option String :=
  let p := newParser (lex name text) text
  parseLoop p.items p.tmpl

/-! ## The template tree (`tmpl/tree/optree.go`)

Nodes live in a store and are named by handles; a pointer is a handle, a nil
pointer `none`. -/

/-- Go `OpTree`; `children` is the map from name to child. -/
structure OpTree where
  name : String
  value : Option OpTmpl
  parent : Option Nat
  include_ : Option Nat
  children : List (String × Nat)
  deriving DecidableEq, Repr

/-- The heap of tree nodes. -/
abbrev Store := Nat → OpTree

/-- Assignment `*h = t`. -/
def Store.set (s : Store) (h : Nat) (t : OpTree) : Store :=
  fun n => if n = h then t else s n

/-- Go map read `t.children[k]`, `none` (nil) for a missing key. -/
def childGet (m : List (String × Nat)) (k : String) : Option Nat :=
  match m with
  | [] => none
  | (k', c) :: rest => if k' = k then some c else childGet rest k

/-- Go map assignment `t.children[k] = c`. -/
def childSet (m : List (String × Nat)) (k : String) (c : Nat) : List (String × Nat) :=
  match m with
  | [] => [(k, c)]
  | (k', c') :: rest => if k' = k then (k, c) :: rest else (k', c') :: childSet rest k c

/-- Go `(*OpTree).Name`. -/
def OpTree.Name (s : Store) (t : Nat) : String := (s t).name

/-- Go `(*OpTree).SetParent`: the store after, and the error (always nil). -/
def OpTree.SetParent (s : Store) (t : Nat) (p : Option Nat) : Store × Option String :=
  (s.set t { s t with parent := p }, none)

/-- Go `(*OpTree).AddChild`: the store after, and the error. -/
def OpTree.AddChild (s : Store) (t child : Nat) : Store × Option String :=
  match childGet (s t).children (OpTree.Name s child) with
  | some _ => (s, some ("child " ++ OpTree.Name s child ++ " already exists"))
  | none =>
    let s1 := s.set t
      { s t with children := childSet (s t).children (OpTree.Name s child) child }
    OpTree.SetParent s1 child (some t)

/-- The children of node `t` are keyed by their names, one key per name. -/
def WellKeyed (s : Store) (t : Nat) : Prop :=
  ((s t).children.map Prod.fst).Nodup ∧ ∀ k c, (k, c) ∈ (s t).children → (s c).name = k

/-! ## More examples -/

/-- A command `test-command` (1) with the option `test-option` (2, type
string) and the argument `arg` (3, type string), each declared privileged,
local, secret and pass-opc-args: the first command of the schemas of
`TestGetLocal`, `TestGetSecret` and `getPassOpcArgsTestSchema`
(get_node_test.go), put together.  `OpdPathDescendant` finds the command, the
option at its bare name, the option at a value, and the argument at a value;
`Descendant` and `HelpMap` give the completions under the command. -/
def flaggedCommands : Schema where
  root := 0
  Name := fun n =>
    match n with
    | 1 => "test-command" | 2 => "test-option" | 3 => "arg" | _ => ""
  Kind := fun n =>
    match n with
    | 0 => .Tree | 1 => .OpdCommand | 2 => .OpdOption | _ => .OpdArgument
  Children := fun n =>
    match n with
    | 0 => [1] | 1 => [2, 3] | _ => []
  Parent := fun _ => none
  Arguments := fun n =>
    match n with
    | 1 => ["arg"] | _ => []
  TypeIsEmpty := fun n => decide (n ≤ 1)
  GetHelp := fun _ => ""
  Descendant := fun ps =>
    if ps = [] then some 0 else if ps = ["test-command"] then some 1 else none
  HelpMap := fun n =>
    match n with
    | 0 => [("test-command", "Command help")]
    | 1 => [("test-option", "Option help"), ("<text>", "Argument help")]
    | _ => []
  OpdPathDescendant := fun ps =>
    if ps = ["test-command"] then some (1, false)
    else if ps = ["test-command", "test-option"] then some (2, false)
    else if ps = ["test-command", "test-option", "foo"] then some (2, true)
    else if ps = ["test-command", "arg"] then some (3, true)
    else none
  OpdChildren := fun n =>
    match n with
    | 0 => [1] | 1 => [2, 3] | _ => []
  Privileged := fun _ => true
  Local := fun _ => true
  Secret := fun _ => true
  PassOpcArgs := fun _ => true

/-- A store with the node `show` (0) that has the child `ip` (1), and a
detached node (2) also named `ip`; every other handle is a node `x` without
children. -/
def showStore : Store := fun n =>
  match n with
  | 0 => { name := "show", value := none, parent := some 0, include_ := none,
           children := [("ip", 1)] }
  | 1 => { name := "ip", value := none, parent := some 0, include_ := none, children := [] }
  | 2 => { name := "ip", value := none, parent := some 2, include_ := none, children := [] }
  | _ => { name := "x", value := none, parent := none, include_ := none, children := [] }

/-! ## Lookups in the template tree (`tmpl/tree/optree.go`)

`Child` calls itself on the include target.  Include links are pointers that
`processIncludes` sets to any node of the tree, so a chain of them may run into
a cycle, on which the Go recursion does not return.  `OpTree.Child` takes the
number of include links it may follow; `none` says that this number did not
suffice. -/

/-- Go `(*OpTree).Child`: the child (`.ok`) or the error, `none` when more
than `fuel` include links would have to be followed. -/
def OpTree.Child (s : Store) : Nat → Nat → String → Option (Except String Nat)
  | fuel, t, name =>
    match childGet (s t).children name with
    | some c => some (.ok c)
    | none =>
      match (s t).include_ with
      | none => some (.error ("child " ++ name ++ " does not exist"))
      | some x =>
        match fuel with
        | 0 => none
        | fuel + 1 =>
          match OpTree.Child s fuel x name with
          | none => none
          | some (.ok c) => some (.ok c)
          | some (.error _) => some (.error ("child " ++ name ++ " does not exist"))

/-- Go `(*OpTree).ChildOrTag`. -/
def OpTree.ChildOrTag (s : Store) (fuel t : Nat) (name : String) :
    Option (Except String Nat) :=
  match OpTree.Child s fuel t name with
  | none => none
  | some (.ok c) => some (.ok c)
  | some (.error _) =>
    match OpTree.Child s fuel t "node.tag" with
    | none => none
    | some (.ok c) => some (.ok c)
    | some (.error err) => some (.error ((s t).name ++ ": " ++ err))

/-- Go `(*OpTree).Descendant`. -/
def OpTree.Descendant (s : Store) (fuel : Nat) : Nat → List String →
    Option (Except String Nat)
  | t, [] => some (.ok t)
  | t, p0 :: np =>
    match OpTree.ChildOrTag s fuel t p0 with
    | none => none
    | some (.error err) => some (.error ((s t).name ++ ": " ++ err))
    | some (.ok c) =>
      match np with
      | [] => some (.ok c)
      | _ :: _ =>
        match OpTree.Descendant s fuel c np with
        | none => none
        | some (.ok ct) => some (.ok ct)
        | some (.error err) => some (.error ((s t).name ++ " " ++ err))

/-- Go `ChildIterator`. -/
structure ChildIterator where
  current : Nat
  keys : List String
  t : Nat
  deriving DecidableEq, Repr

/-- The local helper `appenduniq` of `NewChildIterator`. -/
def appenduniq (inp : List String) (item : String) : List String :=
  if inp.any (fun i => i == item) then inp else inp ++ [item]

/-- Go `NewChildIterator`.  A Go map is ranged over in an order that is not
specified; here it is the order of the association list. -/
def NewChildIterator (s : Store) (t : Nat) : ChildIterator :=
  let keys := (s t).children.map Prod.fst
  let keys :=
    match (s t).include_ with
    | some x => ((s x).children.map Prod.fst).foldl appenduniq keys
    | none => keys
  { keys := keys, t := t, current := 0 }

/-- Go `(*ChildIterator).Value`: the node, `some none` for nil; `none` is the
index panic of `i.keys[i.current]`, or `Child` not returning. -/
def ChildIterator.Value (s : Store) (fuel : Nat) (i : ChildIterator) : Option (Option Nat) :=
  match i.keys[i.current]? with
  | none => none
  | some k =>
    match OpTree.Child s fuel i.t k with
    | none => none
    | some (.ok v) => some (some v)
    | some (.error _) => some none

/-- Go `(*ChildIterator).HasNext`. -/
def ChildIterator.HasNext (i : ChildIterator) : Bool := i.current < i.keys.length

/-- Go `(*ChildIterator).Next`. -/
def ChildIterator.Next (i : ChildIterator) : ChildIterator :=
  if i.HasNext then { i with current := i.current + 1 } else i

/-- Whether the chain of include links that starts at `t` ends after at most
`d` links. -/
def includeEnds (s : Store) : Nat → Nat → Bool
  | d, t =>
    match (s t).include_ with
    | none => true
    | some x =>
      match d with
      | 0 => false
      | d + 1 => includeEnds s d x

/-- Segment-by-segment application of `ChildOrTag` along a path: the node
reached, `some none` when a lookup fails, `none` when one does not return. -/
def tagWalk (s : Store) (fuel : Nat) : Nat → List String → Option (Option Nat)
  | t, [] => some (some t)
  | t, p0 :: np =>
    match OpTree.ChildOrTag s fuel t p0 with
    | none => none
    | some (.error _) => some none
    | some (.ok c) => tagWalk s fuel c np

/-- Go `Path.String`: `strings.Join(p, " ")`. -/
def Path.String (p : List String) : String := " ".intercalate p

/-- The `for i, e := range p` loop of `StringByAttrs`; `attrs` holds the field
`Secret` of each element of `attrs.Attrs`.  `none` is the index panic of
`attrs.Attrs[i]`. -/
def stringByAttrsLoop : List String → List Bool → List String → Option (List String)
  | [], _, np => some np
  | _ :: _, [], _ => none
  | e :: p, secret :: attrs, np =>
    if secret then stringByAttrsLoop p attrs (np ++ ["****"])
    else stringByAttrsLoop p attrs (np ++ [e])

/-- Go `Path.StringByAttrs`, the method of `Path`; a nil `attrs` is `none`. -/
def StringByAttrs (p : List String) (attrs : Option (List Bool)) : Option String :=
  match attrs with
  | none => some ""
  | some a =>
    if p.length ≠ a.length then some ""
    else (stringByAttrsLoop p a []).map Path.String

/-- A store with include links: `show` (0) has the local children `node.tag`
(3) and `ip` (6) and includes `common` (1); `common` has the children `ip` (2)
and `arp` (7) and includes `base` (4), which has the child `version` (5); `ip`
(2) has the child `route` (8). -/
def includeStore : Store := fun n =>
  match n with
  | 0 => { name := "show", value := none, parent := some 0, include_ := some 1,
           children := [("node.tag", 3), ("ip", 6)] }
  | 1 => { name := "common", value := none, parent := some 1, include_ := some 4,
           children := [("ip", 2), ("arp", 7)] }
  | 2 => { name := "ip", value := none, parent := some 1, include_ := none,
           children := [("route", 8)] }
  | 3 => { name := "node.tag", value := none, parent := some 0, include_ := none,
           children := [] }
  | 4 => { name := "base", value := none, parent := some 4, include_ := none,
           children := [("version", 5)] }
  | 5 => { name := "version", value := none, parent := some 4, include_ := none,
           children := [] }
  | 6 => { name := "ip", value := none, parent := some 0, include_ := none, children := [] }
  | 7 => { name := "arp", value := none, parent := some 1, include_ := none, children := [] }
  | 8 => { name := "route", value := none, parent := some 2, include_ := none,
           children := [] }
  | _ => { name := "x", value := none, parent := none, include_ := none, children := [] }

/-! ## Feature gates (`tmpl/tree/features.go`) -/

/-- Go `strings.Split(s, sep)` for a separator of one character, on the list of
the characters of `s`: the pieces between the separators, one more than there
are separators. -/
def splitChars (sep : Char) : List Char → List (List Char)
  | [] => [[]]
  | c :: cs =>
    if c = sep then [] :: splitChars sep cs
    else
      match splitChars sep cs with
      | [] => [[c]]
      | w :: ws => (c :: w) :: ws

/-- Go `strings.Split(s, sep)` for a separator of one character. -/
def Split (s : String) (sep : Char) : List String :=
  (splitChars sep s.toList).map String.mk

/-- Go `unicode.IsSpace`. -/
def IsSpace (c : Char) : Bool :=
  c = '\t' || c = '\n' || c.toNat = 0x0B || c.toNat = 0x0C || c = '\r' || c = ' ' ||
    c.toNat = 0x85 || c.toNat = 0xA0 || c.toNat = 0x1680 ||
    (0x2000 ≤ c.toNat && c.toNat ≤ 0x200A) || c.toNat = 0x2028 || c.toNat = 0x2029 ||
    c.toNat = 0x202F || c.toNat = 0x205F || c.toNat = 0x3000

/-- Go `strings.TrimSpace`. -/
def TrimSpace (s : String) : String :=
  String.mk ((s.toList.dropWhile IsSpace).reverse.dropWhile IsSpace).reverse

/-- Go `_, ok := caps[k]` on the capability map, an association list. -/
def capsHas (caps : List (String × Bool)) (k : String) : Bool :=
  caps.any (fun kv => kv.1 == k)

/-- The `for _, f := range feats` loop of `featuresEnabled`. -/
def featuresLoop (caps : List (String × Bool)) : List String → Bool
  | [] => true
  | f :: feats =>
    let trimmedFeat := TrimSpace f
    if trimmedFeat = "" then featuresLoop caps feats
    else if !capsHas caps trimmedFeat then false
    else featuresLoop caps feats

/-- Go `featuresEnabled`, for a record that is not nil. -/
def featuresEnabled (tmpl : OpTmpl) (caps : List (String × Bool)) : Bool :=
  let features := tmpl.Features
  if features = "" then true
  else featuresLoop caps (Split features ';')

/-! ## Building the tree (`tmpl/tree/buildtree.go`)

`buildOpTree` reads a directory hierarchy.  What it reads is taken as a
parameter: an `FsNode` is a directory entry as `os.Lstat`, `readDir` and
`parseTmpl` show it.  The tree it returns is made of nodes it has just
allocated, none shared, so it is given as a value; the `parent` link of a node
is its place in the value and the `include` link is nil until
`processIncludes`.  The list `idata` of the includes to resolve later, which
does not bear on the tree returned, is left out. -/

/-- A directory entry: a file with its name and with what `parseTmpl` returns
for it (looked at for `node.def` only), or a directory with its name and with
the entries `readDir` returns for it, in that order. -/
inductive FsNode where
  | file (name : String) (parsed : Except String OpTmpl)
  | dir (name : String) (entries : List FsNode)

/-- A tree as `buildOpTree` builds it; `children` is the map from name to
child, each child under its own name. -/
inductive BuiltTree where
  | node (name : String) (value : Option OpTmpl) (children : List BuiltTree)

/-- The field `name`. -/
def BuiltTree.name : BuiltTree → String
  | .node name _ _ => name

/-- The field `value`, `none` for nil. -/
def BuiltTree.value : BuiltTree → Option OpTmpl
  | .node _ value _ => value

/-- The field `children`. -/
def BuiltTree.children : BuiltTree → List BuiltTree
  | .node _ _ children => children

/-- Go `NewOpTree`. -/
def NewOpTree (name : String) (val : Option OpTmpl) : BuiltTree := .node name val []

/-- Go `(*OpTree).SetValue`. -/
def BuiltTree.SetValue (t : BuiltTree) (template : Option OpTmpl) : BuiltTree :=
  .node t.name template t.children

/-- Go `(*OpTree).AddChild` on a tree value; the error is what `buildOpTree`
does not look at. -/
def BuiltTree.AddChild (t child : BuiltTree) : BuiltTree :=
  if t.children.any (fun c => c.name == child.name) then t
  else .node t.name t.value (t.children ++ [child])

/-- Go `(*OpTmpl).Run` on `t.value`, which may be nil. -/
def BuiltTree.Run (t : BuiltTree) : String :=
  match t.value with
  | none => ""
  | some v => v.Run

mutual

/-- Go `buildOpTree` on the entry found at `path`; `Lstat` succeeds, and
`readDir` fails on what is not a directory. -/
def buildOpTree (path : String) (caps : List (String × Bool)) :
    FsNode → Except String BuiltTree
  | .file _ _ => .error ("readdirent " ++ path ++ ": not a directory")
  | .dir name entries => buildLoop path caps entries (NewOpTree name none)

/-- The `for _, fileInfo := range children` loop of `buildOpTree`. -/
def buildLoop (path : String) (caps : List (String × Bool)) :
    List FsNode → BuiltTree → Except String BuiltTree
  | [], root => .ok root
  | .file name parsed :: rest, root =>
    if name = "node.def" then
      match parsed with
      | .error err => .error err
      | .ok tmpl =>
        if !featuresEnabled tmpl caps then
          .error ("Node disabled " ++ path ++ ": " ++ tmpl.Features)
        else buildLoop path caps rest (root.SetValue (some tmpl))
    else buildLoop path caps rest root
  | .dir name entries :: rest, root =>
    match buildOpTree (path ++ "/" ++ name) caps (.dir name entries) with
    | .error _ => buildLoop path caps rest root
    | .ok t =>
      if t.Run = "" ∧ t.children.length = 0 then buildLoop path caps rest root
      else buildLoop path caps rest (root.AddChild t)

end

/-- Whether the entries of a directory hold a `node.def` that stops the build
of the directory: one `parseTmpl` fails on, or one with a feature that is not
enabled. -/
def nodeDefFails (caps : List (String × Bool)) (entries : List FsNode) : Bool :=
  entries.any (fun e =>
    match e with
    | .file name (.error _) => name = "node.def"
    | .file name (.ok tmpl) => name = "node.def" && !featuresEnabled tmpl caps
    | .dir _ _ => false)

/-- The names of the directories among the entries. -/
def dirNames (entries : List FsNode) : List String :=
  entries.filterMap (fun e =>
    match e with
    | .file _ _ => none
    | .dir name _ => some name)

/-- The property `p` holds at every node of the tree. -/
inductive BuiltTree.Forall (p : BuiltTree → Prop) : BuiltTree → Prop where
  | node (name : String) (value : Option OpTmpl) (children : List BuiltTree) :
      p (.node name value children) → (∀ c ∈ children, BuiltTree.Forall p c) →
      BuiltTree.Forall p (.node name value children)

/-- The record of a node, when it has one, has all its features enabled. -/
def FeaturesOn (caps : List (String × Bool)) (t : BuiltTree) : Prop :=
  ∀ v, t.value = some v → featuresEnabled v caps = true

/-- The entries of the directory `ospf` of `showHierarchy`: the directory
`neighbor` (no feature, with a run command) and a `node.def` with the feature
`vrouter:ospf` and a run command. -/
def ospfEntries : List FsNode :=
  [.dir "neighbor" [.file "node.def"
      (.ok ((NewOpTmpl "" "Neighbors" "" "vtysh -c nbr").SetPriv true))],
    .file "node.def"
      (.ok (((NewOpTmpl "" "Show OSPF" "" "vtysh -c ospf").SetPriv true).SetFeatures
        ";vrouter:ospf"))]

/-- The entries of `showHierarchy` after the directory `ospf`: `tech` (feature
`vrouter:bgp`, no run command, no directory below it) and `version` (no
feature, with a run command). -/
def showTail : List FsNode :=
  [.dir "tech" [.file "node.def"
      (.ok (((NewOpTmpl "" "Show tech" "" "").SetPriv true).SetFeatures ";vrouter:bgp"))],
    .dir "version" [.file "node.def"
      (.ok ((NewOpTmpl "" "Show version" "" "uname -a").SetPriv true))]]

/-- The entries of `showHierarchy` before the directory `ospf`: `bgp` (feature
`vrouter:bgp`, with a run command) and the `node.def` of `show` itself. -/
def showHead : List FsNode :=
  [.dir "bgp" [.file "node.def"
      (.ok (((NewOpTmpl "" "Show BGP" "" "vtysh -c bgp").SetPriv true).SetFeatures
        ";vrouter:bgp"))],
    .file "node.def" (.ok ((NewOpTmpl "" "Show" "" "").SetPriv true))]

/-- A hierarchy: the directory `show` with the entries `bgp`, `node.def`,
`ospf`, `tech` and `version`. -/
def showHierarchy : FsNode :=
  .dir "show" (showHead ++ .dir "ospf" ospfEntries :: showTail)

/-- The capability map with the one key `vrouter:bgp`. -/
def bgpCaps : List (String × Bool) := [("vrouter:bgp", true)]

/-- The tree built from `showHierarchy` with the capabilities `bgpCaps`. -/
def showBuilt : BuiltTree :=
  .node "show" (some ((NewOpTmpl "" "Show" "" "").SetPriv true))
    [.node "bgp"
      (some (((NewOpTmpl "" "Show BGP" "" "vtysh -c bgp").SetPriv true).SetFeatures
        ";vrouter:bgp")) [],
     .node "version" (some ((NewOpTmpl "" "Show version" "" "uname -a").SetPriv true)) []]

/-! ## What the lexer sends -/

/-- The lists of items the lexer sends: fields, each followed by its value,
and then the end of input, a bad field, or nothing more (the input ends in a
value). -/
inductive Sent : List item → Prop where
  | done : Sent []
  | eof : Sent [⟨.itemEOF, ""⟩]
  | bad (word : String) : Sent [⟨.itemError, "bad field " ++ word⟩]
  | field (k v : item) (rest : List item) :
      itemType.itemKeyword.toNat < k.typ.toNat → v.typ = .itemValue → Sent rest →
      Sent (k :: v :: rest)

/-- The characters of a text made of entries `field:value`, each on a line of
its own. -/
def entriesChars : List (String × String) → List Char
  | [] => []
  | (k, v) :: es => k.toList ++ (fieldDelim :: (v.toList ++ ('\n' :: entriesChars es)))

/-! ## Include chains -/

/-- The node reached from `t` after `i` include links, `none` when the chain
of include links from `t` ends before. -/
def includeAt (s : Store) (t : Nat) : Nat → Option Nat
  | 0 => some t
  | i + 1 =>
    match includeAt s t i with
    | none => none
    | some x => (s x).include_

/-- The chain of include links from `t` does not come back to a node it has
left: it is acyclic. -/
def includeAcyclic (s : Store) (t : Nat) : Prop :=
  ∀ i j x, i < j → includeAt s t i = some x → includeAt s t j ≠ some x

/-- Two nodes that include each other: `a` (0), with the child `x` (2), includes
`b` (1), with the child `y` (3), and `b` includes `a`. -/
def cycleStore : Store := fun n =>
  match n with
  | 0 => { name := "a", value := none, parent := some 0, include_ := some 1,
           children := [("x", 2)] }
  | 1 => { name := "b", value := none, parent := some 1, include_ := some 0,
           children := [("y", 3)] }
  | 2 => { name := "x", value := none, parent := some 0, include_ := none, children := [] }
  | 3 => { name := "y", value := none, parent := some 1, include_ := none, children := [] }
  | _ => { name := "z", value := none, parent := none, include_ := none, children := [] }

/-- The schema `flaggedCommands` with every node of the type class `tc`. -/
def flaggedTyped (tc : TypeClass) : Schema :=
  { flaggedCommands with TypeClass := fun _ => tc }

/-! ## More schemas and authorisers -/

/-- A command `show` (1) that has the child command `version` (2) and declares
no argument: its `Arguments` list is empty. -/
def bareCommand : Schema where
  root := 0
  Name := fun n =>
    match n with
    | 1 => "show" | 2 => "version" | _ => ""
  Kind := fun n =>
    match n with
    | 0 => .Tree | _ => .OpdCommand
  Children := fun n =>
    match n with
    | 0 => [1] | 1 => [2] | _ => []
  Parent := fun _ => none
  Arguments := fun _ => []
  TypeIsEmpty := fun _ => true
  GetHelp := fun _ => ""

/-- A model set with no `Arguments` whose children are a command with the
empty string as its name (1) and the command `show` (2). -/
def emptyNameCommands : Schema where
  root := 0
  Name := fun n =>
    match n with
    | 2 => "show" | _ => ""
  Kind := fun n =>
    match n with
    | 0 => .Tree | _ => .OpdCommand
  Children := fun n =>
    match n with
    | 0 => [1, 2] | _ => []
  Parent := fun _ => none
  Arguments := fun _ => []
  TypeIsEmpty := fun _ => true
  GetHelp := fun _ => ""

/-- A model set that declares the argument `host`: its children are the
argument `host` (1, of type string) and the command `show` (2). -/
def rootArgument : Schema where
  root := 0
  Name := fun n =>
    match n with
    | 1 => "host" | 2 => "show" | _ => ""
  Kind := fun n =>
    match n with
    | 0 => .Tree | 1 => .OpdArgument | _ => .OpdCommand
  Children := fun n =>
    match n with
    | 0 => [1, 2] | _ => []
  Parent := fun _ => none
  Arguments := fun n =>
    match n with
    | 0 => ["host"] | _ => []
  TypeIsEmpty := fun n => decide (n ≠ 1)
  GetHelp := fun _ => ""

/-- An authoriser that denies every path. -/
def authoriseDenyAll : Authoriser := fun _ => (false, none)

/-- An authoriser that denies the path `show` and no other. -/
def authoriseDenyShow : Authoriser := fun path =>
  if path = ["show"] then (false, none) else (true, none)

/-! ## What `ProcessMatches` emits for the lists of `ExpandMatches` -/

/-- The token `ProcessMatches` emits for the list `l` of the token `tok` when it
emits one: the name of the candidate of a list of one candidate that is not an
argument, the token itself otherwise. -/
def emitToken (S : Schema) (tok : String) (l : List expandMatch) : String :=
  match l with
  | [e] => if e.isarg then tok else S.Name e.node
  | _ => tok

/-- The tokens `ProcessMatches` emits for the lists `ls` of the tokens of a
path, list by list. -/
def emitTokens (S : Schema) : List String → List (List expandMatch) → List String
  | tok :: p, l :: ls => emitToken S tok l :: emitTokens S p ls
  | _, _ => []

/-- The candidate list `l` fits the token `tok`: a candidate that is not an
argument candidate is a child, of some cursor, whose name has the token as a
prefix; and in a list of several candidates none is an argument candidate and
none is named exactly like the token. -/
def ListFor (S : Schema) (tok : String) (l : List expandMatch) : Prop :=
  (∀ e ∈ l, e.isarg = true ∨
    (HasPrefix (S.Name e.node) tok = true ∧ ∃ sch, e.node ∈ effChildren S sch)) ∧
  (2 ≤ l.length → ∀ e ∈ l, e.isarg = false ∧ S.Name e.node ≠ tok)

/-- The candidate lists `ls` fit the tokens of a path, one list per token from
its first token on. -/
def ListsFor (S : Schema) : List String → List (List expandMatch) → Prop
  | _, [] => True
  | [], _ :: _ => False
  | tok :: p, l :: ls => ListFor S tok l ∧ ListsFor S p ls

/-- The candidate lists `ls` cover the path, or end in a list that is not of
one candidate. -/
def ListsComplete (p : List String) (ls : List (List expandMatch)) : Prop :=
  ls.length = p.length ∨ ∃ l, ls.getLast? = some l ∧ l.length ≠ 1

theorem processMatchesLoop_append (path : List String) (ms1 ms2 : List (List Match)) :
    ∀ idx epath, processMatchesLoop path idx epath (ms1 ++ ms2) =
      match processMatchesLoop path idx epath ms1 with
      | some (.ok e) => processMatchesLoop path (idx + ms1.length) e ms2
      | other => other := by
  induction ms1 with
  | nil => intro idx epath; simp [processMatchesLoop]
  | cons entry ms1 ih =>
    intro idx epath
    have hidx : idx + (ms1.length + 1) = idx + 1 + ms1.length := by omega
    rcases entry with _ | ⟨e, _ | ⟨e2, t⟩⟩
    · simp only [List.cons_append, processMatchesLoop]
      cases path[idx]? <;> rfl
    · simp only [List.cons_append, processMatchesLoop]
      split
      · cases path[idx]? with
        | none => rfl
        | some tok => simp only [List.length_cons]; rw [List.append_eq, ih, hidx]
      · simp only [List.length_cons]; rw [List.append_eq, ih, hidx]
    · simp only [List.cons_append, processMatchesLoop]
      cases path[idx]? with
      | none => rfl
      | some tok =>
        simp only
        split
        · rfl
        · simp only [List.length_cons]; rw [List.append_eq, ih, hidx]

theorem processMatchesLoop_ok_extends (path : List String) (ms : List (List Match)) :
    ∀ idx epath out, processMatchesLoop path idx epath ms = some (.ok out) →
      ∃ more, out = epath ++ more ∧ more.length = ms.length := by
  induction ms with
  | nil =>
    intro idx epath out h
    simp only [processMatchesLoop, Option.some.injEq, Except.ok.injEq] at h
    exact ⟨[], by simp [h], rfl⟩
  | cons entry ms ih =>
    intro idx epath out h
    rcases entry with _ | ⟨e, _ | ⟨e2, t⟩⟩
    · simp only [processMatchesLoop] at h
      cases hp : path[idx]? <;> simp [hp] at h
    · simp only [processMatchesLoop] at h
      split at h
      · cases hp : path[idx]? with
        | none => simp [hp] at h
        | some tok =>
          simp only [hp] at h
          obtain ⟨more, h1, h2⟩ := ih _ _ _ h
          exact ⟨tok :: more, by simp [h1], by simp [h2]⟩
      · obtain ⟨more, h1, h2⟩ := ih _ _ _ h
        exact ⟨e.Name :: more, by simp [h1], by simp [h2]⟩
    · simp only [processMatchesLoop] at h
      cases hp : path[idx]? with
      | none => simp [hp] at h
      | some tok =>
        simp only [hp] at h
        split at h
        · simp at h
        · obtain ⟨more, h1, h2⟩ := ih _ _ _ h
          exact ⟨tok :: more, by simp [h1], by simp [h2]⟩

/-! ## Lemmas on the `Matches` map -/

theorem mem_keys_mapSet (m : List (String × String)) (k v k' : String) :
    k' ∈ (mapSet m k v).map Prod.fst ↔ k' ∈ m.map Prod.fst ∨ k' = k := by
  induction m with
  | nil => simp [mapSet]
  | cons p m ih =>
    obtain ⟨a, b⟩ := p
    simp only [mapSet]
    split
    · next h => subst h; simp only [List.map_cons, List.mem_cons]; tauto
    · simp only [List.map_cons, List.mem_cons, ih]; tauto

theorem mem_mapSet (m : List (String × String)) (k v : String) (p : String × String)
    (h : p ∈ mapSet m k v) : p ∈ m ∨ p = (k, v) := by
  induction m with
  | nil => simpa [mapSet] using h
  | cons q m ih =>
    obtain ⟨a, b⟩ := q
    simp only [mapSet] at h
    split at h
    · simp only [List.mem_cons] at h ⊢; tauto
    · simp only [List.mem_cons] at h ⊢
      rcases h with h | h
      · exact Or.inl (Or.inl h)
      · rcases ih h with h | h
        · exact Or.inl (Or.inr h)
        · exact Or.inr h

theorem ambigScan_none (tok : String) (entry : List Match) :
    ∀ acc, (∀ c ∈ entry, c.Name ≠ tok ∧ c.IsArg = false) →
      ambigScan tok entry acc =
        (false, entry.foldl (fun a c => mapSet a c.Name c.Help) acc) := by
  induction entry with
  | nil => intro acc _; rfl
  | cons c cs ih =>
    intro acc h
    have hc := h c (List.mem_cons_self _ _)
    simp only [ambigScan, hc.1, hc.2, decide_False, Bool.or_self, Bool.false_eq_true,
      if_false, List.foldl_cons]
    exact ih _ (fun c' hc' => h c' (List.mem_cons_of_mem _ hc'))

theorem ambigScan_some (tok : String) (entry : List Match) :
    ∀ acc, (∃ c ∈ entry, c.Name = tok ∨ c.IsArg = true) →
      (ambigScan tok entry acc).1 = true := by
  induction entry with
  | nil => intro acc h; simp at h
  | cons c cs ih =>
    intro acc h
    simp only [ambigScan]
    split
    · rfl
    · next hn =>
      simp only [Bool.or_eq_true, decide_eq_true_eq, not_or] at hn
      obtain ⟨c', hc', hx⟩ := h
      rcases List.mem_cons.1 hc' with rfl | hc'
      · exact absurd hx (by tauto)
      · exact ih _ ⟨c', hc', hx⟩

theorem mem_keys_foldl_mapSet (entry : List Match) :
    ∀ (acc : List (String × String)) (k : String),
      k ∈ (entry.foldl (fun a c => mapSet a c.Name c.Help) acc).map Prod.fst ↔
        k ∈ acc.map Prod.fst ∨ ∃ c ∈ entry, c.Name = k := by
  induction entry with
  | nil => intro acc k; simp
  | cons c cs ih =>
    intro acc k
    simp only [List.foldl_cons, ih, mem_keys_mapSet, List.mem_cons, exists_eq_or_imp]
    constructor
    · rintro ((h | h) | h)
      · exact Or.inl h
      · exact Or.inr (Or.inl h.symm)
      · exact Or.inr (Or.inr h)
    · rintro (h | h | h)
      · exact Or.inl (Or.inl h)
      · exact Or.inl (Or.inr h.symm)
      · exact Or.inr h

theorem mem_foldl_mapSet (entry : List Match) :
    ∀ (acc : List (String × String)) (p : String × String),
      p ∈ entry.foldl (fun a c => mapSet a c.Name c.Help) acc →
        p ∈ acc ∨ ∃ c ∈ entry, c.Name = p.1 ∧ c.Help = p.2 := by
  induction entry with
  | nil => intro acc p h; exact Or.inl h
  | cons c cs ih =>
    intro acc p h
    simp only [List.foldl_cons] at h
    rcases ih _ _ h with h | ⟨c', hc', hx⟩
    · rcases mem_mapSet _ _ _ _ h with h | h
      · exact Or.inl h
      · exact Or.inr ⟨c, List.mem_cons_self _ _, by simp [h]⟩
    · exact Or.inr ⟨c', List.mem_cons_of_mem _ hc', hx⟩

/-! ## Lemmas on MergeMatches -/

theorem foldl_appendEntry (l : List Match) :
    ∀ a, ∃ extra, l.foldl appendEntry a = a ++ extra ∧ extra.Sublist l := by
  induction l with
  | nil => intro a; exact ⟨[], by simp, List.Sublist.refl _⟩
  | cons b l ih =>
    intro a
    simp only [List.foldl_cons]
    by_cases hb : appendEntry a b = a
    · obtain ⟨extra, h1, h2⟩ := ih a
      exact ⟨extra, by rw [hb, h1], h2.cons b⟩
    · have hb' : appendEntry a b = a ++ [b] := by
        unfold appendEntry at hb ⊢
        split
        · next h => simp [h] at hb
        · rfl
      obtain ⟨extra, h1, h2⟩ := ih (a ++ [b])
      exact ⟨b :: extra, by rw [hb', h1]; simp, h2.cons₂ b⟩

/-! ## Lemmas on the walk of `ExpandMatches` -/

theorem processchildren_nil (S : Schema) (auth : Option Authoriser) (sch : Nat) (r : results) :
    processchildren S auth sch [] r = some r := by
  rw [processchildren]

theorem processopdcommand_cases (S : Schema) (auth : Option Authoriser) (n : Nat)
    (path : List String) (r : results) :
    processopdcommand S auth n path r = some r ∨
    processopdcommand S auth n path r = none ∨
    processopdcommand S auth n path r = processchildren S auth n path r := by
  cases path with
  | nil => left; rw [processopdcommand]
  | cons tok rest =>
    rw [processopdcommand]
    cases commandScan S n tok (S.Children n) with
    | none => right; left; rfl
    | some b => right; right; rfl

theorem processnode_nil (S : Schema) (auth : Option Authoriser) (sch : Option Nat)
    (r : results) : processnode S auth sch [] r = some r := by
  cases sch with
  | none => rw [processnode]
  | some n =>
    rw [processnode]
    cases S.Kind n <;> simp only [processchildren_nil]
    · rw [processopdcommand]
    · rw [processopdoption]
      split
      · rfl
      · rw [processopdcommand]

theorem processnode_option_typed (S : Schema) (auth : Option Authoriser) (n : Nat)
    (val : String) (rest : List String) (r : results)
    (hk : S.Kind n = .OpdOption) (ht : S.TypeIsEmpty n = false) :
    processnode S auth (some n) (val :: rest) r =
      processchildren S auth n rest
        { m := r.m ++ [[⟨n, true⟩]], cpath := r.cpath ++ [val] } := by
  rw [processnode]
  simp only [hk]
  rw [processopdoption]
  simp [ht]

theorem processnode_cases (S : Schema) (auth : Option Authoriser) (n : Nat)
    (path : List String) (r : results) :
    processnode S auth (some n) path r = some r ∨
    processnode S auth (some n) path r = none ∨
    processnode S auth (some n) path r = processchildren S auth n path r ∨
    ∃ val rest, path = val :: rest ∧ S.Kind n = .OpdOption ∧ S.TypeIsEmpty n = false ∧
      processnode S auth (some n) path r =
        processchildren S auth n rest
          { m := r.m ++ [[⟨n, true⟩]], cpath := r.cpath ++ [val] } := by
  cases path with
  | nil => left; exact processnode_nil S auth _ r
  | cons val rest =>
    cases hk : S.Kind n with
    | Tree => right; right; left; rw [processnode]; simp only [hk]
    | OpdArgument => right; right; left; rw [processnode]; simp only [hk]
    | Other => left; rw [processnode]; simp only [hk]
    | OpdCommand =>
      have h : processnode S auth (some n) (val :: rest) r =
          processopdcommand S auth n (val :: rest) r := by
        rw [processnode]; simp only [hk]
      rw [h]
      rcases processopdcommand_cases S auth n (val :: rest) r with h | h | h
      · exact Or.inl h
      · exact Or.inr (Or.inl h)
      · exact Or.inr (Or.inr (Or.inl h))
    | OpdOption =>
      cases ht : S.TypeIsEmpty n with
      | false =>
        right; right; right
        exact ⟨val, rest, rfl, rfl, rfl, processnode_option_typed S auth n val rest r hk ht⟩
      | true =>
        have h : processnode S auth (some n) (val :: rest) r =
            processopdcommand S auth n (val :: rest) r := by
          rw [processnode]; simp only [hk]
          rw [processopdoption]; simp [ht]
        rw [h]
        rcases processopdcommand_cases S auth n (val :: rest) r with h | h | h
        · exact Or.inl h
        · exact Or.inr (Or.inl h)
        · exact Or.inr (Or.inr (Or.inl h))

/-- From the growth property of `processchildren` on paths of length at most
`n`, the same property of `processnode`. -/
theorem processnode_grows_of (S : Schema) (auth : Option Authoriser) (n : Nat)
    (ih : ∀ path : List String, path.length ≤ n → ∀ sch r rf,
      processchildren S auth sch path r = some rf →
        ∃ ext, rf.m = r.m ++ ext ∧ ext.length ≤ path.length)
    (path : List String) (hlen : path.length ≤ n) (sch : Option Nat) (r rf : results)
    (h : processnode S auth sch path r = some rf) :
    ∃ ext, rf.m = r.m ++ ext ∧ ext.length ≤ path.length := by
  cases sch with
  | none =>
    rw [processnode] at h
    simp only [Option.some.injEq] at h
    subst h
    exact ⟨[], by simp, Nat.zero_le _⟩
  | some x =>
    rcases processnode_cases S auth x path r with h1 | h1 | h1 | ⟨v, rest, hp, _, _, h1⟩
    · rw [h1] at h
      simp only [Option.some.injEq] at h
      subst h
      exact ⟨[], by simp, Nat.zero_le _⟩
    · rw [h1] at h; simp at h
    · rw [h1] at h; exact ih path hlen x r rf h
    · rw [h1] at h
      subst hp
      obtain ⟨ext, he, hl⟩ := ih rest (by simp at hlen; omega) x _ rf h
      exact ⟨[⟨x, true⟩] :: ext, by simp [he], by simp; omega⟩

theorem processchildren_grows_aux (S : Schema) (auth : Option Authoriser) :
    ∀ n, ∀ path : List String, path.length ≤ n → ∀ sch r rf,
      processchildren S auth sch path r = some rf →
        ∃ ext, rf.m = r.m ++ ext ∧ ext.length ≤ path.length := by
  intro n
  induction n with
  | zero =>
    intro path hlen sch r rf h
    have hp : path = [] := List.length_eq_zero.1 (Nat.le_zero.1 hlen)
    subst hp
    rw [processchildren_nil] at h
    simp only [Option.some.injEq] at h
    subst h
    exact ⟨[], by simp, Nat.zero_le _⟩
  | succ n ih =>
    intro path hlen sch r rf h
    cases path with
    | nil =>
      rw [processchildren_nil] at h
      simp only [Option.some.injEq] at h
      subst h
      exact ⟨[], by simp, Nat.zero_le _⟩
    | cons val rest =>
      have hrest : rest.length ≤ n := by simp at hlen; omega
      rw [processchildren] at h
      split at h
      · split at h
        · obtain ⟨ext, he, hl⟩ := processnode_grows_of S auth n ih rest hrest _ _ rf h
          refine ⟨_, by rw [he, List.append_assoc], ?_⟩
          simp only [List.length_append, List.length_cons, List.length_nil]; omega
        · simp only [Option.some.injEq] at h
          subst h
          exact ⟨[[]], rfl, by simp⟩
      · obtain ⟨ext, he, hl⟩ := processnode_grows_of S auth n ih rest hrest _ _ rf h
        refine ⟨_, by rw [he, List.append_assoc], ?_⟩
        simp only [List.length_append, List.length_cons, List.length_nil]; omega
      · simp only [Option.some.injEq] at h
        subst h
        exact ⟨[_], rfl, by simp⟩

/-- The closure `processchildren` only appends to `r.m`, at most one list per token. -/
theorem processchildren_grows (S : Schema) (auth : Option Authoriser) (sch : Nat)
    (path : List String) (r rf : results)
    (h : processchildren S auth sch path r = some rf) :
    ∃ ext, rf.m = r.m ++ ext ∧ ext.length ≤ path.length :=
  processchildren_grows_aux S auth path.length path (Nat.le_refl _) sch r rf h

/-- The closure `processnode` only appends to `r.m`, at most one list per token. -/
theorem processnode_grows (S : Schema) (auth : Option Authoriser) (sch : Option Nat)
    (path : List String) (r rf : results)
    (h : processnode S auth sch path r = some rf) :
    ∃ ext, rf.m = r.m ++ ext ∧ ext.length ≤ path.length :=
  processnode_grows_of S auth path.length
    (fun p _ sch r rf => processchildren_grows S auth sch p r rf) path (Nat.le_refl _) sch r rf h

theorem HasPrefix_self (s : String) : HasPrefix s s = true := by
  simp [HasPrefix]

theorem exactCandidate_iff (S : Schema) (auth : Option Authoriser) (cpath : List String)
    (argNm val : String) (c : Nat) :
    exactCandidate S auth cpath argNm val c = true ↔
      nameCandidate S auth cpath argNm val c = true ∧ S.Name c = val := by
  unfold exactCandidate nameCandidate
  constructor
  · intro h
    simp only [Bool.and_eq_true, bne_iff_ne, ne_eq, beq_iff_eq] at h
    obtain ⟨⟨h1, h2⟩, h3⟩ := h
    refine ⟨?_, h2⟩
    simp only [Bool.and_eq_true, bne_iff_ne, ne_eq]
    exact ⟨⟨h1, by rw [h2]; exact HasPrefix_self val⟩, h3⟩
  · rintro ⟨h, h2⟩
    simp only [Bool.and_eq_true, bne_iff_ne, ne_eq, beq_iff_eq] at h ⊢
    exact ⟨⟨h.1.1, h2⟩, h.2⟩

theorem nameCandidate_iff (S : Schema) (auth : Option Authoriser) (cpath : List String)
    (argNm val : String) (c : Nat) :
    nameCandidate S auth cpath argNm val c = true ↔
      S.Name c ≠ argNm ∧ HasPrefix (S.Name c) val = true ∧
        permitted (authorise cpath (S.Name c) auth) = true := by
  unfold nameCandidate
  simp only [Bool.and_eq_true, bne_iff_ne, ne_eq]
  tauto

/-- One iteration of the loop of `processchildren`, by the two predicates. -/
theorem scanChildren_cons (S : Schema) (auth : Option Authoriser) (cpath : List String)
    (argNm val : String) (c : Nat) (cs : List Nat) (st : scan) :
    scanChildren S auth cpath argNm val (c :: cs) st =
      if S.Name c = argNm then
        scanChildren S auth cpath argNm val cs { st with argChild := some c }
      else if exactCandidate S auth cpath argNm val c = true then
        { st with matched := [⟨c, false⟩], nextNode := some c }
      else if nameCandidate S auth cpath argNm val c = true then
        scanChildren S auth cpath argNm val cs
          { st with matched := st.matched ++ [⟨c, false⟩], nextNode := some c }
      else scanChildren S auth cpath argNm val cs st := by
  rw [scanChildren]
  simp only [exactCandidate_iff, nameCandidate_iff]
  by_cases h1 : S.Name c = argNm
  · simp [h1]
  · by_cases h2 : S.Name c = val
    · subst h2
      by_cases h3 : permitted (authorise cpath (S.Name c) auth) = true <;>
        simp [h1, h3, HasPrefix_self]
    · by_cases h4 : HasPrefix (S.Name c) val = true <;>
        by_cases h3 : permitted (authorise cpath (S.Name c) auth) = true <;>
        simp [h1, h2, h3, h4]

theorem exactCandidate_of_argNm (S : Schema) (auth : Option Authoriser)
    (cpath : List String) (argNm val : String) (c : Nat) (h : S.Name c = argNm) :
    exactCandidate S auth cpath argNm val c = false := by
  simp [exactCandidate, h]

theorem nameCandidate_of_argNm (S : Schema) (auth : Option Authoriser)
    (cpath : List String) (argNm val : String) (c : Nat) (h : S.Name c = argNm) :
    nameCandidate S auth cpath argNm val c = false := by
  simp [nameCandidate, h]

theorem scanChildren_matched (S : Schema) (auth : Option Authoriser) (cpath : List String)
    (argNm val : String) (cs : List Nat) :
    ∀ st, (scanChildren S auth cpath argNm val cs st).matched =
      match cs.find? (exactCandidate S auth cpath argNm val) with
      | some e => [⟨e, false⟩]
      | none => st.matched ++
          (cs.filter (nameCandidate S auth cpath argNm val)).map (fun c => ⟨c, false⟩) := by
  induction cs with
  | nil => intro st; simp [scanChildren]
  | cons c cs ih =>
    intro st
    rw [scanChildren_cons]
    simp only [List.find?_cons, List.filter_cons]
    by_cases h1 : S.Name c = argNm
    · simp only [h1, if_true, ih, exactCandidate_of_argNm S auth cpath argNm val c h1,
        nameCandidate_of_argNm S auth cpath argNm val c h1, Bool.false_eq_true, if_false]
    · by_cases hE : exactCandidate S auth cpath argNm val c = true
      · simp only [h1, hE, if_true, if_false]
      · have hE' : exactCandidate S auth cpath argNm val c = false := by simpa using hE
        by_cases hN : nameCandidate S auth cpath argNm val c = true
        · simp only [h1, hE', hN, if_true, if_false, ih, Bool.false_eq_true, List.map_cons,
            List.append_assoc, List.singleton_append]
        · simp only [h1, hE', hN, if_false, ih, Bool.false_eq_true]

theorem scanChildren_nextNode (S : Schema) (auth : Option Authoriser) (cpath : List String)
    (argNm val : String) (cs : List Nat) :
    ∀ st, (scanChildren S auth cpath argNm val cs st).nextNode =
      match cs.find? (exactCandidate S auth cpath argNm val) with
      | some e => some e
      | none => lastOr st.nextNode (cs.filter (nameCandidate S auth cpath argNm val)) := by
  induction cs with
  | nil => intro st; simp [scanChildren, lastOr]
  | cons c cs ih =>
    intro st
    rw [scanChildren_cons]
    simp only [List.find?_cons, List.filter_cons]
    by_cases h1 : S.Name c = argNm
    · simp only [h1, if_true, ih, exactCandidate_of_argNm S auth cpath argNm val c h1,
        nameCandidate_of_argNm S auth cpath argNm val c h1, Bool.false_eq_true, if_false]
    · by_cases hE : exactCandidate S auth cpath argNm val c = true
      · simp only [h1, hE, if_true, if_false]
      · have hE' : exactCandidate S auth cpath argNm val c = false := by simpa using hE
        by_cases hN : nameCandidate S auth cpath argNm val c = true
        · simp only [h1, hE', hN, if_true, if_false, ih, Bool.false_eq_true, lastOr,
            List.foldl_cons]
        · simp only [h1, hE', hN, if_false, ih, Bool.false_eq_true]

theorem scanChildren_argChild (S : Schema) (auth : Option Authoriser) (cpath : List String)
    (argNm val : String) (cs : List Nat)
    (hno : cs.find? (exactCandidate S auth cpath argNm val) = none) :
    ∀ st, (scanChildren S auth cpath argNm val cs st).argChild =
      lastOr st.argChild (cs.filter (fun c => S.Name c == argNm)) := by
  induction cs with
  | nil => intro st; simp [scanChildren, lastOr]
  | cons c cs ih =>
    intro st
    rw [scanChildren_cons]
    simp only [List.find?_cons] at hno
    simp only [List.filter_cons, beq_iff_eq]
    by_cases h1 : S.Name c = argNm
    · simp only [exactCandidate_of_argNm S auth cpath argNm val c h1] at hno
      simp only [h1, if_true, ih hno, lastOr, List.foldl_cons]
    · by_cases hE : exactCandidate S auth cpath argNm val c = true
      · simp [hE] at hno
      · have hE' : exactCandidate S auth cpath argNm val c = false := by simpa using hE
        simp only [hE'] at hno
        by_cases hN : nameCandidate S auth cpath argNm val c = true
        · simp only [h1, hE', hN, if_true, if_false, ih hno, Bool.false_eq_true]
        · simp only [h1, hE', hN, if_false, ih hno, Bool.false_eq_true]

/-! ## Steps of the walk -/

theorem drop_eq_cons {α : Type} (path : List α) (n : Nat) (val : α) (rest : List α)
    (h : path.drop n = val :: rest) :
    n < path.length ∧ path[n]? = some val ∧ path.drop (n + 1) = rest := by
  have hlt : n < path.length := by
    by_contra hn
    rw [List.drop_eq_nil_of_le (Nat.le_of_not_lt hn)] at h
    exact List.noConfusion h
  refine ⟨hlt, ?_, ?_⟩
  · have := List.getElem?_drop path n 0
    rw [h] at this
    simpa using this.symm
  · have h2 : path.drop (n + 1) = (path.drop n).drop 1 := by
      rw [List.drop_drop, Nat.add_comm]
    rw [h2, h]
    rfl

theorem processchildren_single (S : Schema) (auth : Option Authoriser) (sch : Nat)
    (val : String) (rest : List String) (r : results) (c : Nat)
    (hm : (scanAt S auth sch r val).matched = [⟨c, false⟩])
    (hn : (scanAt S auth sch r val).nextNode = some c) :
    processchildren S auth sch (val :: rest) r =
      processnode S auth (some c) rest
        { m := r.m ++ [[⟨c, false⟩]], cpath := r.cpath ++ [S.Name c] } := by
  unfold scanAt at hm hn
  rw [processchildren]
  simp only [hm, hn]

theorem processchildren_several (S : Schema) (auth : Option Authoriser) (sch : Nat)
    (val : String) (rest : List String) (r : results) (m1 m2 : expandMatch)
    (ms : List expandMatch)
    (hm : (scanAt S auth sch r val).matched = m1 :: m2 :: ms) :
    processchildren S auth sch (val :: rest) r =
      some { r with m := r.m ++ [m1 :: m2 :: ms] } := by
  unfold scanAt at hm
  rw [processchildren]
  simp only [hm]

theorem processchildren_arg (S : Schema) (auth : Option Authoriser) (sch : Nat)
    (val : String) (rest : List String) (r : results) (a : Nat)
    (hm : (scanAt S auth sch r val).matched = [])
    (ha : (scanAt S auth sch r val).argChild = some a) :
    processchildren S auth sch (val :: rest) r =
      processnode S auth (some a) rest
        { m := r.m ++ [[⟨a, true⟩]], cpath := r.cpath ++ [val] } := by
  unfold scanAt at hm ha
  rw [processchildren]
  simp only [hm, ha]

theorem processchildren_nomatch (S : Schema) (auth : Option Authoriser) (sch : Nat)
    (val : String) (rest : List String) (r : results)
    (hm : (scanAt S auth sch r val).matched = [])
    (ha : (scanAt S auth sch r val).argChild = none) :
    processchildren S auth sch (val :: rest) r = some { r with m := r.m ++ [[]] } := by
  unfold scanAt at hm ha
  rw [processchildren]
  simp only [hm, ha]

/-! ## From the walk to `Expand` -/

theorem Expand_eq (S : Schema) (auth : Option Authoriser) (path : List String) :
    Expand ⟨some S⟩ path auth =
      match processnode S auth (some S.root) path ⟨[], []⟩ with
      | none => none
      | some rf => ProcessMatches path (rf.matchLists S) := by
  simp only [Expand, ExpandMatches, results.matchLists]
  cases processnode S auth (some S.root) path ⟨[], []⟩ <;> rfl

theorem ExpandMatches_eq (S : Schema) (auth : Option Authoriser) (path : List String) :
    ExpandMatches ⟨some S⟩ path auth =
      (processnode S auth (some S.root) path ⟨[], []⟩).map (results.matchLists S) := by
  rfl

theorem Consistent.cpath_length {S : Schema} {path : List String} {r : results}
    (h : Consistent S path r) : r.cpath.length = r.m.length := by
  obtain ⟨more, h1, h2⟩ := processMatchesLoop_ok_extends path _ 0 [] r.cpath h.2
  simp only [List.nil_append] at h1
  rw [h1, h2]
  simp [results.matchLists]

theorem Consistent.init (S : Schema) (path : List String) : Consistent S path ⟨[], []⟩ :=
  ⟨Nat.zero_le _, rfl⟩

/-- Consuming one token with a single candidate keeps the results
consistent. -/
theorem Consistent.snoc {S : Schema} {path : List String} {r : results}
    (h : Consistent S path r) (val : String) (rest : List String)
    (htok : path.drop r.m.length = val :: rest) (e : expandMatch) :
    Consistent S path
      { m := r.m ++ [[e]], cpath := r.cpath ++ [if e.isarg then val else S.Name e.node] } := by
  obtain ⟨hlt, hget, _⟩ := drop_eq_cons path _ val rest htok
  refine ⟨by simp only [List.length_append, List.length_cons, List.length_nil]; omega, ?_⟩
  have h2 := h.2
  unfold ProcessMatches results.matchLists at h2 ⊢
  simp only [List.map_append, List.map_cons, List.map_nil]
  rw [processMatchesLoop_append, h2]
  simp only [Nat.zero_add, List.length_map, processMatchesLoop, expandMatch.toMatch, hget]
  cases e.isarg <;> simp

/-- The final results of a walk that is at `processnode` with results `r`
extend `r.m`; so what `Expand` returns, when it returns a path, extends
`r.cpath`. -/
theorem AtNode.ok_extends {S : Schema} {auth : Option Authoriser} {path : List String}
    {sch : Option Nat} {r : results} (h : AtNode S auth path sch r) (out : List String)
    (hout : Expand ⟨some S⟩ path auth = some (.ok out)) :
    ∃ more, out = r.cpath ++ more := by
  rw [Expand_eq, h.2] at hout
  cases hw : processnode S auth sch (path.drop r.m.length) r with
  | none => simp [hw] at hout
  | some rf =>
    simp only [hw] at hout
    obtain ⟨ext, he, _⟩ := processnode_grows S auth sch _ r rf hw
    have h2 := h.1.2
    unfold ProcessMatches results.matchLists at h2 hout
    rw [he, List.map_append, processMatchesLoop_append, h2] at hout
    obtain ⟨more, hm, _⟩ := processMatchesLoop_ok_extends path _ _ _ out hout
    exact ⟨more, hm⟩

theorem AtNode.done {S : Schema} {auth : Option Authoriser} {path : List String}
    {sch : Option Nat} {r : results} (h : AtNode S auth path sch r)
    (hend : path.drop r.m.length = []) :
    Expand ⟨some S⟩ path auth = some (.ok r.cpath) := by
  rw [Expand_eq, h.2, hend, processnode_nil]
  exact h.1.2

/-- The token emitted for the last list of consistent results. -/
theorem AtNode.emitted {S : Schema} {auth : Option Authoriser} {path : List String}
    {sch : Option Nat} {m : List (List expandMatch)} {l : List expandMatch}
    {cp : List String} {t : String}
    (h : AtNode S auth path sch { m := m ++ [l], cpath := cp ++ [t] }) (out : List String)
    (hout : Expand ⟨some S⟩ path auth = some (.ok out)) :
    out[m.length]? = some t := by
  obtain ⟨more, hm⟩ := h.ok_extends out hout
  have hl := h.1.cpath_length
  simp only [List.length_append, List.length_cons, List.length_nil] at hl
  have hl' : cp.length = m.length := by omega
  rw [hm]
  simp only [List.append_assoc, List.singleton_append]
  rw [List.getElem?_append_right (by omega)]
  simp [hl']

/-- The walk starts at `processnode` on the model set with empty results. -/
theorem AtNode.root (S : Schema) (auth : Option Authoriser) (path : List String) :
    AtNode S auth path (some S.root) ⟨[], []⟩ :=
  ⟨Consistent.init S path, rfl⟩

/-- From `processnode` on a `Tree` or `OpdArgument` node the walk goes to
`processchildren` on the same node. -/
theorem AtNode.toChildren {S : Schema} {auth : Option Authoriser} {path : List String}
    {n : Nat} {r : results} (h : AtNode S auth path (some n) r)
    (hk : S.Kind n = .Tree ∨ S.Kind n = .OpdArgument) :
    AtChildren S auth path n r := by
  refine ⟨h.1, ?_⟩
  rw [h.2, processnode]
  rcases hk with hk | hk <;> simp only [hk]

/-- One step of `processchildren` that consumes the token with the single
candidate `e` and goes on at `processnode` on `nxt`. -/
theorem AtChildren.step {S : Schema} {auth : Option Authoriser} {path : List String}
    {sch : Nat} {r : results} (h : AtChildren S auth path sch r)
    (val : String) (rest : List String) (htok : path.drop r.m.length = val :: rest)
    (e : expandMatch) (nxt : Option Nat)
    (hstep : processchildren S auth sch (val :: rest) r =
      processnode S auth nxt rest
        { m := r.m ++ [[e]], cpath := r.cpath ++ [if e.isarg then val else S.Name e.node] }) :
    AtNode S auth path nxt
      { m := r.m ++ [[e]], cpath := r.cpath ++ [if e.isarg then val else S.Name e.node] } := by
  refine ⟨h.1.snoc val rest htok e, ?_⟩
  rw [h.2, htok, hstep]
  simp only [List.length_append, List.length_cons, List.length_nil]
  rw [(drop_eq_cons path _ val rest htok).2.2]

/-! ## The candidate list of one token -/

theorem effChildren_of_ne_nil (S : Schema) (sch : Nat) (h : S.Children sch ≠ []) :
    effChildren S sch = S.Children sch ∧ effArgNm S sch = (S.Arguments sch).headD "" := by
  unfold effChildren effArgNm
  cases hc : S.Children sch with
  | nil => exact absurd hc h
  | cons c cs => exact ⟨rfl, rfl⟩

theorem effChildren_of_no_parent (S : Schema) (sch : Nat) (h : S.Parent sch = none) :
    effChildren S sch = S.Children sch := by
  unfold effChildren
  rw [h]
  cases S.Children sch <;> rfl

theorem lastOr_mem (d : Option Nat) (l : List Nat) (h : l ≠ []) :
    ∃ x ∈ l, lastOr d l = some x := by
  induction l generalizing d with
  | nil => exact absurd rfl h
  | cons a l ih =>
    by_cases hl : l = []
    · subst hl; exact ⟨a, List.mem_cons_self _ _, rfl⟩
    · obtain ⟨x, hx, he⟩ := ih (some a) hl
      exact ⟨x, List.mem_cons_of_mem _ hx, by simpa [lastOr] using he⟩

/-- Every name match the loop keeps is a permitted non-argument child whose
name has the token as a prefix. -/
theorem scanAt_matched_sound (S : Schema) (auth : Option Authoriser) (sch : Nat)
    (r : results) (val : String) (e : expandMatch)
    (he : e ∈ (scanAt S auth sch r val).matched) :
    e.isarg = false ∧ e.node ∈ effChildren S sch ∧
      nameCandidate S auth r.cpath (effArgNm S sch) val e.node = true := by
  unfold scanAt at he
  rw [scanChildren_matched] at he
  split at he
  · next x hx =>
    simp only [List.mem_singleton] at he
    subst he
    exact ⟨rfl, List.mem_of_find?_eq_some hx,
      ((exactCandidate_iff S auth r.cpath _ val x).1 (List.find?_some hx)).1⟩
  · simp only [List.nil_append, List.mem_map, List.mem_filter] at he
    obtain ⟨c, ⟨hc, hn⟩, rfl⟩ := he
    exact ⟨rfl, hc, hn⟩

/-- Without a permitted exact match, every permitted non-argument child whose
name has the token as a prefix is kept. -/
theorem scanAt_matched_complete (S : Schema) (auth : Option Authoriser) (sch : Nat)
    (r : results) (val : String)
    (hno : (effChildren S sch).find? (exactCandidate S auth r.cpath (effArgNm S sch) val)
      = none) :
    (scanAt S auth sch r val).matched =
      ((effChildren S sch).filter (nameCandidate S auth r.cpath (effArgNm S sch) val)).map
        (fun c => ⟨c, false⟩) := by
  unfold scanAt
  rw [scanChildren_matched, hno]
  rfl

/-- With a permitted exact match, the first one is the only match kept. -/
theorem scanAt_exact (S : Schema) (auth : Option Authoriser) (sch : Nat)
    (r : results) (val : String) (c : Nat)
    (hex : (effChildren S sch).find? (exactCandidate S auth r.cpath (effArgNm S sch) val)
      = some c) :
    (scanAt S auth sch r val).matched = [⟨c, false⟩] ∧
      (scanAt S auth sch r val).nextNode = some c := by
  unfold scanAt
  rw [scanChildren_matched, scanChildren_nextNode, hex]
  exact ⟨rfl, rfl⟩

theorem processchildren_one (S : Schema) (auth : Option Authoriser) (sch : Nat)
    (val : String) (rest : List String) (r : results) (m0 : expandMatch)
    (hm : (scanAt S auth sch r val).matched = [m0]) :
    processchildren S auth sch (val :: rest) r =
      processnode S auth (scanAt S auth sch r val).nextNode rest
        { m := r.m ++ [[m0]], cpath := r.cpath ++ [S.Name m0.node] } := by
  unfold scanAt at hm ⊢
  rw [processchildren]
  simp only [hm]

/-- The first list `processchildren` appends is `candidatesAt`. -/
theorem processchildren_cons_m (S : Schema) (auth : Option Authoriser) (sch : Nat)
    (val : String) (rest : List String) (r rf : results)
    (h : processchildren S auth sch (val :: rest) r = some rf) :
    ∃ ext, rf.m = r.m ++ candidatesAt S auth sch r val :: ext := by
  rcases hm : (scanAt S auth sch r val).matched with _ | ⟨m0, _ | ⟨m1, ms⟩⟩
  · cases ha : (scanAt S auth sch r val).argChild with
    | none =>
      rw [processchildren_nomatch S auth sch val rest r hm ha] at h
      simp only [Option.some.injEq] at h
      subst h
      exact ⟨[], by simp [candidatesAt, hm, ha]⟩
    | some a =>
      rw [processchildren_arg S auth sch val rest r a hm ha] at h
      obtain ⟨ext, he, _⟩ := processnode_grows S auth _ _ _ rf h
      exact ⟨ext, by simp [candidatesAt, hm, ha, he]⟩
  · rw [processchildren_one S auth sch val rest r m0 hm] at h
    obtain ⟨ext, he, _⟩ := processnode_grows S auth _ _ _ rf h
    exact ⟨ext, by simp [candidatesAt, hm, he]⟩
  · rw [processchildren_several S auth sch val rest r m0 m1 ms hm] at h
    simp only [Option.some.injEq] at h
    subst h
    exact ⟨[], by simp [candidatesAt, hm]⟩

/-! ## One list of `ProcessMatches` -/

theorem processMatchesLoop_several_none (path : List String) (idx : Nat)
    (e : List String) (c1 c2 : Match) (cs : List Match) (ms : List (List Match))
    (tok : String) (htok : path[idx]? = some tok)
    (hno : ∀ c ∈ c1 :: c2 :: cs, c.Name ≠ tok ∧ c.IsArg = false) :
    processMatchesLoop path idx e ((c1 :: c2 :: cs) :: ms) =
      some (.error (.PathAmbig e tok
        ((c1 :: c2 :: cs).foldl (fun a c => mapSet a c.Name c.Help) []) true)) := by
  simp only [processMatchesLoop, htok, ambigScan_none tok _ [] hno, Bool.not_false, if_true]

theorem processMatchesLoop_several_some (path : List String) (idx : Nat)
    (e : List String) (c1 c2 : Match) (cs : List Match) (ms : List (List Match))
    (tok : String) (htok : path[idx]? = some tok)
    (hex : ∃ c ∈ c1 :: c2 :: cs, c.Name = tok ∨ c.IsArg = true) :
    processMatchesLoop path idx e ((c1 :: c2 :: cs) :: ms) =
      processMatchesLoop path (idx + 1) (e ++ [tok]) ms := by
  simp only [processMatchesLoop, htok, ambigScan_some tok _ [] hex, Bool.not_true,
    Bool.false_eq_true, if_false]

/-- What `ProcessMatches` emits for one list when it goes on to return a
path: the raw token, or the name of a single non-argument candidate. -/
theorem processMatchesLoop_cons_ok (path : List String) (idx : Nat) (e : List String)
    (entry : List Match) (ms : List (List Match)) (tok : String) (out : List String)
    (htok : path[idx]? = some tok)
    (h : processMatchesLoop path idx e (entry :: ms) = some (.ok out)) :
    ∃ t more, out = e ++ t :: more ∧
      (t = tok ∨ ∃ c, entry = [c] ∧ c.IsArg = false ∧ t = c.Name) := by
  rcases entry with _ | ⟨c, _ | ⟨c2, cs⟩⟩
  · simp [processMatchesLoop, htok] at h
  · simp only [processMatchesLoop, htok] at h
    split at h
    · obtain ⟨more, hm, _⟩ := processMatchesLoop_ok_extends path _ _ _ out h
      exact ⟨tok, more, by rw [hm]; simp, Or.inl rfl⟩
    · next hc =>
      obtain ⟨more, hm, _⟩ := processMatchesLoop_ok_extends path _ _ _ out h
      exact ⟨c.Name, more, by rw [hm]; simp, Or.inr ⟨c, rfl, by simpa using hc, rfl⟩⟩
  · simp only [processMatchesLoop, htok] at h
    split at h
    · simp at h
    · obtain ⟨more, hm, _⟩ := processMatchesLoop_ok_extends path _ _ _ out h
      exact ⟨tok, more, by rw [hm]; simp, Or.inl rfl⟩

/-! ## The walk at `processchildren` -/

theorem AtChildren.children_extends {S : Schema} {auth : Option Authoriser} {path : List String}
    {sch : Nat} {r : results} (h : AtChildren S auth path sch r) (out : List String)
    (hout : Expand ⟨some S⟩ path auth = some (.ok out)) :
    ∃ more, out = r.cpath ++ more := by
  rw [Expand_eq, h.2] at hout
  cases hw : processchildren S auth sch (path.drop r.m.length) r with
  | none => simp [hw] at hout
  | some rf =>
    simp only [hw] at hout
    obtain ⟨ext, he, _⟩ := processchildren_grows S auth sch _ r rf hw
    have h2 := h.1.2
    unfold ProcessMatches results.matchLists at h2 hout
    rw [he, List.map_append, processMatchesLoop_append, h2] at hout
    obtain ⟨more, hm, _⟩ := processMatchesLoop_ok_extends path _ _ _ out hout
    exact ⟨more, hm⟩

theorem AtChildren.children_done {S : Schema} {auth : Option Authoriser} {path : List String}
    {sch : Nat} {r : results} (h : AtChildren S auth path sch r)
    (hend : path.drop r.m.length = []) :
    Expand ⟨some S⟩ path auth = some (.ok r.cpath) := by
  rw [Expand_eq, h.2, hend, processchildren_nil]
  exact h.1.2

theorem AtChildren.children_emitted {S : Schema} {auth : Option Authoriser} {path : List String}
    {sch : Nat} {m : List (List expandMatch)} {l : List expandMatch}
    {cp : List String} {t : String}
    (h : AtChildren S auth path sch { m := m ++ [l], cpath := cp ++ [t] })
    (out : List String) (hout : Expand ⟨some S⟩ path auth = some (.ok out)) :
    out[m.length]? = some t := by
  obtain ⟨more, hm⟩ := h.children_extends out hout
  have hl := h.1.cpath_length
  simp only [List.length_append, List.length_cons, List.length_nil] at hl
  have hl' : cp.length = m.length := by omega
  rw [hm]
  simp only [List.append_assoc, List.singleton_append]
  rw [List.getElem?_append_right (by omega)]
  simp [hl']

/-- The list `ExpandMatches` returns for the token at the cursor. -/
theorem AtChildren.children_list {S : Schema} {auth : Option Authoriser} {path : List String}
    {sch : Nat} {r : results} (h : AtChildren S auth path sch r)
    (val : String) (rest : List String) (htok : path.drop r.m.length = val :: rest)
    (ms : List (List Match)) (hms : ExpandMatches ⟨some S⟩ path auth = some ms) :
    ms[r.m.length]? = some ((candidatesAt S auth sch r val).map (expandMatch.toMatch S)) := by
  rw [ExpandMatches_eq, h.2, htok] at hms
  cases hw : processchildren S auth sch (val :: rest) r with
  | none => simp [hw] at hms
  | some rf =>
    simp only [hw, Option.map_some', Option.some.injEq] at hms
    obtain ⟨ext, he⟩ := processchildren_cons_m S auth sch val rest r rf hw
    subst hms
    unfold results.matchLists
    rw [he, List.map_append, List.getElem?_append_right (by simp)]
    simp

/-- The list `ExpandMatches` returns for the last token of consistent
results at `processnode`. -/
theorem AtNode.list {S : Schema} {auth : Option Authoriser} {path : List String}
    {sch : Option Nat} {m : List (List expandMatch)} {l : List expandMatch}
    {cp : List String}
    (h : AtNode S auth path sch { m := m ++ [l], cpath := cp })
    (ms : List (List Match)) (hms : ExpandMatches ⟨some S⟩ path auth = some ms) :
    ms[m.length]? = some (l.map (expandMatch.toMatch S)) := by
  rw [ExpandMatches_eq, h.2] at hms
  obtain ⟨rf, hw, rfl⟩ := Option.map_eq_some'.1 hms
  obtain ⟨ext, he, _⟩ := processnode_grows S auth sch _ _ rf hw
  unfold results.matchLists
  rw [he]
  simp only [List.map_append, List.map_cons, List.map_nil, List.append_assoc,
    List.singleton_append]
  rw [List.getElem?_append_right (by simp)]
  simp


theorem permitted_authorise_iff (cpath : List String) (name : String)
    (auth : Option Authoriser) :
    permitted (authorise cpath name auth) = true ↔
      auth = none ∨ ∃ f, auth = some f ∧ f (cpath ++ [name]) = (true, none) := by
  cases auth with
  | none => simp [permitted, authorise]
  | some f =>
    constructor
    · intro h
      right
      refine ⟨f, rfl, ?_⟩
      simp only [permitted, authorise, Bool.and_eq_true, Option.isNone_iff_eq_none] at h
      exact Prod.ext h.1 h.2
    · rintro (h | ⟨g, hg, h⟩)
      · exact absurd h (by simp)
      · simp only [Option.some.injEq] at hg
        subst hg
        simp [permitted, authorise, h]

/-- With exactly one name candidate `c`, the loop keeps `c` alone and goes
on from it. -/
theorem scanAt_unique (S : Schema) (auth : Option Authoriser) (sch : Nat) (r : results)
    (val : String) (c : Nat)
    (huniq : (effChildren S sch).filter
      (nameCandidate S auth r.cpath (effArgNm S sch) val) = [c]) :
    (scanAt S auth sch r val).matched = [⟨c, false⟩] ∧
      (scanAt S auth sch r val).nextNode = some c := by
  cases hf : (effChildren S sch).find?
      (exactCandidate S auth r.cpath (effArgNm S sch) val) with
  | some e =>
    have he : e ∈ (effChildren S sch).filter
        (nameCandidate S auth r.cpath (effArgNm S sch) val) :=
      List.mem_filter.2 ⟨List.mem_of_find?_eq_some hf,
        ((exactCandidate_iff S auth r.cpath _ val e).1 (List.find?_some hf)).1⟩
    rw [huniq, List.mem_singleton] at he
    subst he
    exact scanAt_exact S auth sch r val e hf
  | none =>
    refine ⟨by rw [scanAt_matched_complete S auth sch r val hf, huniq]; rfl, ?_⟩
    unfold scanAt
    rw [scanChildren_nextNode, hf]
    simp only [huniq]
    rfl

theorem candidatesAt_nonarg (S : Schema) (auth : Option Authoriser) (sch : Nat)
    (r : results) (val : String) (e : expandMatch)
    (he : e ∈ candidatesAt S auth sch r val) (hna : e.isarg = false) :
    e ∈ (scanAt S auth sch r val).matched := by
  unfold candidatesAt at he
  rcases hm : (scanAt S auth sch r val).matched with _ | ⟨m0, ms⟩
  · rw [hm] at he
    cases ha : (scanAt S auth sch r val).argChild with
    | none => rw [ha] at he; simp at he
    | some a =>
      rw [ha] at he
      simp only [List.mem_singleton] at he
      subst he
      simp at hna
  · rw [hm] at he
    exact he

theorem candidatesAt_of_matched (S : Schema) (auth : Option Authoriser) (sch : Nat)
    (r : results) (val : String) (h : (scanAt S auth sch r val).matched ≠ []) :
    candidatesAt S auth sch r val = (scanAt S auth sch r val).matched := by
  unfold candidatesAt
  rcases hm : (scanAt S auth sch r val).matched with _ | ⟨m0, ms⟩
  · exact absurd hm h
  · rfl

/-- From `processnode` on an option with a value type the walk consumes the
next token as the value and goes to `processchildren` on the option. -/
theorem AtNode.step_option {S : Schema} {auth : Option Authoriser} {path : List String}
    {sch : Nat} {r : results} (h : AtNode S auth path (some sch) r)
    (val : String) (rest : List String) (htok : path.drop r.m.length = val :: rest)
    (hk : S.Kind sch = .OpdOption) (ht : S.TypeIsEmpty sch = false) :
    AtChildren S auth path sch
      { m := r.m ++ [[⟨sch, true⟩]], cpath := r.cpath ++ [val] } := by
  refine ⟨by simpa only [if_true] using h.1.snoc val rest htok ⟨sch, true⟩, ?_⟩
  rw [h.2, htok, processnode_option_typed S auth sch val rest r hk ht]
  simp only [List.length_append, List.length_cons, List.length_nil]
  rw [(drop_eq_cons path _ val rest htok).2.2]

/-! ## The walk on the example schemas -/

theorem partialCommands_at_alternative :
    AtChildren partialCommands none ["a", "a"] 2
      ⟨[[⟨2, false⟩]], ["alternative-command"]⟩ := by
  refine ⟨⟨by decide, by rfl⟩, ?_⟩
  simp [processnode, processchildren, processopdcommand, partialCommands, scanChildren,
    effChildren, effArgNm, HasPrefix, permitted, authorise, commandScan]

theorem partialCommands_at_test :
    AtChildren partialCommands none ["t", "test-one"] 1
      ⟨[[⟨1, false⟩]], ["test-command"]⟩ := by
  refine ⟨⟨by decide, by rfl⟩, ?_⟩
  simp [processnode, processchildren, processopdcommand, partialCommands, scanChildren,
    effChildren, effArgNm, HasPrefix, permitted, authorise, commandScan]

theorem partialCommands_at_option :
    AtNode partialCommands none ["t", "test-option", "value"] (some 4)
      ⟨[[⟨1, false⟩], [⟨4, false⟩]], ["test-command", "test-option"]⟩ := by
  refine ⟨⟨by decide, by rfl⟩, ?_⟩
  simp [processnode, processchildren, processopdcommand, processopdoption, partialCommands,
    scanChildren, effChildren, effArgNm, HasPrefix, permitted, authorise, commandScan]

theorem partialCommands_at_another :
    AtChildren partialCommands none ["t", "a", "foo"] 5
      ⟨[[⟨1, false⟩], [⟨5, false⟩]], ["test-command", "another-command"]⟩ := by
  refine ⟨⟨by decide, by rfl⟩, ?_⟩
  simp [processnode, processchildren, processopdcommand, processopdoption, partialCommands,
    scanChildren, effChildren, effArgNm, HasPrefix, permitted, authorise, commandScan]

theorem partialCommands_denied :
    ExpandMatches ⟨some partialCommands⟩ ["t"] (some authoriseDenyTestCommand) =
      some [[]] := by
  simp [ExpandMatches, processnode, processchildren, partialCommands, scanChildren,
    effChildren, effArgNm, HasPrefix, permitted, authorise, authoriseDenyTestCommand]

theorem showCommands_at_show :
    AtChildren showCommands none ["show", "show-all"] 1 ⟨[[⟨1, false⟩]], ["show"]⟩ := by
  refine ⟨⟨by decide, by rfl⟩, ?_⟩
  simp [processnode, processchildren, processopdcommand, showCommands, scanChildren,
    effChildren, effArgNm, HasPrefix, permitted, authorise, commandScan]

/-! ## The claims -/

/-- C1: when the token at the cursor is a prefix of the name of exactly one
permitted non-argument child `c`, the walk consumes it with the single
candidate `c` and goes on from `c`; `Expand` returns the expansion so far
plus `c`'s name when this was the last token, and whenever it returns a path
the entry for this token is `c`'s full name. -/
theorem Expand_unique_candidate (S : Schema) (auth : Option Authoriser) (path : List String)
    (sch : Nat) (r : results) (val : String) (rest : List String) (c : Nat)
    (hat : AtChildren S auth path sch r)
    (htok : path.drop r.m.length = val :: rest)
    (huniq : (effChildren S sch).filter
      (nameCandidate S auth r.cpath (effArgNm S sch) val) = [c]) :
    AtNode S auth path (some c)
      { m := r.m ++ [[⟨c, false⟩]], cpath := r.cpath ++ [S.Name c] } ∧
    (rest = [] → Expand ⟨some S⟩ path auth = some (.ok (r.cpath ++ [S.Name c]))) ∧
    (∀ out, Expand ⟨some S⟩ path auth = some (.ok out) →
      out[r.m.length]? = some (S.Name c)) := by
  obtain ⟨hm, hn⟩ := scanAt_unique S auth sch r val c huniq
  have hnode : AtNode S auth path (some c)
      { m := r.m ++ [[⟨c, false⟩]], cpath := r.cpath ++ [S.Name c] } :=
    hat.step val rest htok ⟨c, false⟩ (some c)
      (processchildren_single S auth sch val rest r c hm hn)
  refine ⟨hnode, ?_, fun out hout => hnode.emitted out hout⟩
  intro hrest
  subst hrest
  refine hnode.done ?_
  simp only [List.length_append, List.length_cons, List.length_nil]
  exact (drop_eq_cons path _ val [] htok).2.2

theorem Expand_unique_candidate_witness :
    Expand ⟨some partialCommands⟩ ["t"] none = some (.ok ["test-command"]) :=
  (Expand_unique_candidate partialCommands none ["t"] 0 ⟨[], []⟩ "t" [] 1
    ((AtNode.root partialCommands none ["t"]).toChildren (Or.inl rfl)) rfl
    (by decide)).2.1 rfl

/-- C2: when no permitted child of the cursor is named exactly like the
token and two or more permitted non-argument children have it as a prefix of
their names, `Expand` fails with `PathAmbig`: `Path` is the expansion of the
preceding tokens, `Fail` the raw token, and the keys of `Matches` are exactly
the names of those children (each bound to the help of one of them). -/
theorem Expand_ambiguous (S : Schema) (auth : Option Authoriser) (path : List String)
    (sch : Nat) (r : results) (val : String) (rest : List String)
    (hat : AtChildren S auth path sch r)
    (htok : path.drop r.m.length = val :: rest)
    (hne : ∀ c ∈ effChildren S sch,
      permitted (authorise r.cpath (S.Name c) auth) = true → S.Name c ≠ val)
    (hmany : 2 ≤ ((effChildren S sch).filter
      (nameCandidate S auth r.cpath (effArgNm S sch) val)).length) :
    ∃ M, Expand ⟨some S⟩ path auth = some (.error (.PathAmbig r.cpath val M true)) ∧
      (∀ k, k ∈ M.map Prod.fst ↔
        ∃ c ∈ effChildren S sch,
          nameCandidate S auth r.cpath (effArgNm S sch) val c = true ∧ S.Name c = k) ∧
      (∀ k v, (k, v) ∈ M →
        ∃ c ∈ effChildren S sch,
          nameCandidate S auth r.cpath (effArgNm S sch) val c = true ∧
            S.Name c = k ∧ S.GetHelp c = v) := by
  have hf : (effChildren S sch).find?
      (exactCandidate S auth r.cpath (effArgNm S sch) val) = none := by
    rw [List.find?_eq_none]
    intro c hc hx
    obtain ⟨hn, hv⟩ := (exactCandidate_iff S auth r.cpath _ val c).1 hx
    exact hne c hc ((nameCandidate_iff S auth r.cpath _ val c).1 hn).2.2 hv
  have hm := scanAt_matched_complete S auth sch r val hf
  have hsound := scanAt_matched_sound S auth sch r val
  rcases hl : (scanAt S auth sch r val).matched with _ | ⟨m1, _ | ⟨m2, ms⟩⟩
  · rw [hl] at hm
    have := congrArg List.length hm
    simp only [List.length_nil, List.length_map] at this
    omega
  · rw [hl] at hm
    have := congrArg List.length hm
    simp only [List.length_cons, List.length_nil, List.length_map] at this
    omega
  · obtain ⟨_, hget, _⟩ := drop_eq_cons path _ val rest htok
    have hno : ∀ c ∈ (m1 :: m2 :: ms).map (expandMatch.toMatch S),
        c.Name ≠ val ∧ c.IsArg = false := by
      intro c hc
      obtain ⟨e, he, rfl⟩ := List.mem_map.1 hc
      obtain ⟨h1, h2, h3⟩ := hsound e (hl ▸ he)
      exact ⟨hne e.node h2 ((nameCandidate_iff S auth r.cpath _ val e.node).1 h3).2.2, h1⟩
    have hE : Expand ⟨some S⟩ path auth = some (.error (.PathAmbig r.cpath val
        (((m1 :: m2 :: ms).map (expandMatch.toMatch S)).foldl
          (fun a c => mapSet a c.Name c.Help) []) true)) := by
      rw [Expand_eq, hat.2, htok, processchildren_several S auth sch val rest r m1 m2 ms hl]
      have h2 := hat.1.2
      unfold ProcessMatches results.matchLists at h2 ⊢
      simp only [List.map_append, List.map_cons, List.map_nil]
      rw [processMatchesLoop_append, h2]
      simp only [Nat.zero_add, List.length_map]
      exact processMatchesLoop_several_none path _ _ _ _ _ _ val hget
        (by simpa only [List.map_cons] using hno)
    have hmem : ∀ e, e ∈ m1 :: m2 :: ms ↔
        e.isarg = false ∧ e.node ∈ effChildren S sch ∧
          nameCandidate S auth r.cpath (effArgNm S sch) val e.node = true := by
      intro e
      constructor
      · intro he; exact hsound e (hl ▸ he)
      · rintro ⟨h1, h2, h3⟩
        rw [← hl, hm]
        exact List.mem_map.2 ⟨e.node, List.mem_filter.2 ⟨h2, h3⟩, by
          cases e; simp only at h1; subst h1; rfl⟩
    refine ⟨_, hE, ?_, ?_⟩
    · intro k
      rw [mem_keys_foldl_mapSet]
      simp only [List.map_nil, List.not_mem_nil, false_or, List.mem_map]
      constructor
      · rintro ⟨_, ⟨e, he, rfl⟩, hk⟩
        obtain ⟨_, h2, h3⟩ := (hmem e).1 he
        exact ⟨e.node, h2, h3, hk⟩
      · rintro ⟨c, h2, h3, hk⟩
        exact ⟨_, ⟨⟨c, false⟩, (hmem ⟨c, false⟩).2 ⟨rfl, h2, h3⟩, rfl⟩, hk⟩
    · intro k v hkv
      rcases mem_foldl_mapSet _ _ _ hkv with h | ⟨_, hc, hk, hv⟩
      · simp at h
      · obtain ⟨e, he, rfl⟩ := List.mem_map.1 hc
        obtain ⟨_, h2, h3⟩ := (hmem e).1 he
        exact ⟨e.node, h2, h3, hk, hv⟩

theorem Expand_ambiguous_witness :
    ∃ M, Expand ⟨some partialCommands⟩ ["a", "a"] none =
        some (.error (.PathAmbig ["alternative-command"] "a" M true)) ∧
      (∀ k, k ∈ M.map Prod.fst ↔
        ∃ c ∈ effChildren partialCommands 2,
          nameCandidate partialCommands none ["alternative-command"]
            (effArgNm partialCommands 2) "a" c = true ∧ partialCommands.Name c = k) :=
  (Expand_ambiguous partialCommands none ["a", "a"] 2
    ⟨[[⟨2, false⟩]], ["alternative-command"]⟩ "a" [] partialCommands_at_alternative rfl
    (by decide) (by decide)).imp (fun _ h => ⟨h.1, h.2.1⟩)

/-- C3: when a permitted non-argument child is named exactly like the token,
the candidate list for the token is one child of that name alone (the first
such child; with unique sibling names, that very child), whatever other
children have the token as a prefix, and the walk goes on from it. -/
theorem ExpandMatches_exact_match (S : Schema) (auth : Option Authoriser)
    (path : List String) (sch : Nat) (r : results) (val : String) (rest : List String)
    (c : Nat)
    (hat : AtChildren S auth path sch r)
    (htok : path.drop r.m.length = val :: rest)
    (hc : c ∈ effChildren S sch) (hname : S.Name c = val)
    (hna : S.Name c ≠ effArgNm S sch)
    (hperm : permitted (authorise r.cpath (S.Name c) auth) = true) :
    ∃ c', c' ∈ effChildren S sch ∧ S.Name c' = val ∧
      permitted (authorise r.cpath (S.Name c') auth) = true ∧
      (((effChildren S sch).map S.Name).Nodup → c' = c) ∧
      AtNode S auth path (some c')
        { m := r.m ++ [[⟨c', false⟩]], cpath := r.cpath ++ [val] } ∧
      (∀ ms, ExpandMatches ⟨some S⟩ path auth = some ms →
        ms[r.m.length]? = some [⟨val, S.GetHelp c', false⟩]) := by
  have hx : exactCandidate S auth r.cpath (effArgNm S sch) val c = true :=
    (exactCandidate_iff S auth r.cpath _ val c).2
      ⟨(nameCandidate_iff S auth r.cpath _ val c).2
        ⟨hna, by rw [hname]; exact HasPrefix_self val, hperm⟩, hname⟩
  cases hf : (effChildren S sch).find?
      (exactCandidate S auth r.cpath (effArgNm S sch) val) with
  | none =>
    rw [List.find?_eq_none] at hf
    exact absurd hx (hf c hc)
  | some c' =>
    have hc' : c' ∈ effChildren S sch := List.mem_of_find?_eq_some hf
    obtain ⟨hn', hv'⟩ := (exactCandidate_iff S auth r.cpath _ val c').1 (List.find?_some hf)
    obtain ⟨hm, hn⟩ := scanAt_exact S auth sch r val c' hf
    have hnode : AtNode S auth path (some c')
        { m := r.m ++ [[⟨c', false⟩]], cpath := r.cpath ++ [val] } := by
      have := hat.step val rest htok ⟨c', false⟩ (some c')
        (processchildren_single S auth sch val rest r c' hm hn)
      simpa only [Bool.false_eq_true, if_false, hv'] using this
    refine ⟨c', hc', hv', ((nameCandidate_iff S auth r.cpath _ val c').1 hn').2.2, ?_,
      hnode, ?_⟩
    · intro hnd
      exact List.inj_on_of_nodup_map hnd hc' hc (hv'.trans hname.symm)
    · intro ms hms
      rw [hnode.list ms hms]
      simp [expandMatch.toMatch, hv']

theorem ExpandMatches_exact_match_witness :
    ∃ c', c' ∈ effChildren showCommands 0 ∧ showCommands.Name c' = "show" ∧
      (((effChildren showCommands 0).map showCommands.Name).Nodup → c' = 1) ∧
      (∀ ms, ExpandMatches ⟨some showCommands⟩ ["show"] none = some ms →
        ms[0]? = some [⟨"show", showCommands.GetHelp c', false⟩]) :=
  (ExpandMatches_exact_match showCommands none ["show"] 0 ⟨[], []⟩ "show" [] 1
    ((AtNode.root showCommands none ["show"]).toChildren (Or.inl rfl)) rfl
    (by decide) rfl (by decide) rfl).imp
    (fun _ h => ⟨h.1, h.2.1, h.2.2.2.1, h.2.2.2.2.2⟩)

/-- C4: at a cursor with an argument child (a child named by the first entry of
the cursor's `Arguments`), a token that no permitted non-argument child has as
a prefix of its name (or as its name) is consumed with the single candidate
"argument child, `IsArg` true"; the walk goes on from the argument child and
`Expand` emits the raw token. -/
theorem ExpandMatches_argument_fallback (S : Schema) (auth : Option Authoriser)
    (path : List String) (sch : Nat) (r : results) (val : String) (rest : List String)
    (a : String) (as : List String) (ac : Nat)
    (hat : AtChildren S auth path sch r)
    (htok : path.drop r.m.length = val :: rest)
    (hargs : S.Arguments sch = a :: as)
    (hac : ac ∈ S.Children sch) (hacn : S.Name ac = a)
    (hnone : ∀ c ∈ S.Children sch, S.Name c ≠ a →
      permitted (authorise r.cpath (S.Name c) auth) = true →
        HasPrefix (S.Name c) val = false) :
    ∃ ac', ac' ∈ S.Children sch ∧ S.Name ac' = a ∧
      (((S.Children sch).map S.Name).Nodup → ac' = ac) ∧
      AtNode S auth path (some ac')
        { m := r.m ++ [[⟨ac', true⟩]], cpath := r.cpath ++ [val] } ∧
      (∀ ms, ExpandMatches ⟨some S⟩ path auth = some ms →
        ms[r.m.length]? = some [⟨a, S.GetHelp ac', true⟩]) ∧
      (rest = [] → Expand ⟨some S⟩ path auth = some (.ok (r.cpath ++ [val]))) ∧
      (∀ out, Expand ⟨some S⟩ path auth = some (.ok out) →
        out[r.m.length]? = some val) := by
  have hne : S.Children sch ≠ [] := List.ne_nil_of_mem hac
  obtain ⟨hch, hnm⟩ := effChildren_of_ne_nil S sch hne
  have hnm' : effArgNm S sch = a := by rw [hnm, hargs]; rfl
  have hnc : ∀ c ∈ S.Children sch, nameCandidate S auth r.cpath a val c = false := by
    intro c hc
    cases hx : nameCandidate S auth r.cpath a val c with
    | false => rfl
    | true =>
      obtain ⟨h1, h2, h3⟩ := (nameCandidate_iff S auth r.cpath a val c).1 hx
      rw [hnone c hc h1 h3] at h2
      exact absurd h2 (by simp)
  have hf : (effChildren S sch).find?
      (exactCandidate S auth r.cpath (effArgNm S sch) val) = none := by
    rw [List.find?_eq_none, hch, hnm']
    intro c hc hx
    have := ((exactCandidate_iff S auth r.cpath a val c).1 hx).1
    rw [hnc c hc] at this
    exact absurd this (by simp)
  have hm : (scanAt S auth sch r val).matched = [] := by
    rw [scanAt_matched_complete S auth sch r val hf, hch, hnm']
    rw [List.filter_eq_nil_iff.2 (fun c hc => by rw [hnc c hc]; simp)]
    rfl
  have hfil : (S.Children sch).filter (fun c => S.Name c == a) ≠ [] :=
    List.ne_nil_of_mem (List.mem_filter.2 ⟨hac, by simpa using hacn⟩)
  obtain ⟨ac', hac', hlast⟩ := lastOr_mem none _ hfil
  have ha : (scanAt S auth sch r val).argChild = some ac' := by
    unfold scanAt
    rw [scanChildren_argChild S auth r.cpath _ val _ hf, hch, hnm']
    exact hlast
  obtain ⟨hacc, hacn'⟩ := List.mem_filter.1 hac'
  have hacn'' : S.Name ac' = a := by simpa using hacn'
  have hnode : AtNode S auth path (some ac')
      { m := r.m ++ [[⟨ac', true⟩]], cpath := r.cpath ++ [val] } := by
    have := hat.step val rest htok ⟨ac', true⟩ (some ac')
      (processchildren_arg S auth sch val rest r ac' hm ha)
    simpa only [if_true] using this
  refine ⟨ac', hacc, hacn'', ?_, hnode, ?_, ?_, fun out hout => hnode.emitted out hout⟩
  · intro hnd
    exact List.inj_on_of_nodup_map hnd hacc hac (hacn''.trans hacn.symm)
  · intro ms hms
    rw [hnode.list ms hms]
    simp [expandMatch.toMatch, hacn'']
  · intro hrest
    subst hrest
    refine hnode.done ?_
    simp only [List.length_append, List.length_cons, List.length_nil]
    exact (drop_eq_cons path _ val [] htok).2.2

theorem ExpandMatches_argument_fallback_witness :
    Expand ⟨some partialCommands⟩ ["t", "test-one"] none =
      some (.ok ["test-command", "test-one"]) :=
  (ExpandMatches_argument_fallback partialCommands none ["t", "test-one"] 1
    ⟨[[⟨1, false⟩]], ["test-command"]⟩ "test-one" [] "test-argument" [] 3
    partialCommands_at_test rfl rfl (by decide) rfl (by decide)).elim
    (fun _ h => h.2.2.2.2.2.1 rfl)

/-- C5: at an option whose type is not `Empty`, the next token, whatever it
spells, is consumed as the option's value: its candidate list is the option
itself as a single `IsArg` candidate, the cursor stays on the option (its
children are matched against the token after), and `Expand` emits the raw
token. -/
theorem ExpandMatches_option_value (S : Schema) (auth : Option Authoriser)
    (path : List String) (sch : Nat) (r : results) (val : String) (rest : List String)
    (hat : AtNode S auth path (some sch) r)
    (htok : path.drop r.m.length = val :: rest)
    (hk : S.Kind sch = .OpdOption) (ht : S.TypeIsEmpty sch = false) :
    AtChildren S auth path sch
      { m := r.m ++ [[⟨sch, true⟩]], cpath := r.cpath ++ [val] } ∧
    (∀ ms, ExpandMatches ⟨some S⟩ path auth = some ms →
      ms[r.m.length]? = some [⟨S.Name sch, S.GetHelp sch, true⟩]) ∧
    (rest = [] → Expand ⟨some S⟩ path auth = some (.ok (r.cpath ++ [val]))) ∧
    (∀ out, Expand ⟨some S⟩ path auth = some (.ok out) →
      out[r.m.length]? = some val) := by
  have hch := hat.step_option val rest htok hk ht
  refine ⟨hch, ?_, ?_, fun out hout => hch.children_emitted out hout⟩
  · intro ms hms
    rw [ExpandMatches_eq, hch.2] at hms
    obtain ⟨rf, hw, rfl⟩ := Option.map_eq_some'.1 hms
    obtain ⟨ext, he, _⟩ := processchildren_grows S auth sch _ _ rf hw
    unfold results.matchLists
    rw [he]
    simp only [List.map_append, List.map_cons, List.map_nil, List.append_assoc,
      List.singleton_append]
    rw [List.getElem?_append_right (by simp)]
    simp [expandMatch.toMatch]
  · intro hrest
    subst hrest
    refine hch.children_done ?_
    simp only [List.length_append, List.length_cons, List.length_nil]
    exact (drop_eq_cons path _ val [] htok).2.2

theorem ExpandMatches_option_value_witness :
    Expand ⟨some partialCommands⟩ ["t", "test-option", "value"] none =
      some (.ok ["test-command", "test-option", "value"]) :=
  (ExpandMatches_option_value partialCommands none ["t", "test-option", "value"] 4
    ⟨[[⟨1, false⟩], [⟨4, false⟩]], ["test-command", "test-option"]⟩ "value" []
    partialCommands_at_option rfl rfl rfl).2.2.1 rfl

/-- C6 (as the code has it): at a cursor without children, a further token
makes `Expand` fail with `CommandInval` (`Path` the expansion of the tokens
before, `Fail` the token) when the cursor has no parent, or when no child of
its parent is the parent's argument child or a permitted child whose name
has the token as a prefix. -/
theorem Expand_invalid_beyond_leaf (S : Schema) (auth : Option Authoriser)
    (path : List String) (sch : Nat) (r : results) (val : String) (rest : List String)
    (hat : AtChildren S auth path sch r)
    (htok : path.drop r.m.length = val :: rest)
    (hleaf : S.Children sch = [])
    (hpar : S.Parent sch = none ∨
      ∀ c ∈ effChildren S sch, S.Name c ≠ effArgNm S sch ∧
        (permitted (authorise r.cpath (S.Name c) auth) = true →
          HasPrefix (S.Name c) val = false)) :
    Expand ⟨some S⟩ path auth = some (.error (.CommandInval r.cpath val)) := by
  have hall : ∀ c ∈ effChildren S sch, S.Name c ≠ effArgNm S sch ∧
      (permitted (authorise r.cpath (S.Name c) auth) = true →
        HasPrefix (S.Name c) val = false) := by
    rcases hpar with hp | hp
    · rw [effChildren_of_no_parent S sch hp, hleaf]
      intro c hc
      simp at hc
    · exact hp
  have hnc : ∀ c ∈ effChildren S sch,
      nameCandidate S auth r.cpath (effArgNm S sch) val c = false := by
    intro c hc
    cases hx : nameCandidate S auth r.cpath (effArgNm S sch) val c with
    | false => rfl
    | true =>
      obtain ⟨_, h2, h3⟩ := (nameCandidate_iff S auth r.cpath _ val c).1 hx
      rw [(hall c hc).2 h3] at h2
      exact absurd h2 (by simp)
  have hf : (effChildren S sch).find?
      (exactCandidate S auth r.cpath (effArgNm S sch) val) = none := by
    rw [List.find?_eq_none]
    intro c hc hx
    have := ((exactCandidate_iff S auth r.cpath _ val c).1 hx).1
    rw [hnc c hc] at this
    exact absurd this (by simp)
  have hm : (scanAt S auth sch r val).matched = [] := by
    rw [scanAt_matched_complete S auth sch r val hf]
    rw [List.filter_eq_nil_iff.2 (fun c hc => by rw [hnc c hc]; simp)]
    rfl
  have ha : (scanAt S auth sch r val).argChild = none := by
    unfold scanAt
    rw [scanChildren_argChild S auth r.cpath _ val _ hf]
    rw [List.filter_eq_nil_iff.2 (fun c hc => by simpa using (hall c hc).1)]
    rfl
  obtain ⟨_, hget, _⟩ := drop_eq_cons path _ val rest htok
  rw [Expand_eq, hat.2, htok, processchildren_nomatch S auth sch val rest r hm ha]
  have h2 := hat.1.2
  unfold ProcessMatches results.matchLists at h2 ⊢
  simp only [List.map_append, List.map_cons, List.map_nil]
  rw [processMatchesLoop_append, h2]
  simp only [Nat.zero_add, List.length_map, processMatchesLoop, hget]

theorem Expand_invalid_beyond_leaf_witness :
    Expand ⟨some partialCommands⟩ ["t", "a", "foo"] none =
      some (.error (.CommandInval ["test-command", "another-command"] "foo")) :=
  Expand_invalid_beyond_leaf partialCommands none ["t", "a", "foo"] 5
    ⟨[[⟨1, false⟩], [⟨5, false⟩]], ["test-command", "another-command"]⟩ "foo" []
    partialCommands_at_another rfl rfl (Or.inl rfl)

/-- C6 as stated fails: `show` is a leaf without children, reached by the
first token, yet the further token `show-all` is matched against the children
of its parent and accepted, not reported invalid. -/
theorem Expand_beyond_leaf_accepted :
    showCommands.Children 1 = [] ∧
    AtChildren showCommands none ["show", "show-all"] 1 ⟨[[⟨1, false⟩]], ["show"]⟩ ∧
    Expand ⟨some showCommands⟩ ["show", "show-all"] none =
      some (.ok ["show", "show-all"]) := by
  refine ⟨rfl, showCommands_at_show, ?_⟩
  simp [Expand, ExpandMatches, processnode, processchildren, processopdcommand,
    showCommands, scanChildren, effChildren, effArgNm, HasPrefix, permitted, authorise,
    commandScan, ProcessMatches, processMatchesLoop, expandMatch.toMatch]

/-- C7 (as the code has it): the candidate list for the token at the cursor
holds a child as a name match only if it is a non-argument child whose name
has the token as a prefix and which the authoriser (nil, or answering
`(true, nil)` on the expansion so far plus the child's name) permits; when
no permitted non-argument child is named exactly like the token, every such
child is in the list; and whatever `Expand` emits for the token other than
the raw token itself is the name of such a child. -/
theorem ExpandMatches_authorised (S : Schema) (auth : Option Authoriser)
    (path : List String) (sch : Nat) (r : results) (val : String) (rest : List String)
    (hat : AtChildren S auth path sch r)
    (htok : path.drop r.m.length = val :: rest) :
    (∀ name, permitted (authorise r.cpath name auth) = true ↔
      auth = none ∨ ∃ f, auth = some f ∧ f (r.cpath ++ [name]) = (true, none)) ∧
    (∀ ms, ExpandMatches ⟨some S⟩ path auth = some ms →
      ∃ L : List expandMatch,
        ms[r.m.length]? = some (L.map (expandMatch.toMatch S)) ∧
        (∀ e ∈ L, e.isarg = false →
          e.node ∈ effChildren S sch ∧ S.Name e.node ≠ effArgNm S sch ∧
            HasPrefix (S.Name e.node) val = true ∧
            permitted (authorise r.cpath (S.Name e.node) auth) = true) ∧
        ((∀ c ∈ effChildren S sch, S.Name c = val →
            S.Name c = effArgNm S sch ∨
              permitted (authorise r.cpath (S.Name c) auth) = false) →
          ∀ c ∈ effChildren S sch, S.Name c ≠ effArgNm S sch →
            HasPrefix (S.Name c) val = true →
            permitted (authorise r.cpath (S.Name c) auth) = true →
              (⟨c, false⟩ : expandMatch) ∈ L)) ∧
    (∀ out, Expand ⟨some S⟩ path auth = some (.ok out) →
      out[r.m.length]? = some val ∨
      ∃ c ∈ effChildren S sch, S.Name c ≠ effArgNm S sch ∧
        HasPrefix (S.Name c) val = true ∧
        permitted (authorise r.cpath (S.Name c) auth) = true ∧
        out[r.m.length]? = some (S.Name c)) := by
  have hsound : ∀ e ∈ candidatesAt S auth sch r val, e.isarg = false →
      e.node ∈ effChildren S sch ∧ S.Name e.node ≠ effArgNm S sch ∧
        HasPrefix (S.Name e.node) val = true ∧
        permitted (authorise r.cpath (S.Name e.node) auth) = true := by
    intro e he hna
    obtain ⟨_, h2, h3⟩ := scanAt_matched_sound S auth sch r val e
      (candidatesAt_nonarg S auth sch r val e he hna)
    exact ⟨h2, (nameCandidate_iff S auth r.cpath _ val e.node).1 h3⟩
  refine ⟨fun name => permitted_authorise_iff r.cpath name auth, ?_, ?_⟩
  · intro ms hms
    refine ⟨candidatesAt S auth sch r val, hat.children_list val rest htok ms hms, hsound, ?_⟩
    intro hnoex c hc h1 h2 h3
    have hf : (effChildren S sch).find?
        (exactCandidate S auth r.cpath (effArgNm S sch) val) = none := by
      rw [List.find?_eq_none]
      intro x hx hxe
      obtain ⟨hn, hv⟩ := (exactCandidate_iff S auth r.cpath _ val x).1 hxe
      obtain ⟨g1, _, g3⟩ := (nameCandidate_iff S auth r.cpath _ val x).1 hn
      rcases hnoex x hx hv with h | h
      · exact g1 h
      · rw [g3] at h; exact absurd h (by simp)
    have hmem : (⟨c, false⟩ : expandMatch) ∈ (scanAt S auth sch r val).matched := by
      rw [scanAt_matched_complete S auth sch r val hf]
      exact List.mem_map.2 ⟨c, List.mem_filter.2
        ⟨hc, (nameCandidate_iff S auth r.cpath _ val c).2 ⟨h1, h2, h3⟩⟩, rfl⟩
    rw [candidatesAt_of_matched S auth sch r val (List.ne_nil_of_mem hmem)]
    exact hmem
  · intro out hout
    obtain ⟨_, hget, _⟩ := drop_eq_cons path _ val rest htok
    have hlen := hat.1.cpath_length
    rw [Expand_eq, hat.2, htok] at hout
    cases hw : processchildren S auth sch (val :: rest) r with
    | none => simp [hw] at hout
    | some rf =>
      simp only [hw] at hout
      obtain ⟨ext, he⟩ := processchildren_cons_m S auth sch val rest r rf hw
      have h2 := hat.1.2
      unfold ProcessMatches results.matchLists at h2 hout
      rw [he, List.map_append, processMatchesLoop_append, h2] at hout
      simp only [Nat.zero_add, List.length_map, List.map_cons] at hout
      obtain ⟨t, more, ho, ht⟩ := processMatchesLoop_cons_ok path _ _ _ _ val out hget hout
      have hidx : out[r.m.length]? = some t := by
        rw [ho, List.getElem?_append_right (by omega)]
        simp [hlen]
      rcases ht with ht | ⟨c, hc, hca, ht⟩
      · left; rw [hidx, ht]
      · right
        rcases hL : candidatesAt S auth sch r val with _ | ⟨e, _ | ⟨e2, es⟩⟩
        · rw [hL] at hc; simp at hc
        · rw [hL] at hc
          simp only [List.map_cons, List.map_nil, List.cons.injEq, and_true] at hc
          subst hc
          obtain ⟨g1, g2, g3, g4⟩ := hsound e (by rw [hL]; simp) hca
          exact ⟨e.node, g1, g2, g3, g4, by rw [hidx, ht]; rfl⟩
        · rw [hL] at hc; simp at hc

theorem ExpandMatches_authorised_witness :
    ExpandMatches ⟨some partialCommands⟩ ["t"] (some authoriseDenyTestCommand) = some [[]] ∧
    ∃ L : List expandMatch,
      ([[]] : List (List Match))[0]? = some (L.map (expandMatch.toMatch partialCommands)) ∧
      (∀ e ∈ L, e.isarg = false →
        e.node ∈ effChildren partialCommands 0 ∧
          partialCommands.Name e.node ≠ effArgNm partialCommands 0 ∧
          HasPrefix (partialCommands.Name e.node) "t" = true ∧
          permitted (authorise [] (partialCommands.Name e.node)
            (some authoriseDenyTestCommand)) = true) :=
  ⟨partialCommands_denied,
    ((ExpandMatches_authorised partialCommands (some authoriseDenyTestCommand) ["t"] 0
      ⟨[], []⟩ "t" []
      ((AtNode.root partialCommands (some authoriseDenyTestCommand) ["t"]).toChildren
        (Or.inl rfl)) rfl).2.1 [[]] partialCommands_denied).imp
      (fun _ h => ⟨h.1, h.2.1⟩)⟩

/-- C7 as stated fails: with a nil authoriser, `show-all` has the token `show`
as a prefix of its name and is permitted, yet the candidate list for the
token holds `show` alone. -/
theorem ExpandMatches_permitted_prefix_dropped :
    2 ∈ showCommands.Children 0 ∧
    HasPrefix (showCommands.Name 2) "show" = true ∧
    permitted (authorise [] (showCommands.Name 2) none) = true ∧
    ExpandMatches ⟨some showCommands⟩ ["show"] none = some [[⟨"show", "", false⟩]] := by
  refine ⟨by decide, by decide, by decide, ?_⟩
  simp [ExpandMatches, processnode, processchildren, processopdcommand,
    showCommands, scanChildren, effChildren, effArgNm, HasPrefix, permitted, authorise,
    commandScan, expandMatch.toMatch]

/-- C8: when `ProcessMatches` accepts the lists before index `i`, emitting `e`
for them, and the list at index `i` is empty (there being no more lists than
tokens), the result is no path and `CommandInval` with `Path = e` and
`Fail = path[i]`. -/
theorem ProcessMatches_empty_entry (path : List String) (ms1 ms2 : List (List Match))
    (e : List String)
    (hlen : (ms1 ++ [] :: ms2).length ≤ path.length)
    (hpre : ProcessMatches path ms1 = some (.ok e)) :
    ∃ tok, path[ms1.length]? = some tok ∧
      ProcessMatches path (ms1 ++ [] :: ms2) = some (.error (.CommandInval e tok)) := by
  have hlt : ms1.length < path.length := by
    simp only [List.length_append, List.length_cons] at hlen; omega
  refine ⟨path[ms1.length], List.getElem?_eq_getElem hlt, ?_⟩
  unfold ProcessMatches at hpre ⊢
  rw [processMatchesLoop_append, hpre]
  simp only [Nat.zero_add, processMatchesLoop, List.getElem?_eq_getElem hlt]

theorem ProcessMatches_empty_entry_witness :
    ∃ tok, ["t", "foo"][[[(⟨"test-command", "", false⟩ : Match)]].length]? = some tok ∧
      ProcessMatches ["t", "foo"] ([[⟨"test-command", "", false⟩]] ++ [] :: []) =
        some (.error (.CommandInval ["test-command"] tok)) :=
  ProcessMatches_empty_entry ["t", "foo"] [[⟨"test-command", "", false⟩]] []
    ["test-command"] (by decide) (by rfl)

/-- C9 (as the code has it): with the lists before index `i` accepted, `e`
emitted for them, and a list of two or more candidates at index `i`,
`ProcessMatches` accepts the raw token `path[i]` when some candidate's name
equals it or some candidate (one or several) is an argument match, and
otherwise fails with `PathAmbig` carrying `e`, the raw token and a map whose
keys are exactly the candidates' names, each bound to the help of a candidate
of that name. -/
theorem ProcessMatches_several (path : List String) (ms1 ms2 : List (List Match))
    (e : List String) (c1 c2 : Match) (cs : List Match) (tok : String)
    (hpre : ProcessMatches path ms1 = some (.ok e))
    (htok : path[ms1.length]? = some tok) :
    ((∃ c ∈ c1 :: c2 :: cs, c.Name = tok ∨ c.IsArg = true) →
      ProcessMatches path (ms1 ++ (c1 :: c2 :: cs) :: ms2) =
        processMatchesLoop path (ms1.length + 1) (e ++ [tok]) ms2) ∧
    ((∀ c ∈ c1 :: c2 :: cs, c.Name ≠ tok ∧ c.IsArg = false) →
      ∃ M, ProcessMatches path (ms1 ++ (c1 :: c2 :: cs) :: ms2) =
          some (.error (.PathAmbig e tok M true)) ∧
        (∀ k, k ∈ M.map Prod.fst ↔ ∃ c ∈ c1 :: c2 :: cs, c.Name = k) ∧
        (∀ k v, (k, v) ∈ M → ∃ c ∈ c1 :: c2 :: cs, c.Name = k ∧ c.Help = v)) := by
  unfold ProcessMatches at hpre ⊢
  constructor
  · intro hex
    rw [processMatchesLoop_append, hpre]
    simp only [Nat.zero_add, processMatchesLoop, htok, ambigScan_some tok _ [] hex,
      Bool.not_true, Bool.false_eq_true, if_false]
  · intro hno
    refine ⟨(c1 :: c2 :: cs).foldl (fun a c => mapSet a c.Name c.Help) [], ?_, ?_, ?_⟩
    · rw [processMatchesLoop_append, hpre]
      simp only [Nat.zero_add, processMatchesLoop, htok, ambigScan_none tok _ [] hno,
        Bool.not_false, if_true]
    · intro k
      rw [mem_keys_foldl_mapSet]
      simp
    · intro k v hkv
      rcases mem_foldl_mapSet _ _ _ hkv with h | h
      · simp at h
      · exact h

theorem ProcessMatches_several_witness :
    ((∃ c ∈ [(⟨"show", "h1", false⟩ : Match), ⟨"show-all", "h2", false⟩],
        c.Name = "sh" ∨ c.IsArg = true) →
      ProcessMatches ["sh"] ([] ++ [⟨"show", "h1", false⟩, ⟨"show-all", "h2", false⟩] :: []) =
        processMatchesLoop ["sh"] (([] : List (List Match)).length + 1) ([] ++ ["sh"]) []) ∧
    ((∀ c ∈ [(⟨"show", "h1", false⟩ : Match), ⟨"show-all", "h2", false⟩],
        c.Name ≠ "sh" ∧ c.IsArg = false) →
      ∃ M, ProcessMatches ["sh"]
            ([] ++ [⟨"show", "h1", false⟩, ⟨"show-all", "h2", false⟩] :: []) =
          some (.error (.PathAmbig [] "sh" M true)) ∧
        (∀ k, k ∈ M.map Prod.fst ↔
          ∃ c ∈ [(⟨"show", "h1", false⟩ : Match), ⟨"show-all", "h2", false⟩], c.Name = k) ∧
        (∀ k v, (k, v) ∈ M →
          ∃ c ∈ [(⟨"show", "h1", false⟩ : Match), ⟨"show-all", "h2", false⟩],
            c.Name = k ∧ c.Help = v)) :=
  ProcessMatches_several ["sh"] [] [] [] ⟨"show", "h1", false⟩ ⟨"show-all", "h2", false⟩ []
    "sh" (by rfl) (by rfl)

/-- C9 as stated fails: two argument-type candidates, neither named like the
raw token, are accepted (the raw token is emitted), not reported ambiguous. -/
theorem ProcessMatches_two_arguments_accepted :
    ProcessMatches ["x"] [[⟨"a", "", true⟩, ⟨"b", "", true⟩]] = some (.ok ["x"]) := by
  rfl

/-- C10: the merged sequence has length `max(len(high), len(low))`, and at
every index of `high` the merged list is `high[i]` followed by elements taken
from `low[i]` in order. -/
theorem MergeMatches_extends_high (high low : List (List Match)) :
    (MergeMatches high low).length = max high.length low.length ∧
    ∀ i, i < high.length →
      ∃ extra, (MergeMatches high low)[i]? = some (high.getD i [] ++ extra) ∧
        extra.Sublist (low.getD i []) := by
  constructor
  · unfold MergeMatches
    simp only [List.length_map, List.length_range]
    split <;> omega
  · intro i hi
    have hidx : i < (if low.length > high.length then low.length else high.length) := by
      split <;> omega
    have hget : (MergeMatches high low)[i]? = some (mergeAt high low i) := by
      unfold MergeMatches
      simp only [List.getElem?_map, List.getElem?_range hidx, Option.map_some']
    rw [hget]
    unfold mergeAt
    simp only [gt_iff_lt, hi, if_true, List.nil_append]
    split
    · obtain ⟨extra, h1, h2⟩ := foldl_appendEntry (low.getD i []) (high.getD i [])
      exact ⟨extra, by rw [h1], h2⟩
    · exact ⟨[], by simp, List.nil_sublist _⟩

/-! ## Lemmas on `TmplGet` -/

theorem mapGet_mapSet (m : List (String × String)) (k v k' : String) :
    mapGet (mapSet m k v) k' = if k = k' then v else mapGet m k' := by
  induction m with
  | nil =>
    simp only [mapSet, mapGet]
  | cons p m ih =>
    obtain ⟨a, b⟩ := p
    simp only [mapSet]
    by_cases h : a = k
    · subst h
      simp only [if_true, mapGet]
      by_cases h2 : a = k' <;> simp only [h2, if_true, if_false]
    · simp only [h, if_false, mapGet, ih]
      by_cases h2 : a = k'
      · subst h2
        simp only [if_true]
        rw [if_neg (fun hk => h hk.symm)]
      · simp only [h2, if_false]

theorem mapGet_mapSet_ne (m : List (String × String)) (k v k' : String) (h : k ≠ k') :
    mapGet (mapSet m k v) k' = mapGet m k' := by
  rw [mapGet_mapSet, if_neg h]

theorem mapGet_ite_mapSet_ne (c : Prop) [Decidable c] (m : List (String × String))
    (k v k' : String) (h : k ≠ k') :
    mapGet (if c then mapSet m k v else m) k' = mapGet m k' := by
  split
  · exact mapGet_mapSet_ne m k v k' h
  · rfl

theorem mapGet_tmplMapType (S : Schema) (sn : Nat) (m : List (String × String))
    (k : String) (h : "type" ≠ k) : mapGet (tmplMapType S sn m) k = mapGet m k := by
  unfold tmplMapType
  split
  · rfl
  · cases S.TypeClass sn <;> exact mapGet_mapSet_ne m _ _ k h

theorem mapGet_tmplMapKind_privileged (S : Schema) (sn : Nat)
    (m : List (String × String)) :
    mapGet (tmplMapKind S sn m) "privileged" = if S.Privileged sn then "1" else "0" := by
  unfold tmplMapKind
  cases S.Privileged sn <;> simp [mapGet_mapSet]

theorem mapGet_tmplMapKind_run (S : Schema) (sn : Nat) (m : List (String × String)) :
    mapGet (tmplMapKind S sn m) "run" = S.OnEnter sn := by
  unfold tmplMapKind
  cases S.Privileged sn <;> simp [mapGet_mapSet]

theorem mapGet_tmplMapKind_allowed (S : Schema) (sn : Nat) (m : List (String × String)) :
    mapGet (tmplMapKind S sn m) "allowed" = S.OpdAllowed sn := by
  unfold tmplMapKind
  cases S.Privileged sn <;> simp [mapGet_mapSet]

theorem mapGet_tmplMapKind_other (S : Schema) (sn : Nat) (m : List (String × String))
    (k : String) (h1 : "run" ≠ k) (h2 : "allowed" ≠ k) (h3 : "privileged" ≠ k) :
    mapGet (tmplMapKind S sn m) k = mapGet m k := by
  unfold tmplMapKind
  cases S.Privileged sn <;> simp [mapGet_mapSet, h1, h2, h3]

theorem mapGet_tmplMapHead_is_value (S : Schema) (sn : Nat) (val : Bool) :
    mapGet (tmplMapHead S sn val) "is_value" = if val then "1" else "" := by
  unfold tmplMapHead
  simp only []
  rw [mapGet_ite_mapSet_ne _ _ _ _ _ (by decide), mapGet_ite_mapSet_ne _ _ _ _ _ (by decide),
    mapGet_ite_mapSet_ne _ _ _ _ _ (by decide)]
  cases val <;> simp [mapGet, mapSet]

theorem mapGet_tmplMapHead_help (S : Schema) (sn : Nat) (val : Bool) :
    mapGet (tmplMapHead S sn val) "help" = S.ExtGetHelp sn := by
  unfold tmplMapHead
  simp only []
  by_cases hh : S.ExtGetHelp sn = ""
  · rw [if_neg (by simpa using hh), mapGet_ite_mapSet_ne _ _ _ _ _ (by decide),
      mapGet_ite_mapSet_ne _ _ _ _ _ (by decide), mapGet_ite_mapSet_ne _ _ _ _ _ (by decide)]
    rw [hh]; rfl
  · rw [if_pos (by simpa using hh), mapGet_mapSet, if_pos rfl]

/-- The record `TmplGet` builds for a command, option or argument node, field
by field. -/
theorem tmplOfNode_eq (S : Schema) (sn : Nat) (val : Bool)
    (hk : S.Kind sn = .OpdCommand ∨ S.Kind sn = .OpdOption ∨ S.Kind sn = .OpdArgument) :
    tmplOfNode S sn val =
      { allowed := S.OpdAllowed sn, comptype := "", help := S.ExtGetHelp sn, include_ := "",
        run := S.OnEnter sn, features := "", priv := S.Privileged sn,
        local_ := if S.Kind sn = .OpdOption then val && S.Local sn else S.Local sn,
        secret := val && S.Secret sn, yang := true, passOpcArgs := S.PassOpcArgs sn } := by
  unfold tmplOfNode
  rcases hk with hk | hk | hk <;>
    simp only [hk, mapGet_tmplMapType _ _ _ _ (by decide : "type" ≠ "allowed"),
      mapGet_tmplMapType _ _ _ _ (by decide : "type" ≠ "help"),
      mapGet_tmplMapType _ _ _ _ (by decide : "type" ≠ "run"),
      mapGet_tmplMapType _ _ _ _ (by decide : "type" ≠ "privileged"),
      mapGet_tmplMapType _ _ _ _ (by decide : "type" ≠ "is_value"),
      mapGet_tmplMapKind_privileged, mapGet_tmplMapKind_run, mapGet_tmplMapKind_allowed,
      mapGet_tmplMapKind_other _ _ _ "help" (by decide) (by decide) (by decide),
      mapGet_tmplMapKind_other _ _ _ "is_value" (by decide) (by decide) (by decide),
      mapGet_tmplMapHead_is_value, mapGet_tmplMapHead_help] <;>
    cases val <;> cases S.Privileged sn <;>
    simp [NewOpTmpl, OpTmpl.SetPriv, OpTmpl.SetLocal, OpTmpl.SetSecret,
      OpTmpl.SetPassOpcArgs, OpTmpl.SetYang]

/-! ## Lemmas on `appendEntry` -/

theorem appendEntry_eq_iff (a : List Match) (b : Match) :
    appendEntry a b = a ++ [b] ↔
      (∀ i ∈ a, i.Name ≠ b.Name) ∧ ¬(b.IsArg = true ∧ ∃ i ∈ a, i.IsArg = true) := by
  unfold appendEntry
  split
  · next h =>
    simp only [List.any_eq_true, Bool.or_eq_true, beq_iff_eq, Bool.and_eq_true] at h
    obtain ⟨i, hi, hc⟩ := h
    constructor
    · intro he
      have := congrArg List.length he
      simp at this
    · rintro ⟨h1, h2⟩
      rcases hc with hc | hc
      · exact absurd hc (h1 i hi)
      · exact absurd ⟨hc.2, i, hi, hc.1⟩ h2
  · next h =>
    simp only [List.any_eq_true, Bool.or_eq_true, beq_iff_eq, Bool.and_eq_true, not_exists,
      not_and, not_or] at h
    refine ⟨fun _ => ⟨fun i hi => (h i hi).1, ?_⟩, fun _ => rfl⟩
    rintro ⟨hb, i, hi, hia⟩
    have h2 := (h i hi).2
    simp [hia, hb] at h2

theorem appendEntry_cases (a : List Match) (b : Match) :
    appendEntry a b = a ∨ appendEntry a b = a ++ [b] := by
  unfold appendEntry
  split
  · exact Or.inl rfl
  · exact Or.inr rfl

theorem mergeAt_eq (high low : List (List Match)) (i : Nat) :
    mergeAt high low i = (low.getD i []).foldl appendEntry (high.getD i []) := by
  unfold mergeAt
  have hh : (if high.length > i then ([] : List Match) ++ high.getD i [] else []) =
      high.getD i [] := by
    split
    · simp
    · next h =>
      rw [List.getD_eq_default _ _ (by omega)]
  simp only [hh]
  split
  · rfl
  · next h =>
    rw [List.getD_eq_default low _ (by omega)]
    rfl

theorem MergeMatches_getElem? (high low : List (List Match)) (i : Nat)
    (hi : i < max high.length low.length) :
    (MergeMatches high low)[i]? =
      some ((low.getD i []).foldl appendEntry (high.getD i [])) := by
  have hidx : i < (if low.length > high.length then low.length else high.length) := by
    split <;> omega
  unfold MergeMatches
  simp only [List.getElem?_map, List.getElem?_range hidx, Option.map_some', mergeAt_eq]

/-- What a run of `appendEntry` over `l` adds to `a`. -/
theorem foldl_appendEntry_names (l : List Match) :
    ∀ a, ∃ extra, l.foldl appendEntry a = a ++ extra ∧
      (extra.map Match.Name).Nodup ∧
      (∀ e ∈ extra, ∀ h ∈ a, e.Name ≠ h.Name) ∧
      ((∃ h ∈ a, h.IsArg = true) → ∀ e ∈ extra, e.IsArg = false) ∧
      (extra.filter (fun e => e.IsArg)).length ≤ 1 := by
  induction l with
  | nil => intro a; exact ⟨[], by simp, by simp, by simp, by simp, by simp⟩
  | cons b l ih =>
    intro a
    simp only [List.foldl_cons]
    rcases appendEntry_cases a b with hb | hb
    · rw [hb]
      exact ih a
    · have hcond := (appendEntry_eq_iff a b).1 hb
      rw [hb]
      obtain ⟨extra, h1, h2, h3, h4, h5⟩ := ih (a ++ [b])
      refine ⟨b :: extra, by rw [h1]; simp, ?_, ?_, ?_, ?_⟩
      · simp only [List.map_cons, List.nodup_cons, List.mem_map, not_exists, not_and]
        refine ⟨fun e he hn => h3 e he b (by simp) hn, h2⟩
      · intro e he h hh
        rcases List.mem_cons.1 he with rfl | he
        · exact fun hn => hcond.1 h hh hn.symm
        · exact h3 e he h (by simp [hh])
      · rintro ⟨h, hh, hha⟩ e he
        rcases List.mem_cons.1 he with rfl | he
        · cases hb' : e.IsArg with
          | false => rfl
          | true => exact absurd ⟨hb', h, hh, hha⟩ hcond.2
        · exact h4 ⟨h, by simp [hh], hha⟩ e he
      · cases hba : b.IsArg with
        | false => simpa [List.filter_cons, hba] using h5
        | true =>
          have hnone : ∀ e ∈ extra, e.IsArg = false := h4 ⟨b, by simp, hba⟩
          have : extra.filter (fun e => e.IsArg) = [] :=
            List.filter_eq_nil_iff.2 (fun e he => by simp [hnone e he])
          simp [List.filter_cons, hba, this]

/-! ## Lemmas on the template parser -/

/-- No field assignment of `parser.parse` leaves local and privileged both
set. -/
theorem applyField_keeps (t : OpTmpl) (typ : itemType) (val : String)
    (h : ¬(t.Local = true ∧ t.Priv = true)) :
    ¬((applyField t typ val).Local = true ∧ (applyField t typ val).Priv = true) := by
  cases t with
  | mk allowed comptype help include_ run features priv local_ secret yang passOpcArgs =>
    simp only [OpTmpl.Local, OpTmpl.Priv] at h
    cases typ <;>
      simp only [applyField, OpTmpl.SetAllowed, OpTmpl.SetComptype, OpTmpl.SetInclude,
        OpTmpl.SetHelp, OpTmpl.SetRun, OpTmpl.SetPriv, OpTmpl.SetLocal, OpTmpl.SetSecret,
        OpTmpl.SetFeatures, OpTmpl.Features, OpTmpl.Local, OpTmpl.Priv] <;>
      first
        | exact h
        | (cases ParseBool val with
           | none => cases local_ <;> simp_all
           | some b => cases b <;> cases local_ <;> simp_all)

theorem parseLoop_keeps_aux (n : Nat) :
    ∀ items : List item, items.length ≤ n → ∀ t, ¬(t.Local = true ∧ t.Priv = true) →
      ¬((parseLoop items t).1.Local = true ∧ (parseLoop items t).1.Priv = true) := by
  induction n with
  | zero =>
    intro items hl t h
    have : items = [] := List.length_eq_zero.1 (Nat.le_zero.1 hl)
    subst this
    simpa only [parseLoop] using h
  | succ n ih =>
    intro items hl t h
    rcases items with _ | ⟨i, _ | ⟨v, rest⟩⟩
    · simpa only [parseLoop] using h
    · simp only [parseLoop]
      split
      · exact h
      · split <;> exact h
    · have hr : rest.length ≤ n := by simp at hl; omega
      have hvr : (v :: rest).length ≤ n := by simp at hl ⊢; omega
      simp only [parseLoop]
      split
      · exact h
      · split
        · split
          · exact ih rest hr t h
          · exact ih rest hr _ (applyField_keeps t _ _ h)
        · exact ih (v :: rest) hvr t h

theorem parseLoop_keeps (items : List item) (t : OpTmpl)
    (h : ¬(t.Local = true ∧ t.Priv = true)) :
    ¬((parseLoop items t).1.Local = true ∧ (parseLoop items t).1.Priv = true) :=
  parseLoop_keeps_aux items.length items (Nat.le_refl _) t h

/-! ## Lemmas on the template tree -/

theorem childGet_eq_none (m : List (String × Nat)) (k : String) :
    childGet m k = none ↔ k ∉ m.map Prod.fst := by
  induction m with
  | nil => simp [childGet]
  | cons p m ih =>
    obtain ⟨a, c⟩ := p
    simp only [childGet, List.map_cons, List.mem_cons, not_or]
    by_cases h : a = k
    · simp [h]
    · simp only [h, if_false, ih]
      constructor
      · intro hm; exact ⟨fun hk => h hk.symm, hm⟩
      · intro hm; exact hm.2

theorem childSet_of_absent (m : List (String × Nat)) (k : String) (c : Nat)
    (h : k ∉ m.map Prod.fst) : childSet m k c = m ++ [(k, c)] := by
  induction m with
  | nil => rfl
  | cons p m ih =>
    obtain ⟨a, c'⟩ := p
    simp only [List.map_cons, List.mem_cons, not_or] at h
    have hak : ¬a = k := fun hk => h.1 hk.symm
    simp only [childSet, hak, if_false, ih h.2, List.cons_append]

theorem childGet_append_absent (m : List (String × Nat)) (k : String) (c : Nat)
    (k' : String) (h : k ∉ m.map Prod.fst) :
    childGet (m ++ [(k, c)]) k' = if k = k' then some c else childGet m k' := by
  induction m with
  | nil => simp [childGet]
  | cons p m ih =>
    obtain ⟨a, c'⟩ := p
    simp only [List.map_cons, List.mem_cons, not_or] at h
    have hak : ¬a = k := fun hk => h.1 hk.symm
    rw [List.cons_append]
    simp only [childGet]
    rw [ih h.2]
    by_cases hk : a = k'
    · subst hk
      simp only [if_true]
      rw [if_neg (fun hka => hak hka.symm)]
    · simp only [hk, if_false]

/-! ## Lemmas on the template lexer -/

theorem lexField_eof (pending rest : List Char)
    (h : rest.dropWhile isLowerLetter = []) :
    lexField pending rest = [⟨.itemEOF, ""⟩] := by
  rw [lexField]
  split
  · rfl
  · next c rest2 hc => rw [h] at hc; exact List.noConfusion hc

theorem lexField_skip (pending rest : List Char) (c : Char) (rest2 : List Char)
    (h : rest.dropWhile isLowerLetter = c :: rest2) (hc : c ≠ fieldDelim) :
    lexField pending rest = lexField [] rest2 := by
  rw [lexField]
  split
  · next hn => rw [h] at hn; exact List.noConfusion hn
  · next d rest3 hd =>
    rw [h] at hd
    obtain ⟨rfl, rfl⟩ := List.cons.inj hd
    simp only [hc, if_false, ite_self]

theorem lexField_field (pending rest rest2 : List Char) (t : itemType)
    (h : rest.dropWhile isLowerLetter = fieldDelim :: rest2)
    (hk : key (String.mk (pending ++ rest.takeWhile isLowerLetter)) = some t) :
    lexField pending rest =
      ⟨t, String.mk (pending ++ rest.takeWhile isLowerLetter)⟩ :: lexValue [] rest2 := by
  rw [lexField]
  split
  · next hn => rw [h] at hn; exact List.noConfusion hn
  · next d rest3 hd =>
    rw [h] at hd
    obtain ⟨rfl, rfl⟩ := List.cons.inj hd
    have hne : ¬fieldDelim = '\n' := by decide
    simp only [hne, if_false, if_true, hk]

theorem lexField_bad (pending rest rest2 : List Char)
    (h : rest.dropWhile isLowerLetter = fieldDelim :: rest2)
    (hk : key (String.mk (pending ++ rest.takeWhile isLowerLetter)) = none) :
    lexField pending rest =
      [⟨.itemError,
        "bad field " ++ String.mk (pending ++ rest.takeWhile isLowerLetter)⟩] := by
  rw [lexField]
  split
  · next hn => rw [h] at hn; exact List.noConfusion hn
  · next d rest3 hd =>
    rw [h] at hd
    obtain ⟨rfl, rfl⟩ := List.cons.inj hd
    have hne : ¬fieldDelim = '\n' := by decide
    simp only [hne, if_false, if_true, hk]

theorem lexValue_nil (pending : List Char) :
    lexValue pending [] = [⟨.itemValue, String.mk pending⟩] := by
  rw [lexValue]

theorem lexValue_char (pending : List Char) (c : Char) (rest : List Char)
    (hc : c ≠ '\n') : lexValue pending (c :: rest) = lexValue (pending ++ [c]) rest := by
  rw [lexValue]
  simp only [hc, if_false]

theorem lexValue_chars (l : List Char) :
    ∀ (pending rest : List Char), (∀ c ∈ l, c ≠ '\n') →
      lexValue pending (l ++ rest) = lexValue (pending ++ l) rest := by
  induction l with
  | nil => intro pending rest _; simp
  | cons c l ih =>
    intro pending rest h
    rw [List.cons_append, lexValue_char _ _ _ (h c (List.mem_cons_self _ _)),
      ih _ _ (fun d hd => h d (List.mem_cons_of_mem _ hd))]
    simp

theorem lexValue_newline_field (pending rest1 rest2 : List Char)
    (h : rest1.dropWhile isLowerLetter = fieldDelim :: rest2) :
    lexValue pending ('\n' :: rest1) =
      ⟨.itemValue, String.mk (pending ++ ['\n'])⟩ ::
        lexField (rest1.takeWhile isLowerLetter) (fieldDelim :: rest2) := by
  rw [lexValue]
  simp only [if_true]
  split
  · next d rest3 hd =>
    rw [h] at hd
    obtain ⟨rfl, rfl⟩ := List.cons.inj hd
    simp only [if_true]
  · next hn => rw [h] at hn; exact List.noConfusion hn

theorem lexValue_newline_other (pending rest1 : List Char)
    (h : ∀ rest2, rest1.dropWhile isLowerLetter ≠ fieldDelim :: rest2) :
    lexValue pending ('\n' :: rest1) =
      lexValue (pending ++ '\n' :: rest1.takeWhile isLowerLetter)
        (rest1.dropWhile isLowerLetter) := by
  rw [lexValue]
  simp only [if_true]
  split
  · next d rest3 hd =>
    have hne : d ≠ fieldDelim := fun hdd => h rest3 (by rw [hd, hdd])
    simp only [hne, if_false, hd]
  · next hn => simp only [hn]

/-- C11: a candidate `b` of `low[i]` is appended iff no candidate of the merged
list at that moment (`high[i]` followed by what was appended from `low[i]`
before `b`) has `b`'s name and `b` is not an argument candidate while that list
holds one; so what is appended to `high[i]` has pairwise different names, none
of them a name of `high[i]`, holds no argument candidate when `high[i]` holds
one, and at most one in any case. -/
theorem MergeMatches_appends (high low : List (List Match)) :
    (∀ a b, (appendEntry a b = a ++ [b] ↔
        (∀ i ∈ a, i.Name ≠ b.Name) ∧ ¬(b.IsArg = true ∧ ∃ i ∈ a, i.IsArg = true)) ∧
      (appendEntry a b = a ∨ appendEntry a b = a ++ [b])) ∧
    (∀ i pre b post, low.getD i [] = pre ++ b :: post →
      (MergeMatches high low)[i]? =
        some (post.foldl appendEntry
          (appendEntry (pre.foldl appendEntry (high.getD i [])) b))) ∧
    (∀ i, i < max high.length low.length →
      ∃ extra, (MergeMatches high low)[i]? = some (high.getD i [] ++ extra) ∧
        (extra.map Match.Name).Nodup ∧
        (∀ e ∈ extra, ∀ h ∈ high.getD i [], e.Name ≠ h.Name) ∧
        ((∃ h ∈ high.getD i [], h.IsArg = true) → ∀ e ∈ extra, e.IsArg = false) ∧
        (extra.filter (fun e => e.IsArg)).length ≤ 1) := by
  refine ⟨fun a b => ⟨appendEntry_eq_iff a b, appendEntry_cases a b⟩, ?_, ?_⟩
  · intro i pre b post hl
    have hi : i < low.length := by
      by_contra hn
      rw [List.getD_eq_default low _ (by omega)] at hl
      simp at hl
    rw [MergeMatches_getElem? high low i (by omega), hl]
    simp only [List.foldl_append, List.foldl_cons]
  · intro i hi
    obtain ⟨extra, h1, h2⟩ := foldl_appendEntry_names (low.getD i []) (high.getD i [])
    exact ⟨extra, by rw [MergeMatches_getElem? high low i hi, h1], h2⟩

/-- C12: with a schema loaded and the path resolving to the node `sn`,
`Completion` returns the entries of `sn`'s help map whose key the authoriser
permits on the path plus the key (every entry for a nil authoriser), help texts
unchanged, and no error; with no schema loaded, or no node for the path, it
returns a nil map and no error. -/
theorem Completion_permitted_entries (y : Yang) (path : List String)
    (auth : Option Authoriser) :
    (y.stOpd = none → Completion y path auth = (none, none)) ∧
    (∀ S, y.stOpd = some S → S.Descendant path = none →
      Completion y path auth = (none, none)) ∧
    (∀ S sn, y.stOpd = some S → S.Descendant path = some sn →
      ∃ m, Completion y path auth = (some m, none) ∧
        (∀ k v, (k, v) ∈ m ↔
          (k, v) ∈ S.HelpMap sn ∧ permitted (authorise path k auth) = true) ∧
        m.Sublist (S.HelpMap sn) ∧
        (auth = none → m = S.HelpMap sn)) := by
  refine ⟨?_, ?_, ?_⟩
  · intro hy
    simp only [Completion, hy]
  · intro S hy hd
    simp only [Completion, hy, hd]
  · intro S sn hy hd
    refine ⟨(S.HelpMap sn).filter (fun kv => permitted (authorise path kv.1 auth)),
      by simp only [Completion, hy, hd], ?_, List.filter_sublist _, ?_⟩
    · intro k v
      simp only [List.mem_filter]
    · intro ha
      subst ha
      exact List.filter_eq_self.2 (fun kv _ => rfl)

theorem Completion_permitted_entries_witness :
    Completion ⟨some flaggedCommands⟩ ["test-command"] none =
      (some [("test-option", "Option help"), ("<text>", "Argument help")], none) ∧
    Completion ⟨some flaggedCommands⟩ ["test-command"] (some authoriseDenyTestCommand) =
      (some [], none) :=
  ⟨((Completion_permitted_entries ⟨some flaggedCommands⟩ ["test-command"] none).2.2
      flaggedCommands 1 rfl rfl).elim (fun _ h => by rw [h.1, h.2.2.2 rfl]; rfl),
    by rfl⟩

theorem TmplGet_eq (y : Yang) (S : Schema) (path : List String) (sn : Nat) (val : Bool)
    (hy : y.stOpd = some S) (hd : S.OpdPathDescendant path = some (sn, val)) :
    TmplGet y path = .ok (some (tmplOfNode S sn val)) := by
  simp only [TmplGet, opdSchemaPathDescendant, hy, hd]

/-- C13: for a command, option or argument node, the record of `TmplGet` has
secret set iff the node's `Secret()` is true and the descendant is at a value
(`Val`): never at a bare name, and at a value exactly when the node is
secret. -/
theorem TmplGet_secret (y : Yang) (S : Schema) (path : List String) (sn : Nat) (val : Bool)
    (hy : y.stOpd = some S) (hd : S.OpdPathDescendant path = some (sn, val))
    (hk : S.Kind sn = .OpdCommand ∨ S.Kind sn = .OpdOption ∨ S.Kind sn = .OpdArgument) :
    ∃ t, TmplGet y path = .ok (some t) ∧
      (t.Secret = true ↔ S.Secret sn = true ∧ val = true) ∧
      (val = false → t.Secret = false) ∧
      (val = true → t.Secret = S.Secret sn) := by
  refine ⟨_, TmplGet_eq y S path sn val hy hd, ?_, ?_, ?_⟩ <;>
    rw [tmplOfNode_eq S sn val hk] <;> cases val <;> simp [OpTmpl.Secret]

theorem TmplGet_secret_witness :
    (∃ t, TmplGet ⟨some flaggedCommands⟩ ["test-command", "test-option"] = .ok (some t) ∧
      t.Secret = false) ∧
    (∃ t, TmplGet ⟨some flaggedCommands⟩ ["test-command", "test-option", "foo"] =
        .ok (some t) ∧ t.Secret = true) ∧
    (∃ t, TmplGet ⟨some flaggedCommands⟩ ["test-command"] = .ok (some t) ∧
      t.Secret = false) :=
  ⟨(TmplGet_secret ⟨some flaggedCommands⟩ flaggedCommands ["test-command", "test-option"]
      2 false rfl rfl (Or.inr (Or.inl rfl))).imp (fun _ h => ⟨h.1, h.2.2.1 rfl⟩),
    (TmplGet_secret ⟨some flaggedCommands⟩ flaggedCommands
      ["test-command", "test-option", "foo"] 2 true rfl rfl (Or.inr (Or.inl rfl))).imp
      (fun _ h => ⟨h.1, (h.2.2.2 rfl).trans rfl⟩),
    (TmplGet_secret ⟨some flaggedCommands⟩ flaggedCommands ["test-command"]
      1 false rfl rfl (Or.inl rfl)).imp (fun _ h => ⟨h.1, h.2.2.1 rfl⟩)⟩

/-- C14 (as the code has it): for an option node the record of `TmplGet` has
passOpcArgs equal to the option's `PassOpcArgs()`, at its bare name as at its
value. -/
theorem TmplGet_passOpcArgs (y : Yang) (S : Schema) (path : List String) (sn : Nat)
    (val : Bool)
    (hy : y.stOpd = some S) (hd : S.OpdPathDescendant path = some (sn, val))
    (hk : S.Kind sn = .OpdOption) :
    ∃ t, TmplGet y path = .ok (some t) ∧ t.PassOpcArgs = S.PassOpcArgs sn := by
  refine ⟨_, TmplGet_eq y S path sn val hy hd, ?_⟩
  rw [tmplOfNode_eq S sn val (Or.inr (Or.inl hk))]
  rfl

theorem TmplGet_passOpcArgs_witness :
    ∃ t, TmplGet ⟨some flaggedCommands⟩ ["test-command", "test-option", "foo"] =
        .ok (some t) ∧ t.PassOpcArgs = flaggedCommands.PassOpcArgs 2 :=
  TmplGet_passOpcArgs ⟨some flaggedCommands⟩ flaggedCommands
    ["test-command", "test-option", "foo"] 2 true rfl rfl rfl

/-- C14 as stated fails: the option `test-option`, declared pass-opc-args, is
found at its bare name (`Val` false) and the record has passOpcArgs true. -/
theorem TmplGet_passOpcArgs_at_bare_name :
    flaggedCommands.OpdPathDescendant ["test-command", "test-option"] = some (2, false) ∧
    flaggedCommands.Kind 2 = .OpdOption ∧
    ∃ t, TmplGet ⟨some flaggedCommands⟩ ["test-command", "test-option"] = .ok (some t) ∧
      t.PassOpcArgs = true := by
  refine ⟨rfl, rfl, _, TmplGet_eq ⟨some flaggedCommands⟩ flaggedCommands _ 2 false rfl rfl, ?_⟩
  rw [tmplOfNode_eq flaggedCommands 2 false (Or.inr (Or.inl rfl))]
  rfl

/-- C15: for an option node the record of `TmplGet` has local set iff the
option's `Local()` is true and the descendant is at a value; for a command or
an argument node it has the node's `Local()`. -/
theorem TmplGet_local (y : Yang) (S : Schema) (path : List String) (sn : Nat) (val : Bool)
    (hy : y.stOpd = some S) (hd : S.OpdPathDescendant path = some (sn, val))
    (hk : S.Kind sn = .OpdCommand ∨ S.Kind sn = .OpdOption ∨ S.Kind sn = .OpdArgument) :
    ∃ t, TmplGet y path = .ok (some t) ∧
      (S.Kind sn = .OpdOption → (t.Local = true ↔ S.Local sn = true ∧ val = true)) ∧
      (S.Kind sn ≠ .OpdOption → t.Local = S.Local sn) := by
  refine ⟨_, TmplGet_eq y S path sn val hy hd, ?_, ?_⟩ <;>
    rw [tmplOfNode_eq S sn val hk] <;> intro ho <;> cases val <;> simp [OpTmpl.Local, ho]

theorem TmplGet_local_witness :
    (∃ t, TmplGet ⟨some flaggedCommands⟩ ["test-command", "test-option"] = .ok (some t) ∧
      ¬ t.Local = true) ∧
    (∃ t, TmplGet ⟨some flaggedCommands⟩ ["test-command"] = .ok (some t) ∧
      t.Local = true) :=
  ⟨(TmplGet_local ⟨some flaggedCommands⟩ flaggedCommands ["test-command", "test-option"]
      2 false rfl rfl (Or.inr (Or.inl rfl))).imp
      (fun _ h => ⟨h.1, fun hl => absurd ((h.2.1 rfl).1 hl).2 (by decide)⟩),
    (TmplGet_local ⟨some flaggedCommands⟩ flaggedCommands ["test-command"]
      1 false rfl rfl (Or.inl rfl)).imp
      (fun _ h => ⟨h.1, (h.2.2 (by decide)).trans rfl⟩)⟩

/-- C16 (as the code has it): for a command, option or argument node the
record of `TmplGet` has privileged equal to the node's `Privileged()`, whatever
local is; `TmplGet` never clears privileged because of local. -/
theorem TmplGet_privileged (y : Yang) (S : Schema) (path : List String) (sn : Nat)
    (val : Bool)
    (hy : y.stOpd = some S) (hd : S.OpdPathDescendant path = some (sn, val))
    (hk : S.Kind sn = .OpdCommand ∨ S.Kind sn = .OpdOption ∨ S.Kind sn = .OpdArgument) :
    ∃ t, TmplGet y path = .ok (some t) ∧ t.Priv = S.Privileged sn ∧
      (t.Local = true → (t.Priv = false ↔ S.Privileged sn = false)) := by
  refine ⟨_, TmplGet_eq y S path sn val hy hd, ?_, ?_⟩ <;>
    rw [tmplOfNode_eq S sn val hk] <;> simp [OpTmpl.Priv]

theorem TmplGet_privileged_witness :
    ∃ t, TmplGet ⟨some flaggedCommands⟩ ["test-command", "arg"] = .ok (some t) ∧
      t.Priv = flaggedCommands.Privileged 3 :=
  (TmplGet_privileged ⟨some flaggedCommands⟩ flaggedCommands ["test-command", "arg"]
    3 true rfl rfl (Or.inr (Or.inr rfl))).imp (fun _ h => ⟨h.1, h.2.1⟩)

/-- C16 as stated fails: the command `test-command`, whose `Privileged()` and
`Local()` are both true, gets a record with local true and privileged true. -/
theorem TmplGet_local_and_privileged :
    ∃ t, TmplGet ⟨some flaggedCommands⟩ ["test-command"] = .ok (some t) ∧
      t.Local = true ∧ t.Priv = true := by
  refine ⟨_, TmplGet_eq ⟨some flaggedCommands⟩ flaggedCommands _ 1 false rfl rfl, ?_⟩
  rw [tmplOfNode_eq flaggedCommands 1 false (Or.inl rfl)]
  exact ⟨rfl, rfl⟩

/-- C17: for a command, option or argument node found for the path,
`TmplGetChildren` returns the names of the node's children, in their order, that
the authoriser permits on the path plus the name and that differ from the first
entry of the node's `Arguments()` (from the empty string when it has none); for
an option found at its bare name it returns the empty list. -/
theorem TmplGetChildren_names (y : Yang) (S : Schema) (path : List String)
    (auth : Option Authoriser) (node : Nat) (val : Bool)
    (hy : y.stOpd = some S) (hd : S.OpdPathDescendant path = some (node, val))
    (hk : S.Kind node = .OpdCommand ∨ S.Kind node = .OpdOption ∨
      S.Kind node = .OpdArgument) :
    (S.Kind node = .OpdOption ∧ val = false →
      TmplGetChildren y path auth = .ok (some [])) ∧
    (¬(S.Kind node = .OpdOption ∧ val = false) →
      ∃ names, TmplGetChildren y path auth = .ok (some names) ∧
        names = ((S.OpdChildren node).map S.Name).filter (fun nm =>
          permitted (authorise path nm auth) && nm != (S.Arguments node).headD "") ∧
        names.Sublist ((S.OpdChildren node).map S.Name) ∧
        (∀ nm, nm ∈ names ↔ ∃ n ∈ S.OpdChildren node, S.Name n = nm ∧
          permitted (authorise path nm auth) = true ∧
          nm ≠ (S.Arguments node).headD "")) := by
  constructor
  · rintro ⟨ho, hv⟩
    subst hv
    simp [TmplGetChildren, opdSchemaPathDescendant, hy, hd, ho]
  · intro hno
    have hres : TmplGetChildren y path auth = .ok (some
        (((S.OpdChildren node).map S.Name).filter (fun nm =>
          permitted (authorise path nm auth) && nm != (S.Arguments node).headD ""))) := by
      simp only [TmplGetChildren, opdSchemaPathDescendant, hy, hd]
      rcases hk with hk | hk | hk
      · simp [hk, List.filter_map, Function.comp_def]
      · have hv : val = true := by
          cases val
          · exact absurd ⟨hk, rfl⟩ hno
          · rfl
        subst hv
        simp [hk, List.filter_map, Function.comp_def]
      · simp [hk, List.filter_map, Function.comp_def]
    refine ⟨_, hres, rfl, List.filter_sublist _, ?_⟩
    intro nm
    simp only [List.mem_filter, List.mem_map, Bool.and_eq_true, bne_iff_ne, ne_eq]
    constructor
    · rintro ⟨⟨n, hn, rfl⟩, hp, hne⟩
      exact ⟨n, hn, rfl, hp, hne⟩
    · rintro ⟨n, hn, rfl, hp, hne⟩
      exact ⟨⟨n, hn, rfl⟩, hp, hne⟩

theorem TmplGetChildren_names_witness :
    TmplGetChildren ⟨some flaggedCommands⟩ ["test-command", "test-option"] none =
      .ok (some []) ∧
    TmplGetChildren ⟨some flaggedCommands⟩ ["test-command"] none =
      .ok (some ["test-option"]) :=
  ⟨(TmplGetChildren_names ⟨some flaggedCommands⟩ flaggedCommands
      ["test-command", "test-option"] none 2 false rfl rfl (Or.inr (Or.inl rfl))).1
      ⟨rfl, rfl⟩,
    ((TmplGetChildren_names ⟨some flaggedCommands⟩ flaggedCommands ["test-command"] none
      1 false rfl rfl (Or.inl rfl)).2 (by decide)).elim
      (fun _ h => by rw [h.1, h.2.1]; rfl)⟩

/-- C18 (as the code has it): a record fresh from `NewOpTmpl` has privileged
false, local false and secret false; it is the record a parser starts from
(`newParser`) that has privileged true, with local and secret false. -/
theorem NewOpTmpl_defaults (allowed help comptype run : String) (items : List item)
    (text : String) :
    (NewOpTmpl allowed help comptype run).Priv = false ∧
    (NewOpTmpl allowed help comptype run).Local = false ∧
    (NewOpTmpl allowed help comptype run).Secret = false ∧
    (newParser items text).tmpl.Priv = true ∧
    (newParser items text).tmpl.Local = false ∧
    (newParser items text).tmpl.Secret = false :=
  ⟨rfl, rfl, rfl, rfl, rfl, rfl⟩

/-- C18 as stated fails: the record `NewOpTmpl` returns has privileged
false. -/
theorem NewOpTmpl_not_privileged :
    (NewOpTmpl "allowed-for-test-command" "Command help" "" "on-enter").Priv = false := by
  rfl

/-- C19: whatever the text, the record `Parse` returns (with or without an
error) never has local and privileged both set; a privileged field assigned
while local is set leaves local set and privileged clear. -/
theorem Parse_local_excludes_privileged (name text : String) :
    ¬((Parse name text).1.Local = true ∧ (Parse name text).1.Priv = true) ∧
    (∀ t val, t.Local = true →
      (applyField t .itemPrivileged val).Local = true ∧
        (applyField t .itemPrivileged val).Priv = false) := by
  constructor
  · unfold Parse
    exact parseLoop_keeps _ _ (by simp [newParser, NewOpTmpl, OpTmpl.SetPriv, OpTmpl.Local])
  · intro t val hl
    cases t with
    | mk allowed comptype help include_ run features priv local_ secret yang passOpcArgs =>
      simp only [OpTmpl.Local] at hl
      subst hl
      cases hp : ParseBool val <;>
        simp [applyField, hp, OpTmpl.SetPriv, OpTmpl.Local, OpTmpl.Priv]

theorem lex_local_then_privileged :
    lex "node.def" "local: true\nprivileged: true" =
      [⟨.itemLocal, "local"⟩, ⟨.itemValue, " true\n"⟩, ⟨.itemPrivileged, "privileged"⟩,
        ⟨.itemValue, " true"⟩] := by
  have h1 : "local: true\nprivileged: true".toList.dropWhile isLowerLetter =
      fieldDelim :: (" true".toList ++ '\n' :: "privileged: true".toList) := by rfl
  have h2 : "privileged: true".toList.dropWhile isLowerLetter =
      fieldDelim :: (" true".toList ++ []) := by rfl
  unfold lex
  rw [lexField_field _ _ _ .itemLocal h1 (by rfl),
    lexValue_chars _ _ _ (by decide), lexValue_newline_field _ _ _ h2,
    lexField_field _ _ _ .itemPrivileged (by rfl) (by rfl),
    lexValue_chars _ _ _ (by decide), lexValue_nil]
  rfl

theorem Parse_local_then_privileged :
    Parse "node.def" "local: true\nprivileged: true" =
      ({ allowed := "", comptype := "", help := "", include_ := "", run := "", features := "",
         priv := false, local_ := true, secret := false, yang := false,
         passOpcArgs := false }, none) := by
  unfold Parse newParser
  rw [lex_local_then_privileged]
  rfl

theorem Parse_local_excludes_privileged_witness :
    (Parse "node.def" "local: true\nprivileged: true").2 = none ∧
    (Parse "node.def" "local: true\nprivileged: true").1.Local = true ∧
    ¬(Parse "node.def" "local: true\nprivileged: true").1.Priv = true :=
  ⟨by rw [Parse_local_then_privileged], by rw [Parse_local_then_privileged]; rfl, fun hp =>
    (Parse_local_excludes_privileged "node.def" "local: true\nprivileged: true").1
      ⟨by rw [Parse_local_then_privileged]; rfl, hp⟩⟩

theorem Store.set_same (s : Store) (h : Nat) (t : OpTree) : (s.set h t) h = t := by
  simp [Store.set]

theorem Store.set_other (s : Store) (h : Nat) (t : OpTree) (n : Nat) (hn : n ≠ h) :
    (s.set h t) n = s n := by
  simp [Store.set, hn]

theorem AddChild_store (s : Store) (t child : Nat)
    (h : childGet (s t).children (s child).name = none) :
    OpTree.AddChild s t child =
      (((s.set t { s t with children := (s t).children ++ [((s child).name, child)] }).set
        child
        { (s.set t { s t with
            children := (s t).children ++ [((s child).name, child)] }) child with
          parent := some t }), none) := by
  simp only [OpTree.AddChild, OpTree.Name, h, OpTree.SetParent,
    childSet_of_absent _ _ _ ((childGet_eq_none _ _).1 h)]

/-- The store `AddChild` returns when the name is free, node by node. -/
theorem AddChild_result (s : Store) (t child : Nat)
    (h : childGet (s t).children (s child).name = none) :
    ∃ s2, OpTree.AddChild s t child = (s2, none) ∧
      ∀ n, (s2 n).name = (s n).name ∧ (s2 n).value = (s n).value ∧
        (s2 n).include_ = (s n).include_ ∧
        (s2 n).children =
          (if n = t then (s t).children ++ [((s child).name, child)]
            else (s n).children) ∧
        (s2 n).parent = if n = child then some t else (s n).parent := by
  refine ⟨_, AddChild_store s t child h, ?_⟩
  intro n
  by_cases h1 : n = child
  · subst h1
    rw [Store.set_same]
    by_cases h2 : n = t
    · subst h2
      rw [Store.set_same]
      simp
    · rw [Store.set_other _ _ _ _ h2]
      simp [h2]
  · rw [Store.set_other _ _ _ _ h1]
    by_cases h2 : n = t
    · subst h2
      rw [Store.set_same]
      simp [h1]
    · rw [Store.set_other _ _ _ _ h2]
      simp [h1, h2]

/-- C20: `AddChild` with a child whose name is a key of the node's child map
returns an error and the store as it was; otherwise it returns no error, the
node's map has the child under its name and its other keys as before, the
child's parent is the node, nothing else changes, and children stay keyed by
their names, one key per name. -/
theorem AddChild_unique_names (s : Store) (t child : Nat) :
    (∀ c0, childGet (s t).children (s child).name = some c0 →
      ∃ msg, OpTree.AddChild s t child = (s, some msg)) ∧
    (childGet (s t).children (s child).name = none →
      ∃ s2, OpTree.AddChild s t child = (s2, none) ∧
        childGet (s2 t).children (s child).name = some child ∧
        (∀ k, k ≠ (s child).name →
          childGet (s2 t).children k = childGet (s t).children k) ∧
        (s2 child).parent = some t ∧
        (∀ n, (s2 n).name = (s n).name) ∧
        (∀ n, n ≠ t → (s2 n).children = (s n).children) ∧
        (∀ n, n ≠ child → (s2 n).parent = (s n).parent) ∧
        (∀ n, n ≠ t → n ≠ child → s2 n = s n) ∧
        ((∀ n, WellKeyed s n) → ∀ n, WellKeyed s2 n)) := by
  constructor
  · intro c0 h
    exact ⟨"child " ++ (s child).name ++ " already exists",
      by simp only [OpTree.AddChild, OpTree.Name, h]⟩
  · intro h
    have habs := (childGet_eq_none _ _).1 h
    obtain ⟨s2, hs2, hf⟩ := AddChild_result s t child h
    refine ⟨s2, hs2, ?_, ?_, ?_, fun n => (hf n).1, ?_, ?_, ?_, ?_⟩
    · rw [(hf t).2.2.2.1, if_pos rfl, childGet_append_absent _ _ _ _ habs, if_pos rfl]
    · intro k hk
      rw [(hf t).2.2.2.1, if_pos rfl, childGet_append_absent _ _ _ _ habs,
        if_neg (fun e => hk e.symm)]
    · rw [(hf child).2.2.2.2, if_pos rfl]
    · intro n hn
      rw [(hf n).2.2.2.1, if_neg hn]
    · intro n hn
      rw [(hf n).2.2.2.2, if_neg hn]
    · intro n h1 h2
      obtain ⟨g1, g2, g3, g4, g5⟩ := hf n
      rw [if_neg h1] at g4
      rw [if_neg h2] at g5
      cases hx : s2 n
      cases hy : s n
      simp only [hx, hy] at g1 g2 g3 g4 g5
      subst g1 g2 g3 g4 g5
      rfl
    · intro hw n
      obtain ⟨hnd, hkey⟩ := hw n
      unfold WellKeyed
      rw [(hf n).2.2.2.1]
      by_cases hn : n = t
      · subst hn
        simp only [if_true, List.map_append, List.map_cons, List.map_nil]
        refine ⟨?_, ?_⟩
        · rw [List.nodup_append]
          refine ⟨hnd, by simp, ?_⟩
          intro a ha hb
          simp only [List.mem_singleton] at hb
          subst hb
          exact habs ha
        · intro k c hkc
          rw [(hf c).1]
          rcases List.mem_append.1 hkc with hm | hm
          · exact hkey k c hm
          · simp only [List.mem_singleton, Prod.mk.injEq] at hm
            rw [hm.1, hm.2]
      · simp only [hn, if_false]
        exact ⟨hnd, fun k c hkc => by rw [(hf c).1]; exact hkey k c hkc⟩

theorem AddChild_unique_names_witness :
    (∃ msg, OpTree.AddChild showStore 0 2 = (showStore, some msg)) ∧
    (∃ s2, OpTree.AddChild showStore 0 3 = (s2, none) ∧
      childGet (s2 0).children "x" = some 3 ∧ (s2 3).parent = some 0) :=
  ⟨(AddChild_unique_names showStore 0 2).1 1 (by rfl),
    ((AddChild_unique_names showStore 0 3).2 (by rfl)).imp
      (fun _ h => ⟨h.1, h.2.1, h.2.2.2.1⟩)⟩

/-! ## Lookups in the template tree -/

theorem Child_of_local (s : Store) (fuel t : Nat) (k : String) (c : Nat)
    (h : childGet (s t).children k = some c) : OpTree.Child s fuel t k = some (.ok c) := by
  cases fuel <;> simp [OpTree.Child, h]

theorem Child_no_include (s : Store) (fuel t : Nat) (k : String)
    (h : childGet (s t).children k = none) (hi : (s t).include_ = none) :
    OpTree.Child s fuel t k = some (.error ("child " ++ k ++ " does not exist")) := by
  cases fuel <;> simp [OpTree.Child, h, hi]

/-- The only error of `Child` is the one that names the child asked for. -/
theorem Child_error (s : Store) (k : String) :
    ∀ fuel t e, OpTree.Child s fuel t k = some (.error e) →
      e = "child " ++ k ++ " does not exist" := by
  intro fuel
  induction fuel with
  | zero =>
    intro t e h
    unfold OpTree.Child at h
    cases hc : childGet (s t).children k with
    | some c => simp [hc] at h
    | none =>
      cases hi : (s t).include_ with
      | none => simp [hc, hi] at h; exact h.symm
      | some x => simp [hc, hi] at h
  | succ fuel ih =>
    intro t e h
    unfold OpTree.Child at h
    cases hc : childGet (s t).children k with
    | some c => simp [hc] at h
    | none =>
      cases hi : (s t).include_ with
      | none => simp [hc, hi] at h; exact h.symm
      | some x =>
        simp only [hc, hi] at h
        cases hx : OpTree.Child s fuel x k with
        | none => simp [hx] at h
        | some r =>
          cases r with
          | ok c => simp [hx] at h
          | error e2 => simp [hx] at h; exact h.symm

/-- With no local child of that name, `Child` on a node is `Child` on its
include target, with one include link less to follow. -/
theorem Child_of_include (s : Store) (fuel t x : Nat) (k : String)
    (h : childGet (s t).children k = none) (hi : (s t).include_ = some x) :
    OpTree.Child s (fuel + 1) t k = OpTree.Child s fuel x k := by
  rw [OpTree.Child]
  simp only [h, hi]
  cases hx : OpTree.Child s fuel x k with
  | none => rfl
  | some r =>
    cases r with
    | ok c => rfl
    | error e => simp only [Child_error s k fuel x e hx]

theorem Child_zero_include (s : Store) (t x : Nat) (k : String)
    (h : childGet (s t).children k = none) (hi : (s t).include_ = some x) :
    OpTree.Child s 0 t k = none := by
  simp [OpTree.Child, h, hi]

/-- What `Child` returns does not depend on the fuel, once it suffices. -/
theorem Child_fuel_succ (s : Store) (k : String) :
    ∀ fuel t r, OpTree.Child s fuel t k = some r → OpTree.Child s (fuel + 1) t k = some r := by
  intro fuel
  induction fuel with
  | zero =>
    intro t r h
    cases hc : childGet (s t).children k with
    | some c => rw [Child_of_local s _ t k c hc] at h ⊢; exact h
    | none =>
      cases hi : (s t).include_ with
      | none => rw [Child_no_include s _ t k hc hi] at h ⊢; exact h
      | some x => rw [Child_zero_include s t x k hc hi] at h; cases h
  | succ fuel ih =>
    intro t r h
    cases hc : childGet (s t).children k with
    | some c => rw [Child_of_local s _ t k c hc] at h ⊢; exact h
    | none =>
      cases hi : (s t).include_ with
      | none => rw [Child_no_include s _ t k hc hi] at h ⊢; exact h
      | some x =>
        rw [Child_of_include s _ t x k hc hi] at h ⊢
        exact ih x r h

theorem Child_fuel_le (s : Store) (k : String) (t : Nat) (r : Except String Nat)
    (fuel : Nat) (h : OpTree.Child s fuel t k = some r) :
    ∀ fuel2, fuel ≤ fuel2 → OpTree.Child s fuel2 t k = some r := by
  intro fuel2 hle
  induction hle with
  | refl => exact h
  | step _ ih => exact Child_fuel_succ s k _ t r ih

/-- On a chain of include links that ends, `Child` returns. -/
theorem Child_returns (s : Store) (k : String) :
    ∀ d t, includeEnds s d t = true → ∃ r, OpTree.Child s d t k = some r := by
  intro d
  induction d with
  | zero =>
    intro t h
    cases hc : childGet (s t).children k with
    | some c => exact ⟨_, Child_of_local s _ t k c hc⟩
    | none =>
      cases hi : (s t).include_ with
      | none => exact ⟨_, Child_no_include s _ t k hc hi⟩
      | some x => simp [includeEnds, hi] at h
  | succ d ih =>
    intro t h
    cases hc : childGet (s t).children k with
    | some c => exact ⟨_, Child_of_local s _ t k c hc⟩
    | none =>
      cases hi : (s t).include_ with
      | none => exact ⟨_, Child_no_include s _ t k hc hi⟩
      | some x =>
        rw [Child_of_include s _ t x k hc hi]
        apply ih
        rw [includeEnds] at h
        simpa [hi] using h

/-- C21: on a node `n` with include target `x`, `Child(k)` returns the local
child `k` of `n` when there is one, whatever the include target holds;
otherwise it is `x.Child(k)`: the same node when that succeeds, an error when
that fails, no return when that does not return.  The result does not depend
on the number of include links allowed once `Child` returns, and `Child`
returns when the chain of include links from `x` ends. -/
theorem Child_follows_include (s : Store) (n x : Nat) (k : String)
    (hx : (s n).include_ = some x) :
    (∀ c, childGet (s n).children k = some c →
      ∀ fuel, OpTree.Child s fuel n k = some (.ok c)) ∧
    (childGet (s n).children k = none →
      ∀ fuel, OpTree.Child s (fuel + 1) n k = OpTree.Child s fuel x k) ∧
    (∀ fuel r, OpTree.Child s fuel n k = some r →
      ∀ fuel2, fuel ≤ fuel2 → OpTree.Child s fuel2 n k = some r) ∧
    (∀ d, includeEnds s d x = true → ∃ r, OpTree.Child s (d + 1) n k = some r) := by
  refine ⟨fun c hc fuel => Child_of_local s fuel n k c hc,
    fun hc fuel => Child_of_include s fuel n x k hc hx,
    fun fuel r h => Child_fuel_le s k n r fuel h, ?_⟩
  intro d hd
  apply Child_returns s k (d + 1) n
  rw [includeEnds]
  simpa [hx] using hd

/-- C21 at the store `includeStore`: `show` includes `common`; its own child
`ip` (6) wins over the `ip` (2) of `common`, `arp` is found in `common`,
`version` through the include of `common` in `base`, and `nothing` fails as
it does on `common`. -/
theorem Child_follows_include_witness :
    (includeStore 0).include_ = some 1 ∧
    OpTree.Child includeStore 2 0 "ip" = some (.ok 6) ∧
    OpTree.Child includeStore 1 1 "ip" = some (.ok 2) ∧
    OpTree.Child includeStore 2 0 "arp" = some (.ok 7) ∧
    OpTree.Child includeStore 2 0 "version" = some (.ok 5) ∧
    OpTree.Child includeStore 1 1 "version" = some (.ok 5) ∧
    OpTree.Child includeStore 2 0 "nothing" = OpTree.Child includeStore 1 1 "nothing" ∧
    OpTree.Child includeStore 2 0 "nothing" =
      some (.error "child nothing does not exist") :=
  ⟨rfl, (Child_follows_include includeStore 0 1 "ip" rfl).1 6 rfl 2, rfl, rfl, rfl, rfl,
    (Child_follows_include includeStore 0 1 "nothing" rfl).2.1 rfl 1, rfl⟩

/-- C22: `ChildOrTag(name)` returns what `Child(name)` returns when that
succeeds, otherwise what `Child("node.tag")` returns, and fails exactly when
both lookups fail. -/
theorem ChildOrTag_result (s : Store) (fuel t : Nat) (name : String) :
    (∀ c, OpTree.Child s fuel t name = some (.ok c) →
      OpTree.ChildOrTag s fuel t name = some (.ok c)) ∧
    (∀ e c, OpTree.Child s fuel t name = some (.error e) →
      OpTree.Child s fuel t "node.tag" = some (.ok c) →
      OpTree.ChildOrTag s fuel t name = some (.ok c)) ∧
    ((∃ e, OpTree.ChildOrTag s fuel t name = some (.error e)) ↔
      (∃ e, OpTree.Child s fuel t name = some (.error e)) ∧
        ∃ e, OpTree.Child s fuel t "node.tag" = some (.error e)) := by
  refine ⟨?_, ?_, ?_⟩
  · intro c h
    simp [OpTree.ChildOrTag, h]
  · intro e c h h2
    simp [OpTree.ChildOrTag, h, h2]
  · unfold OpTree.ChildOrTag
    cases h : OpTree.Child s fuel t name with
    | none => simp
    | some r =>
      cases r with
      | ok c => simp
      | error e =>
        cases h2 : OpTree.Child s fuel t "node.tag" with
        | none => simp
        | some r2 =>
          cases r2 with
          | ok c => simp
          | error e2 => simp

/-- C22 at the store `includeStore`: on `show`, the child `arp` found through
the include wins over the local tag child (3); a name found nowhere gives the
tag child; on `common`, which has no tag child, such a name fails. -/
theorem ChildOrTag_result_witness :
    OpTree.Child includeStore 2 0 "arp" = some (.ok 7) ∧
    OpTree.ChildOrTag includeStore 2 0 "arp" = some (.ok 7) ∧
    OpTree.ChildOrTag includeStore 2 0 "10.0.0.1" = some (.ok 3) ∧
    OpTree.ChildOrTag includeStore 2 1 "10.0.0.1" =
      some (.error "common: child node.tag does not exist") :=
  ⟨rfl, (ChildOrTag_result includeStore 2 0 "arp").1 7 rfl, rfl, rfl⟩

/-- The two cases `len(np) == 0` and `len(np) > 0` of `Descendant` in one. -/
theorem Descendant_cons (s : Store) (fuel t : Nat) (p0 : String) (np : List String) :
    OpTree.Descendant s fuel t (p0 :: np) =
      match OpTree.ChildOrTag s fuel t p0 with
      | none => none
      | some (.error err) => some (.error ((s t).name ++ ": " ++ err))
      | some (.ok c) =>
        match OpTree.Descendant s fuel c np with
        | none => none
        | some (.ok ct) => some (.ok ct)
        | some (.error err) => some (.error ((s t).name ++ " " ++ err)) := by
  cases np with
  | nil => simp only [OpTree.Descendant]
  | cons p1 np => simp only [OpTree.Descendant]

theorem Descendant_ok_cons (s : Store) (fuel t : Nat) (p0 : String) (np : List String)
    (v : Nat) :
    OpTree.Descendant s fuel t (p0 :: np) = some (.ok v) ↔
      ∃ c, OpTree.ChildOrTag s fuel t p0 = some (.ok c) ∧
        OpTree.Descendant s fuel c np = some (.ok v) := by
  rw [Descendant_cons]
  cases h : OpTree.ChildOrTag s fuel t p0 with
  | none => simp
  | some r =>
    cases r with
    | error e => simp
    | ok c =>
      cases h2 : OpTree.Descendant s fuel c np with
      | none => simp [h2]
      | some r2 =>
        cases r2 with
        | error e => simp [h2]
        | ok ct => simp [h2]

theorem Descendant_error_cons (s : Store) (fuel t : Nat) (p0 : String) (np : List String) :
    (∃ e, OpTree.Descendant s fuel t (p0 :: np) = some (.error e)) ↔
      (∃ e, OpTree.ChildOrTag s fuel t p0 = some (.error e)) ∨
        ∃ c, OpTree.ChildOrTag s fuel t p0 = some (.ok c) ∧
          ∃ e, OpTree.Descendant s fuel c np = some (.error e) := by
  rw [Descendant_cons]
  cases h : OpTree.ChildOrTag s fuel t p0 with
  | none => simp
  | some r =>
    cases r with
    | error e => simp
    | ok c =>
      cases h2 : OpTree.Descendant s fuel c np with
      | none => simp [h2]
      | some r2 =>
        cases r2 with
        | error e => simp [h2]
        | ok ct => simp [h2]

theorem Descendant_ok_iff_tagWalk (s : Store) (fuel : Nat) (p : List String) :
    ∀ t u, OpTree.Descendant s fuel t p = some (.ok u) ↔ tagWalk s fuel t p = some (some u) := by
  induction p with
  | nil => intro t u; simp [OpTree.Descendant, tagWalk]
  | cons p0 np ih =>
    intro t u
    rw [Descendant_ok_cons, tagWalk]
    cases h : OpTree.ChildOrTag s fuel t p0 with
    | none => simp
    | some r =>
      cases r with
      | error e => simp
      | ok c => simp [ih c u]

theorem Descendant_error_iff_tagWalk (s : Store) (fuel : Nat) (p : List String) :
    ∀ t, (∃ e, OpTree.Descendant s fuel t p = some (.error e)) ↔
      tagWalk s fuel t p = some none := by
  induction p with
  | nil => intro t; simp [OpTree.Descendant, tagWalk]
  | cons p0 np ih =>
    intro t
    rw [Descendant_error_cons, tagWalk]
    cases h : OpTree.ChildOrTag s fuel t p0 with
    | none => simp
    | some r =>
      cases r with
      | error e => simp
      | ok c => simp [ih c]

theorem Descendant_append (s : Store) (fuel : Nat) (p q : List String) :
    ∀ t v, OpTree.Descendant s fuel t (p ++ q) = some (.ok v) ↔
      ∃ u, OpTree.Descendant s fuel t p = some (.ok u) ∧
        OpTree.Descendant s fuel u q = some (.ok v) := by
  induction p with
  | nil => intro t v; simp [OpTree.Descendant]
  | cons p0 np ih =>
    intro t v
    rw [List.cons_append, Descendant_ok_cons]
    constructor
    · rintro ⟨c, hc, hd⟩
      obtain ⟨u, hu, hv⟩ := (ih c v).1 hd
      exact ⟨u, (Descendant_ok_cons s fuel t p0 np u).2 ⟨c, hc, hu⟩, hv⟩
    · rintro ⟨u, hu, hv⟩
      obtain ⟨c, hc, hd⟩ := (Descendant_ok_cons s fuel t p0 np u).1 hu
      exact ⟨c, hc, (ih c v).2 ⟨u, hd, hv⟩⟩

theorem ChildOrTag_returns (s : Store) (d : Nat) (h : ∀ t, includeEnds s d t = true)
    (t : Nat) (name : String) : ∃ r, OpTree.ChildOrTag s d t name = some r := by
  obtain ⟨r, hr⟩ := Child_returns s name d t (h t)
  obtain ⟨r2, hr2⟩ := Child_returns s "node.tag" d t (h t)
  unfold OpTree.ChildOrTag
  rw [hr]
  cases r with
  | ok c => exact ⟨_, rfl⟩
  | error e =>
    simp only [hr2]
    cases r2 with
    | ok c => exact ⟨_, rfl⟩
    | error e2 => exact ⟨_, rfl⟩

theorem Descendant_returns (s : Store) (d : Nat) (h : ∀ t, includeEnds s d t = true)
    (p : List String) : ∀ t, ∃ r, OpTree.Descendant s d t p = some r := by
  induction p with
  | nil => intro t; exact ⟨_, rfl⟩
  | cons p0 np ih =>
    intro t
    rw [Descendant_cons]
    obtain ⟨r, hr⟩ := ChildOrTag_returns s d h t p0
    rw [hr]
    cases r with
    | error e => exact ⟨_, rfl⟩
    | ok c =>
      obtain ⟨r2, hr2⟩ := ih c
      simp only [hr2]
      cases r2 with
      | ok ct => exact ⟨_, rfl⟩
      | error e => exact ⟨_, rfl⟩

/-- C23: `Descendant(t, [])` is `t`; `Descendant(t, p)` succeeds exactly when
applying `ChildOrTag` segment by segment along `p` succeeds, with the same node,
and fails exactly when that fails; `Descendant(t, p ++ q)` succeeds exactly when
`Descendant(t, p)` succeeds with some `u` and `Descendant(u, q)` succeeds, with
the same result.  Where every chain of include links ends within the number of
links allowed, `Descendant` returns. -/
theorem Descendant_stepwise (s : Store) (fuel : Nat) :
    (∀ t, OpTree.Descendant s fuel t [] = some (.ok t)) ∧
    (∀ t p u, OpTree.Descendant s fuel t p = some (.ok u) ↔
      tagWalk s fuel t p = some (some u)) ∧
    (∀ t p, (∃ e, OpTree.Descendant s fuel t p = some (.error e)) ↔
      tagWalk s fuel t p = some none) ∧
    (∀ t p q v, OpTree.Descendant s fuel t (p ++ q) = some (.ok v) ↔
      ∃ u, OpTree.Descendant s fuel t p = some (.ok u) ∧
        OpTree.Descendant s fuel u q = some (.ok v)) ∧
    ((∀ t, includeEnds s fuel t = true) →
      ∀ t p, ∃ r, OpTree.Descendant s fuel t p = some r) :=
  ⟨fun _ => rfl, fun t p u => Descendant_ok_iff_tagWalk s fuel p t u,
    fun t p => Descendant_error_iff_tagWalk s fuel p t,
    fun t p q v => Descendant_append s fuel p q t v,
    fun h t p => Descendant_returns s fuel h p t⟩

/-- C23 at the store `includeStore`: from `show`, the path `ip route` is not
found (the local `ip` has no children), `arp` is found through the include,
and from `common` the path `ip route` splits into `ip` and `route`. -/
theorem Descendant_stepwise_witness :
    OpTree.Descendant includeStore 2 1 ["ip", "route"] = some (.ok 8) ∧
    (∃ u, OpTree.Descendant includeStore 2 1 ["ip"] = some (.ok u) ∧
      OpTree.Descendant includeStore 2 u ["route"] = some (.ok 8)) ∧
    OpTree.Descendant includeStore 2 0 ["arp"] = some (.ok 7) ∧
    OpTree.Descendant includeStore 2 0 ["ip", "route"] =
      some (.error "show ip: ip: child node.tag does not exist") :=
  ⟨rfl, ((Descendant_stepwise includeStore 2).2.2.2.1 1 ["ip"] ["route"] 8).1 rfl, rfl, rfl⟩

theorem mem_appenduniq (inp : List String) (item k : String) :
    k ∈ appenduniq inp item ↔ k ∈ inp ∨ k = item := by
  unfold appenduniq
  by_cases h : inp.any (fun i => i == item) = true
  · rw [if_pos h]
    constructor
    · intro hk; exact Or.inl hk
    · rintro (hk | hk)
      · exact hk
      · obtain ⟨i, hi, he⟩ := List.any_eq_true.1 h
        have : i = item := by simpa using he
        rw [hk, ← this]; exact hi
  · rw [if_neg h]
    simp

theorem nodup_appenduniq (inp : List String) (item : String) (h : inp.Nodup) :
    (appenduniq inp item).Nodup := by
  unfold appenduniq
  by_cases ha : inp.any (fun i => i == item) = true
  · rw [if_pos ha]; exact h
  · rw [if_neg ha]
    have hni : item ∉ inp := by
      intro hi
      apply ha
      exact List.any_eq_true.2 ⟨item, hi, by simp⟩
    rw [List.nodup_append]
    refine ⟨h, List.nodup_singleton _, ?_⟩
    intro a ha1 ha2
    have : a = item := by simpa using ha2
    exact hni (this ▸ ha1)

theorem mem_foldl_appenduniq (l : List String) (k : String) :
    ∀ acc, k ∈ l.foldl appenduniq acc ↔ k ∈ acc ∨ k ∈ l := by
  induction l with
  | nil => intro acc; simp
  | cons a l ih =>
    intro acc
    rw [List.foldl_cons, ih, mem_appenduniq, List.mem_cons]
    tauto

theorem nodup_foldl_appenduniq (l : List String) :
    ∀ acc, acc.Nodup → (l.foldl appenduniq acc).Nodup := by
  induction l with
  | nil => intro acc h; exact h
  | cons a l ih =>
    intro acc h
    rw [List.foldl_cons]
    exact ih _ (nodup_appenduniq acc a h)

theorem childGet_of_mem (m : List (String × Nat)) (k : String)
    (h : k ∈ m.map Prod.fst) : ∃ c, childGet m k = some c := by
  cases hc : childGet m k with
  | some c => exact ⟨c, rfl⟩
  | none => exact absurd h ((childGet_eq_none m k).1 hc)

theorem NewChildIterator_keys_mem (s : Store) (t : Nat) (k : String) :
    k ∈ (NewChildIterator s t).keys ↔
      k ∈ (s t).children.map Prod.fst ∨
        ∃ x, (s t).include_ = some x ∧ k ∈ (s x).children.map Prod.fst := by
  unfold NewChildIterator
  cases hi : (s t).include_ with
  | none => simp
  | some x => simp only [mem_foldl_appenduniq]; simp

/-- C24: the names `NewChildIterator(t)` lists are the names of the local
children of `t` together with the names of the children of its include
target, none listed twice; at each of them `Value` returns a node, the local
child of `t` when there is one and the child of the include target
otherwise. -/
theorem NewChildIterator_lists (s : Store) (t : Nat)
    (hk : ((s t).children.map Prod.fst).Nodup) :
    (NewChildIterator s t).keys.Nodup ∧
    (NewChildIterator s t).t = t ∧
    (∀ k, k ∈ (NewChildIterator s t).keys ↔
      k ∈ (s t).children.map Prod.fst ∨
        ∃ x, (s t).include_ = some x ∧ k ∈ (s x).children.map Prod.fst) ∧
    (∀ idx k, (NewChildIterator s t).keys[idx]? = some k → ∀ fuel,
      ∃ c, ChildIterator.Value s (fuel + 1) { NewChildIterator s t with current := idx } =
          some (some c) ∧
        (childGet (s t).children k = some c ∨
          (childGet (s t).children k = none ∧
            ∃ x, (s t).include_ = some x ∧ childGet (s x).children k = some c))) := by
  refine ⟨?_, rfl, NewChildIterator_keys_mem s t, ?_⟩
  · unfold NewChildIterator
    cases hi : (s t).include_ with
    | none => exact hk
    | some x => exact nodup_foldl_appenduniq _ _ hk
  · intro idx k hidx fuel
    have hmem : k ∈ (NewChildIterator s t).keys := by
      rw [List.getElem?_eq_some] at hidx
      obtain ⟨h1, h2⟩ := hidx
      exact h2 ▸ List.getElem_mem h1
    have ht : (NewChildIterator s t).t = t := rfl
    simp only [ChildIterator.Value, hidx, ht]
    cases hc : childGet (s t).children k with
    | some c =>
      refine ⟨c, ?_, Or.inl rfl⟩
      rw [Child_of_local s _ t k c hc]
    | none =>
      rcases (NewChildIterator_keys_mem s t k).1 hmem with hl | ⟨x, hx, hxm⟩
      · exact absurd hl ((childGet_eq_none _ _).1 hc)
      · obtain ⟨c, hcx⟩ := childGet_of_mem _ _ hxm
        refine ⟨c, ?_, Or.inr ⟨rfl, x, hx, hcx⟩⟩
        rw [Child_of_include s fuel t x k hc hx, Child_of_local s _ x k c hcx]

/-- C24 at the store `includeStore`: `show` lists its own `node.tag` and `ip`
and the `arp` of `common`, not `ip` a second time and not the `version` that
`common` itself only includes; `Value` at `ip` is the local child (6), at
`arp` the child of `common` (7). -/
theorem NewChildIterator_lists_witness :
    (NewChildIterator includeStore 0).keys = ["node.tag", "ip", "arp"] ∧
    (NewChildIterator includeStore 0).keys.Nodup ∧
    ChildIterator.Value includeStore 1 { NewChildIterator includeStore 0 with current := 1 } =
      some (some 6) ∧
    ChildIterator.Value includeStore 1 { NewChildIterator includeStore 0 with current := 2 } =
      some (some 7) :=
  ⟨by decide, (NewChildIterator_lists includeStore 0 (by decide)).1, by decide, by decide⟩

/-! ## Paths shown with secrets masked -/

theorem stringByAttrsLoop_eq (p : List String) :
    ∀ (a : List Bool) (np : List String), p.length = a.length →
      stringByAttrsLoop p a np =
        some (np ++ List.zipWith (fun e secret => if secret then "****" else e) p a) := by
  induction p with
  | nil =>
    intro a np h
    cases a with
    | nil => simp [stringByAttrsLoop]
    | cons b a => simp at h
  | cons e p ih =>
    intro a np h
    cases a with
    | nil => simp at h
    | cons b a =>
      have h2 : p.length = a.length := by simpa using h
      cases b <;> simp [stringByAttrsLoop, ih a _ h2]

theorem zipWith_no_secret (p : List String) :
    ∀ a : List Bool, p.length = a.length → (∀ b ∈ a, b = false) →
      List.zipWith (fun e secret => if secret then "****" else e) p a = p := by
  induction p with
  | nil => intro a _ _; cases a <;> rfl
  | cons e p ih =>
    intro a h hb
    cases a with
    | nil => simp at h
    | cons b a =>
      have h2 : p.length = a.length := by simpa using h
      have hb0 : b = false := hb b (List.mem_cons_self _ _)
      have hb1 : ∀ b ∈ a, b = false := fun b hm => hb b (List.mem_cons_of_mem _ hm)
      simp [hb0, ih a h2 hb1]

/-- C29: `StringByAttrs` returns the empty string when the attribute list is
nil or its length is not that of the path; otherwise the elements of the path
joined by single spaces, each element whose attribute is marked secret
replaced by `****` and every other one unchanged, which is `p.String()` when
no element is secret. -/
theorem StringByAttrs_masks (p : List String) :
    StringByAttrs p none = some "" ∧
    (∀ a, p.length ≠ a.length → StringByAttrs p (some a) = some "") ∧
    (∀ a, p.length = a.length →
      StringByAttrs p (some a) =
        some (" ".intercalate
          (List.zipWith (fun e secret => if secret then "****" else e) p a))) ∧
    (∀ a, p.length = a.length → (∀ b ∈ a, b = false) →
      StringByAttrs p (some a) = some (Path.String p)) := by
  refine ⟨rfl, ?_, ?_, ?_⟩
  · intro a h
    simp [StringByAttrs, h]
  · intro a h
    simp [StringByAttrs, h, stringByAttrsLoop_eq p a [] h, Path.String]
  · intro a h hb
    simp [StringByAttrs, h, stringByAttrsLoop_eq p a [] h, zipWith_no_secret p a h hb]

/-- C29 at the paths of `TestStringByAttrsInvalidArg` and
`TestStringByAttrsMultiElem` (optree_test.go). -/
theorem StringByAttrs_masks_witness :
    StringByAttrs ["show"] none = some "" ∧
    StringByAttrs ["show", "ip"] (some []) = some "" ∧
    StringByAttrs ["show", "ip"] (some [false, false, false]) = some "" ∧
    StringByAttrs ["show", "ip", "route"] (some [false, false, false]) =
      some "show ip route" ∧
    StringByAttrs ["show", "ip", "route"] (some [true, true, false]) =
      some "**** **** route" :=
  ⟨(StringByAttrs_masks ["show"]).1, by decide, by decide, by decide, by decide⟩

/-! ## Feature gates -/

theorem splitChars_ne_nil (sep : Char) (cs : List Char) : splitChars sep cs ≠ [] := by
  cases cs with
  | nil => simp [splitChars]
  | cons c cs =>
    unfold splitChars
    by_cases h : c = sep
    · simp [h]
    · rw [if_neg h]
      cases splitChars sep cs <;> simp

theorem intercalate_cons_cons (sep : List Char) (w1 w2 : List Char)
    (ws : List (List Char)) :
    sep.intercalate (w1 :: w2 :: ws) = w1 ++ sep ++ sep.intercalate (w2 :: ws) := by
  simp [List.intercalate, List.intersperse]

/-- Joining the pieces of `splitChars` with the separator gives the text back. -/
theorem splitChars_join (sep : Char) (cs : List Char) :
    [sep].intercalate (splitChars sep cs) = cs := by
  induction cs with
  | nil => rfl
  | cons c cs ih =>
    unfold splitChars
    by_cases h : c = sep
    · rw [if_pos h]
      cases hs : splitChars sep cs with
      | nil => exact absurd hs (splitChars_ne_nil sep cs)
      | cons w ws =>
        rw [hs] at ih
        rw [intercalate_cons_cons, ih, h]
        rfl
    · rw [if_neg h]
      cases hs : splitChars sep cs with
      | nil => exact absurd hs (splitChars_ne_nil sep cs)
      | cons w ws =>
        rw [hs] at ih
        cases ws with
        | nil =>
          simp only [List.intercalate, List.intersperse, List.flatten, List.append_nil] at ih ⊢
          rw [ih]
        | cons w2 ws =>
          rw [intercalate_cons_cons] at ih ⊢
          rw [← ih]
          simp

/-- No piece of `splitChars` holds the separator. -/
theorem splitChars_no_sep (sep : Char) (cs : List Char) :
    ∀ w ∈ splitChars sep cs, sep ∉ w := by
  induction cs with
  | nil => intro w hw; simp [splitChars] at hw; simp [hw]
  | cons c cs ih =>
    intro w hw
    unfold splitChars at hw
    by_cases h : c = sep
    · rw [if_pos h] at hw
      rcases List.mem_cons.1 hw with rfl | hw
      · simp
      · exact ih w hw
    · rw [if_neg h] at hw
      cases hs : splitChars sep cs with
      | nil => exact absurd hs (splitChars_ne_nil sep cs)
      | cons w1 ws =>
        rw [hs] at hw ih
        rcases List.mem_cons.1 hw with rfl | hw
        · have := ih w1 (List.mem_cons_self _ _)
          simp only [List.mem_cons, not_or]
          exact ⟨fun hc => h hc.symm, this⟩
        · exact ih w (List.mem_cons_of_mem _ hw)

theorem capsHas_iff (caps : List (String × Bool)) (k : String) :
    capsHas caps k = true ↔ k ∈ caps.map Prod.fst := by
  simp only [capsHas, List.any_eq_true, List.mem_map]
  constructor
  · rintro ⟨kv, hm, he⟩
    exact ⟨kv, hm, by simpa using he⟩
  · rintro ⟨kv, hm, he⟩
    exact ⟨kv, hm, by simpa using he⟩

theorem featuresLoop_iff (caps : List (String × Bool)) (feats : List String) :
    featuresLoop caps feats = true ↔
      ∀ f ∈ feats, TrimSpace f = "" ∨ TrimSpace f ∈ caps.map Prod.fst := by
  induction feats with
  | nil => simp [featuresLoop]
  | cons f feats ih =>
    simp only [featuresLoop, List.mem_cons, forall_eq_or_imp]
    by_cases h1 : TrimSpace f = ""
    · simp [h1, ih]
    · by_cases h2 : capsHas caps (TrimSpace f) = true
      · simp only [h1, if_false, h2, Bool.not_true, ih, false_or, Bool.false_eq_true]
        have := (capsHas_iff caps (TrimSpace f)).1 h2
        simp only [this, true_and]
      · have hn : TrimSpace f ∉ caps.map Prod.fst := fun hm => h2 ((capsHas_iff _ _).2 hm)
        simp only [Bool.not_eq_true] at h2
        simp [h1, h2, hn]

/-- C25: `featuresEnabled` returns true exactly when every token got by
splitting the features string of the record on `;` and trimming the white
space around it is empty or a key of the capability map; for an empty
features string it returns true. -/
theorem featuresEnabled_iff (tmpl : OpTmpl) (caps : List (String × Bool)) :
    (featuresEnabled tmpl caps = true ↔
      ∀ tok ∈ (Split tmpl.Features ';').map TrimSpace,
        tok = "" ∨ tok ∈ caps.map Prod.fst) ∧
    (tmpl.Features = "" → featuresEnabled tmpl caps = true) := by
  constructor
  · unfold featuresEnabled
    by_cases h : tmpl.Features = ""
    · simp only [h, if_true, true_iff]
      intro tok htok
      left
      have : Split "" ';' = [""] := by decide
      rw [this] at htok
      simp at htok
      rw [htok]; decide
    · simp only [h, if_false, featuresLoop_iff, List.mem_map]
      constructor
      · rintro hall tok ⟨f, hf, rfl⟩
        exact hall f hf
      · intro hall f hf
        exact hall _ ⟨f, hf, rfl⟩
  · intro h
    simp [featuresEnabled, h]

/-- C25 at a features string as the parser builds it: the tokens are trimmed,
empty ones are passed over, a key counts whatever its value, and a token that
is no key disables the record. -/
theorem featuresEnabled_iff_witness :
    featuresEnabled ((NewOpTmpl "" "" "" "").SetFeatures ";vrouter:bgp; vrouter:ospf ;")
      [("vrouter:bgp", true), ("vrouter:ospf", false)] = true ∧
    (∀ tok ∈ (Split ";vrouter:bgp; vrouter:ospf ;" ';').map TrimSpace,
      tok = "" ∨ tok ∈ ["vrouter:bgp", "vrouter:ospf"]) ∧
    featuresEnabled ((NewOpTmpl "" "" "" "").SetFeatures ";vrouter:bgp;vrouter:rip")
      [("vrouter:bgp", true), ("vrouter:ospf", false)] = false ∧
    featuresEnabled (NewOpTmpl "" "" "" "") [] = true :=
  ⟨by decide,
    (featuresEnabled_iff ((NewOpTmpl "" "" "" "").SetFeatures ";vrouter:bgp; vrouter:ospf ;")
      [("vrouter:bgp", true), ("vrouter:ospf", false)]).1.1 (by decide),
    by decide, (featuresEnabled_iff (NewOpTmpl "" "" "" "") []).2 rfl⟩

/-! ## Building the tree -/

theorem SetValue_name (t : BuiltTree) (v : Option OpTmpl) : (t.SetValue v).name = t.name := rfl

theorem SetValue_children (t : BuiltTree) (v : Option OpTmpl) :
    (t.SetValue v).children = t.children := rfl

theorem AddChild_name (t c : BuiltTree) : (t.AddChild c).name = t.name := by
  unfold BuiltTree.AddChild
  split <;> rfl

theorem AddChild_value (t c : BuiltTree) : (t.AddChild c).value = t.value := by
  unfold BuiltTree.AddChild
  split <;> rfl

theorem AddChild_children (t c : BuiltTree) :
    (t.AddChild c).children =
      if t.children.any (fun d => d.name == c.name) then t.children
      else t.children ++ [c] := by
  unfold BuiltTree.AddChild
  split <;> rfl

/-- One turn of the loop of `buildOpTree` at a directory entry. -/
theorem buildLoop_dir (path : String) (caps : List (String × Bool)) (name : String)
    (entries rest : List FsNode) (root : BuiltTree) :
    buildLoop path caps (.dir name entries :: rest) root =
      match buildOpTree (path ++ "/" ++ name) caps (.dir name entries) with
      | .error _ => buildLoop path caps rest root
      | .ok t =>
        if t.Run = "" ∧ t.children.length = 0 then buildLoop path caps rest root
        else buildLoop path caps rest (root.AddChild t) := by
  rw [buildLoop]

/-- One turn of the loop of `buildOpTree` at a file. -/
theorem buildLoop_file (path : String) (caps : List (String × Bool)) (name : String)
    (parsed : Except String OpTmpl) (rest : List FsNode) (root : BuiltTree) :
    buildLoop path caps (.file name parsed :: rest) root =
      if name = "node.def" then
        match parsed with
        | .error err => .error err
        | .ok tmpl =>
          if !featuresEnabled tmpl caps then
            .error ("Node disabled " ++ path ++ ": " ++ tmpl.Features)
          else buildLoop path caps rest (root.SetValue (some tmpl))
      else buildLoop path caps rest root := by
  cases parsed <;> simp only [buildLoop]

/-- The loop of `buildOpTree` fails exactly on a `node.def` that stops the
build. -/
theorem buildLoop_error_iff (path : String) (caps : List (String × Bool))
    (es : List FsNode) :
    ∀ root, (∃ e, buildLoop path caps es root = .error e) ↔ nodeDefFails caps es = true := by
  induction es with
  | nil => intro root; simp [buildLoop, nodeDefFails]
  | cons e es ih =>
    intro root
    have hcons : nodeDefFails caps (e :: es) =
        ((match e with
          | .file name (.error _) => decide (name = "node.def")
          | .file name (.ok tmpl) => decide (name = "node.def") && !featuresEnabled tmpl caps
          | .dir _ _ => false) || nodeDefFails caps es) := by
      simp [nodeDefFails]
    rw [hcons]
    cases e with
    | dir name entries =>
      rw [buildLoop_dir]
      simp only [Bool.false_or]
      cases buildOpTree (path ++ "/" ++ name) caps (.dir name entries) with
      | error err => exact ih root
      | ok t =>
        simp only
        split
        · exact ih root
        · exact ih _
    | file name parsed =>
      rw [buildLoop_file]
      by_cases hn : name = "node.def"
      · simp only [hn, if_true]
        cases parsed with
        | error err => simp
        | ok tmpl =>
          simp only [decide_True, Bool.true_and]
          cases hf : featuresEnabled tmpl caps with
          | true => simpa using ih _
          | false => simp
      · simp only [hn, if_false]
        cases parsed with
        | error err => simpa [hn] using ih root
        | ok tmpl => simpa [hn] using ih root

theorem buildLoop_name (path : String) (caps : List (String × Bool)) (es : List FsNode) :
    ∀ root t, buildLoop path caps es root = .ok t → t.name = root.name := by
  induction es with
  | nil => intro root t h; simp only [buildLoop, Except.ok.injEq] at h; rw [h]
  | cons e es ih =>
    intro root t h
    cases e with
    | dir name entries =>
      rw [buildLoop_dir] at h
      cases hb : buildOpTree (path ++ "/" ++ name) caps (.dir name entries) with
      | error err => rw [hb] at h; exact ih root t h
      | ok t0 =>
        rw [hb] at h
        simp only at h
        split at h
        · exact ih root t h
        · rw [ih _ t h, AddChild_name]
    | file name parsed =>
      rw [buildLoop_file] at h
      split at h
      · cases parsed with
        | error err => cases h
        | ok tmpl =>
          simp only at h
          split at h
          · cases h
          · rw [ih _ t h, SetValue_name]
      · exact ih root t h

theorem buildOpTree_name (path : String) (caps : List (String × Bool)) (name : String)
    (es : List FsNode) (t : BuiltTree) (h : buildOpTree path caps (.dir name es) = .ok t) :
    t.name = name := by
  rw [buildOpTree] at h
  rw [buildLoop_name path caps es _ t h]
  rfl

/-- Every child in the tree the loop returns was there before or is the tree
built for a directory among the entries, one with a run command or a child. -/
theorem buildLoop_children_sub (path : String) (caps : List (String × Bool))
    (es : List FsNode) :
    ∀ root t, buildLoop path caps es root = .ok t →
      ∀ c ∈ t.children, c ∈ root.children ∨
        ∃ nm es2, FsNode.dir nm es2 ∈ es ∧
          buildOpTree (path ++ "/" ++ nm) caps (.dir nm es2) = .ok c ∧
          (c.Run ≠ "" ∨ c.children ≠ []) := by
  induction es with
  | nil =>
    intro root t h c hc
    simp only [buildLoop, Except.ok.injEq] at h
    left; rw [h]; exact hc
  | cons e es ih =>
    intro root t h c hc
    have lift : (c ∈ root.children ∨
        ∃ nm es2, FsNode.dir nm es2 ∈ es ∧
          buildOpTree (path ++ "/" ++ nm) caps (.dir nm es2) = .ok c ∧
          (c.Run ≠ "" ∨ c.children ≠ [])) →
        (c ∈ root.children ∨
        ∃ nm es2, FsNode.dir nm es2 ∈ e :: es ∧
          buildOpTree (path ++ "/" ++ nm) caps (.dir nm es2) = .ok c ∧
          (c.Run ≠ "" ∨ c.children ≠ [])) := by
      rintro (h1 | ⟨nm, es2, hm, hb⟩)
      · exact Or.inl h1
      · exact Or.inr ⟨nm, es2, List.mem_cons_of_mem _ hm, hb⟩
    cases e with
    | dir name entries =>
      rw [buildLoop_dir] at h
      cases hb : buildOpTree (path ++ "/" ++ name) caps (.dir name entries) with
      | error err => rw [hb] at h; exact lift (ih root t h c hc)
      | ok t0 =>
        rw [hb] at h
        simp only at h
        split at h
        · exact lift (ih root t h c hc)
        · rename_i hsurv
          rcases ih _ t h c hc with h1 | h2
          · rw [AddChild_children] at h1
            split at h1
            · exact Or.inl h1
            · rcases List.mem_append.1 h1 with h1 | h1
              · exact Or.inl h1
              · have hct : c = t0 := by simpa using h1
                subst hct
                refine Or.inr ⟨name, entries, List.mem_cons_self _ _, hb, ?_⟩
                by_contra hcon
                apply hsurv
                simp only [not_or, not_not] at hcon
                exact ⟨hcon.1, by simp [hcon.2]⟩
          · exact lift (Or.inr h2)
    | file name parsed =>
      rw [buildLoop_file] at h
      split at h
      · cases parsed with
        | error err => cases h
        | ok tmpl =>
          simp only at h
          split at h
          · cases h
          · exact lift (ih _ t h c hc)
      · exact lift (ih root t h c hc)

/-- The children the loop starts with stay. -/
theorem buildLoop_children_keep (path : String) (caps : List (String × Bool))
    (es : List FsNode) :
    ∀ root t, buildLoop path caps es root = .ok t → ∀ c ∈ root.children, c ∈ t.children := by
  induction es with
  | nil =>
    intro root t h c hc
    simp only [buildLoop, Except.ok.injEq] at h
    rw [← h]; exact hc
  | cons e es ih =>
    intro root t h c hc
    cases e with
    | dir name entries =>
      rw [buildLoop_dir] at h
      cases hb : buildOpTree (path ++ "/" ++ name) caps (.dir name entries) with
      | error err => rw [hb] at h; exact ih root t h c hc
      | ok t0 =>
        rw [hb] at h
        simp only at h
        split at h
        · exact ih root t h c hc
        · apply ih _ t h c
          rw [AddChild_children]
          split
          · exact hc
          · exact List.mem_append_left _ hc
    | file name parsed =>
      rw [buildLoop_file] at h
      split at h
      · cases parsed with
        | error err => cases h
        | ok tmpl =>
          simp only at h
          split at h
          · cases h
          · exact ih _ t h c hc
      · exact ih root t h c hc

theorem dirNames_cons_dir (name : String) (entries es : List FsNode) :
    dirNames (.dir name entries :: es) = name :: dirNames es := by
  simp [dirNames]

theorem dirNames_cons_file (name : String) (parsed : Except String OpTmpl)
    (es : List FsNode) : dirNames (.file name parsed :: es) = dirNames es := by
  simp [dirNames]

theorem mem_dirNames (nm : String) (es2 es : List FsNode) (h : FsNode.dir nm es2 ∈ es) :
    nm ∈ dirNames es := by
  simp only [dirNames, List.mem_filterMap]
  exact ⟨_, h, rfl⟩

/-- The tree built for a directory among the entries is attached when it has a
run command or a child, the directories being of different names. -/
theorem buildLoop_children_add (path : String) (caps : List (String × Bool))
    (es : List FsNode) :
    ∀ root t, buildLoop path caps es root = .ok t → (dirNames es).Nodup →
      (∀ c ∈ root.children, c.name ∉ dirNames es) →
      ∀ nm es2 c, FsNode.dir nm es2 ∈ es →
        buildOpTree (path ++ "/" ++ nm) caps (.dir nm es2) = .ok c →
        (c.Run ≠ "" ∨ c.children ≠ []) → c ∈ t.children := by
  induction es with
  | nil => intro root t _ _ _ nm es2 c hm; cases hm
  | cons e es ih =>
    intro root t h hnd hdis nm es2 c hm hbc hsc
    cases e with
    | dir name entries =>
      rw [dirNames_cons_dir] at hnd hdis
      have hnd2 := (List.nodup_cons.1 hnd).2
      have hname := (List.nodup_cons.1 hnd).1
      rw [buildLoop_dir] at h
      rcases List.mem_cons.1 hm with heq | hm2
      · injection heq with h1 h2
        subst h1; subst h2
        rw [hbc] at h
        simp only at h
        have hsurv : ¬(c.Run = "" ∧ c.children.length = 0) := by
          rintro ⟨h1, h2⟩
          rcases hsc with h3 | h3
          · exact h3 h1
          · exact h3 (List.length_eq_zero.1 h2)
        rw [if_neg hsurv] at h
        apply buildLoop_children_keep path caps es _ t h
        rw [AddChild_children]
        have hcn : c.name = nm := buildOpTree_name _ caps nm es2 c hbc
        have hnone : root.children.any (fun d => d.name == c.name) = false := by
          rw [List.any_eq_false]
          intro d hd
          have := hdis d hd
          simp only [List.mem_cons, not_or] at this
          simpa [hcn] using this.1
        rw [hnone]
        simp
      · cases hb : buildOpTree (path ++ "/" ++ name) caps (.dir name entries) with
        | error err =>
          rw [hb] at h
          exact ih root t h hnd2
            (fun d hd hmem => hdis d hd (List.mem_cons_of_mem _ hmem)) nm es2 c hm2 hbc hsc
        | ok t0 =>
          rw [hb] at h
          simp only at h
          have hold : ∀ d ∈ root.children, d.name ∉ dirNames es :=
            fun d hd hmem => hdis d hd (List.mem_cons_of_mem _ hmem)
          split at h
          · exact ih root t h hnd2 hold nm es2 c hm2 hbc hsc
          · refine ih _ t h hnd2 ?_ nm es2 c hm2 hbc hsc
            intro d hd
            rw [AddChild_children] at hd
            split at hd
            · exact hold d hd
            · rcases List.mem_append.1 hd with hd | hd
              · exact hold d hd
              · have hdt : d = t0 := by simpa using hd
                rw [hdt, buildOpTree_name _ caps name entries t0 hb]
                exact hname
    | file name parsed =>
      rw [dirNames_cons_file] at hnd hdis
      have hm2 : FsNode.dir nm es2 ∈ es := by
        rcases List.mem_cons.1 hm with heq | hm2
        · cases heq
        · exact hm2
      rw [buildLoop_file] at h
      split at h
      · cases parsed with
        | error err => cases h
        | ok tmpl =>
          simp only at h
          split at h
          · cases h
          · exact ih _ t h hnd hdis nm es2 c hm2 hbc hsc
      · exact ih root t h hnd hdis nm es2 c hm2 hbc hsc

/-- A directory whose tree is not attached can be taken out of the entries:
the loop returns the same. -/
theorem buildLoop_drop (path : String) (caps : List (String × Bool)) (nm : String)
    (sub es2 : List FsNode)
    (hd : ∀ c, buildOpTree (path ++ "/" ++ nm) caps (.dir nm sub) = .ok c →
      c.Run = "" ∧ c.children = []) (es1 : List FsNode) :
    ∀ root, buildLoop path caps (es1 ++ .dir nm sub :: es2) root =
      buildLoop path caps (es1 ++ es2) root := by
  induction es1 with
  | nil =>
    intro root
    rw [List.nil_append, List.nil_append, buildLoop_dir]
    cases hb : buildOpTree (path ++ "/" ++ nm) caps (.dir nm sub) with
    | error err => rfl
    | ok c =>
      obtain ⟨h1, h2⟩ := hd c hb
      simp [h1, h2]
  | cons e es1 ih =>
    intro root
    rw [List.cons_append, List.cons_append]
    cases e with
    | dir name entries =>
      rw [buildLoop_dir, buildLoop_dir]
      cases buildOpTree (path ++ "/" ++ name) caps (.dir name entries) with
      | error err => exact ih root
      | ok t0 =>
        simp only
        split
        · exact ih root
        · exact ih _
    | file name parsed =>
      rw [buildLoop_file, buildLoop_file]
      split
      · cases parsed with
        | error err => rfl
        | ok tmpl =>
          simp only
          split
          · rfl
          · exact ih _
      · exact ih root

theorem Forall_children (p : BuiltTree → Prop) (t : BuiltTree) (h : BuiltTree.Forall p t) :
    ∀ c ∈ t.children, BuiltTree.Forall p c := by
  cases h with
  | node name value children _ hc => exact hc

theorem Forall_root (p : BuiltTree → Prop) (t : BuiltTree) (h : BuiltTree.Forall p t) : p t := by
  cases h with
  | node name value children hp _ => exact hp

theorem Forall_of (p : BuiltTree → Prop) (t : BuiltTree) (hp : p t)
    (hc : ∀ c ∈ t.children, BuiltTree.Forall p c) : BuiltTree.Forall p t := by
  cases t with
  | node name value children => exact .node name value children hp hc

theorem FeaturesOn_AddChild (caps : List (String × Bool)) (t c : BuiltTree)
    (ht : BuiltTree.Forall (FeaturesOn caps) t) (hc : BuiltTree.Forall (FeaturesOn caps) c) :
    BuiltTree.Forall (FeaturesOn caps) (t.AddChild c) := by
  apply Forall_of
  · intro v hv
    rw [AddChild_value] at hv
    exact Forall_root _ t ht v hv
  · intro d hd
    rw [AddChild_children] at hd
    split at hd
    · exact Forall_children _ t ht d hd
    · rcases List.mem_append.1 hd with hd | hd
      · exact Forall_children _ t ht d hd
      · have : d = c := by simpa using hd
        rw [this]; exact hc

mutual

/-- Every record in the tree `buildOpTree` returns has its features enabled. -/
theorem buildOpTree_features (caps : List (String × Bool)) :
    ∀ (n : FsNode) (path : String) (t : BuiltTree), buildOpTree path caps n = .ok t →
      BuiltTree.Forall (FeaturesOn caps) t
  | .file _ _, path, t, h => by simp [buildOpTree] at h
  | .dir name entries, path, t, h => by
    rw [buildOpTree] at h
    refine buildLoop_features caps entries path _ t ?_ h
    apply Forall_of
    · intro v hv; cases hv
    · intro c hc; cases hc

/-- The loop of `buildOpTree` keeps the features of every record enabled. -/
theorem buildLoop_features (caps : List (String × Bool)) :
    ∀ (es : List FsNode) (path : String) (root t : BuiltTree),
      BuiltTree.Forall (FeaturesOn caps) root → buildLoop path caps es root = .ok t →
      BuiltTree.Forall (FeaturesOn caps) t
  | [], path, root, t, hr, h => by
    simp only [buildLoop, Except.ok.injEq] at h
    rw [← h]; exact hr
  | .file name parsed :: rest, path, root, t, hr, h => by
    rw [buildLoop_file] at h
    split at h
    · cases parsed with
      | error err => cases h
      | ok tmpl =>
        simp only at h
        split at h
        · cases h
        · rename_i hf
          refine buildLoop_features caps rest path _ t ?_ h
          apply Forall_of
          · intro v hv
            have : v = tmpl := by
              cases root
              simp [BuiltTree.SetValue, BuiltTree.value] at hv
              exact hv.symm
            rw [this]
            simpa using hf
          · intro c hc
            rw [SetValue_children] at hc
            exact Forall_children _ root hr c hc
    · exact buildLoop_features caps rest path root t hr h
  | .dir name entries :: rest, path, root, t, hr, h => by
    rw [buildLoop_dir] at h
    cases hb : buildOpTree (path ++ "/" ++ name) caps (.dir name entries) with
    | error err => rw [hb] at h; exact buildLoop_features caps rest path root t hr h
    | ok t0 =>
      rw [hb] at h
      simp only at h
      have h0 := buildOpTree_features caps (.dir name entries) _ t0 hb
      split at h
      · exact buildLoop_features caps rest path root t hr h
      · exact buildLoop_features caps rest path _ t (FeaturesOn_AddChild caps root t0 hr h0) h

end

theorem buildLoop_ok_of_not_fails (path : String) (caps : List (String × Bool))
    (es : List FsNode) (root : BuiltTree) (h : nodeDefFails caps es = false) :
    ∃ t, buildLoop path caps es root = .ok t := by
  cases hb : buildLoop path caps es root with
  | ok t => exact ⟨t, rfl⟩
  | error e =>
    have := (buildLoop_error_iff path caps es root).1 ⟨e, hb⟩
    rw [h] at this
    cases this

/-- C26, amended: the build of a directory fails exactly when its own
`node.def` does not parse or names a feature that is not enabled.  When it
succeeds, every record in the tree has its features enabled; every child of
the root is the tree built for a directory among the entries, one with a run
command or at least one child; the tree of a directory whose `node.def`
parses and has its features enabled is built, and is attached when it has a
run command or a child (the directories being of different names); and a
directory whose `node.def` stops its build can be taken out of the entries
without any change to the tree. -/
theorem buildOpTree_feature_gate (path : String) (caps : List (String × Bool))
    (name : String) (es : List FsNode) :
    ((∃ e, buildOpTree path caps (.dir name es) = .error e) ↔ nodeDefFails caps es = true) ∧
    (∀ t, buildOpTree path caps (.dir name es) = .ok t →
      t.name = name ∧
      BuiltTree.Forall (FeaturesOn caps) t ∧
      (∀ c ∈ t.children, ∃ nm sub, FsNode.dir nm sub ∈ es ∧
        buildOpTree (path ++ "/" ++ nm) caps (.dir nm sub) = .ok c ∧
        (c.Run ≠ "" ∨ c.children ≠ [])) ∧
      ((dirNames es).Nodup → ∀ nm sub, FsNode.dir nm sub ∈ es →
        nodeDefFails caps sub = false →
        ∃ c, buildOpTree (path ++ "/" ++ nm) caps (.dir nm sub) = .ok c ∧
          ((c.Run ≠ "" ∨ c.children ≠ []) → c ∈ t.children))) ∧
    (∀ es1 nm sub es2, es = es1 ++ .dir nm sub :: es2 → nodeDefFails caps sub = true →
      buildOpTree path caps (.dir name (es1 ++ es2)) = buildOpTree path caps (.dir name es)) := by
  refine ⟨?_, ?_, ?_⟩
  · rw [buildOpTree]
    exact buildLoop_error_iff path caps es _
  · intro t h
    refine ⟨buildOpTree_name path caps name es t h,
      buildOpTree_features caps _ path t h, ?_, ?_⟩
    · intro c hc
      rw [buildOpTree] at h
      rcases buildLoop_children_sub path caps es _ t h c hc with h1 | h1
      · cases h1
      · exact h1
    · intro hnd nm sub hm hf
      obtain ⟨c, hc⟩ := buildLoop_ok_of_not_fails (path ++ "/" ++ nm) caps sub
        (NewOpTree nm none) hf
      refine ⟨c, by rw [buildOpTree]; exact hc, ?_⟩
      intro hs
      rw [buildOpTree] at h
      refine buildLoop_children_add path caps es _ t h hnd ?_ nm sub c hm
        (by rw [buildOpTree]; exact hc) hs
      intro d hd
      cases hd
  · intro es1 nm sub es2 hes hf
    rw [hes, buildOpTree, buildOpTree]
    symm
    apply buildLoop_drop
    intro c hc
    exfalso
    rw [buildOpTree] at hc
    have := (buildLoop_error_iff (path ++ "/" ++ nm) caps sub (NewOpTree nm none)).2 hf
    obtain ⟨e, he⟩ := this
    rw [hc] at he
    cases he

/-- C26 at `showHierarchy` with the capability `vrouter:bgp`: the build
succeeds; `ospf`, whose feature is not enabled, fails to build and the tree is
the one built without it; `bgp` and `version` are attached. -/
theorem buildOpTree_feature_gate_witness :
    nodeDefFails bgpCaps ospfEntries = true ∧
    (∃ e, buildOpTree "/opt/show/ospf" bgpCaps (.dir "ospf" ospfEntries) = .error e) ∧
    buildOpTree "/opt/show" bgpCaps (.dir "show" (showHead ++ showTail)) =
      buildOpTree "/opt/show" bgpCaps showHierarchy ∧
    buildOpTree "/opt/show" bgpCaps showHierarchy = .ok showBuilt :=
  ⟨by decide,
    (buildOpTree_feature_gate "/opt/show/ospf" bgpCaps "ospf" ospfEntries).1.2 (by decide),
    (buildOpTree_feature_gate "/opt/show" bgpCaps "show"
      (showHead ++ .dir "ospf" ospfEntries :: showTail)).2.2
      showHead "ospf" ospfEntries showTail rfl (by decide),
    rfl⟩

/-- C26 as stated fails at `showHierarchy` with the capability `vrouter:bgp`:
the directory `tech` has all its features enabled and is a child of the root,
which is built, yet the tree has no node `tech`: it has no run command and no
child. -/
theorem buildOpTree_enabled_node_dropped :
    FsNode.dir "tech" [.file "node.def"
      (.ok (((NewOpTmpl "" "Show tech" "" "").SetPriv true).SetFeatures ";vrouter:bgp"))] ∈
      showHead ++ .dir "ospf" ospfEntries :: showTail ∧
    featuresEnabled (((NewOpTmpl "" "Show tech" "" "").SetPriv true).SetFeatures ";vrouter:bgp")
      bgpCaps = true ∧
    buildOpTree "/opt/show" bgpCaps showHierarchy = .ok showBuilt ∧
    ∀ c ∈ showBuilt.children, c.name ≠ "tech" := by
  refine ⟨by simp [showHead, showTail], by decide, rfl, ?_⟩
  intro c hc
  simp only [showBuilt, BuiltTree.children, List.mem_cons, List.mem_singleton,
    List.not_mem_nil, or_false] at hc
  rcases hc with rfl | rfl <;> decide

/-! ## One candidate list per token -/

theorem dropLast_cons_single {α : Type} (x : List α) (ext : List (List α))
    (hx : x.length = 1) (h : ∀ l ∈ ext.dropLast, l.length = 1) :
    ∀ l ∈ (x :: ext).dropLast, l.length = 1 := by
  cases ext with
  | nil => intro l hl; simp at hl
  | cons y ys =>
    intro l hl
    simp only [List.dropLast, List.mem_cons] at hl
    rcases hl with rfl | hl
    · exact hx
    · exact h l hl

/-- From the property of `processchildren` on paths of length at most `n`
that it appends at most one list per token, each but the last of one
candidate, the same property of `processnode`. -/
theorem processnode_lists_of (S : Schema) (auth : Option Authoriser) (n : Nat)
    (ih : ∀ path : List String, path.length ≤ n → ∀ sch r rf,
      processchildren S auth sch path r = some rf →
        ∃ ext, rf.m = r.m ++ ext ∧ ext.length ≤ path.length ∧
          ∀ l ∈ ext.dropLast, l.length = 1)
    (path : List String) (hlen : path.length ≤ n) (sch : Option Nat) (r rf : results)
    (h : processnode S auth sch path r = some rf) :
    ∃ ext, rf.m = r.m ++ ext ∧ ext.length ≤ path.length ∧
      ∀ l ∈ ext.dropLast, l.length = 1 := by
  cases sch with
  | none =>
    rw [processnode] at h
    simp only [Option.some.injEq] at h
    subst h
    exact ⟨[], by simp, Nat.zero_le _, by simp⟩
  | some x =>
    rcases processnode_cases S auth x path r with h1 | h1 | h1 | ⟨v, rest, hp, _, _, h1⟩
    · rw [h1] at h
      simp only [Option.some.injEq] at h
      subst h
      exact ⟨[], by simp, Nat.zero_le _, by simp⟩
    · rw [h1] at h; simp at h
    · rw [h1] at h; exact ih path hlen x r rf h
    · rw [h1] at h
      subst hp
      obtain ⟨ext, he, hl, hd⟩ := ih rest (by simp at hlen; omega) x _ rf h
      exact ⟨[⟨x, true⟩] :: ext, by simp [he], by simp; omega,
        dropLast_cons_single _ ext rfl hd⟩

theorem processchildren_lists_aux (S : Schema) (auth : Option Authoriser) :
    ∀ n, ∀ path : List String, path.length ≤ n → ∀ sch r rf,
      processchildren S auth sch path r = some rf →
        ∃ ext, rf.m = r.m ++ ext ∧ ext.length ≤ path.length ∧
          ∀ l ∈ ext.dropLast, l.length = 1 := by
  intro n
  induction n with
  | zero =>
    intro path hlen sch r rf h
    have hp : path = [] := List.length_eq_zero.1 (Nat.le_zero.1 hlen)
    subst hp
    rw [processchildren_nil] at h
    simp only [Option.some.injEq] at h
    subst h
    exact ⟨[], by simp, Nat.zero_le _, by simp⟩
  | succ n ih =>
    intro path hlen sch r rf h
    cases path with
    | nil =>
      rw [processchildren_nil] at h
      simp only [Option.some.injEq] at h
      subst h
      exact ⟨[], by simp, Nat.zero_le _, by simp⟩
    | cons val rest =>
      have hrest : rest.length ≤ n := by simp at hlen; omega
      rw [processchildren] at h
      split at h
      · split at h
        · obtain ⟨ext, he, hl, hd⟩ := processnode_lists_of S auth n ih rest hrest _ _ rf h
          refine ⟨_ :: ext, by rw [he, List.append_assoc]; rfl, ?_, ?_⟩
          · simp only [List.length_cons]; omega
          · exact dropLast_cons_single _ ext rfl hd
        · simp only [Option.some.injEq] at h
          subst h
          exact ⟨[[]], rfl, by simp, by simp⟩
      · obtain ⟨ext, he, hl, hd⟩ := processnode_lists_of S auth n ih rest hrest _ _ rf h
        refine ⟨_ :: ext, by rw [he, List.append_assoc]; rfl, ?_, ?_⟩
        · simp only [List.length_cons]; omega
        · exact dropLast_cons_single _ ext rfl hd
      · simp only [Option.some.injEq] at h
        subst h
        exact ⟨[_], rfl, by simp, by simp⟩

/-- The closure `processnode` appends at most one list per token, each but the
last of exactly one candidate. -/
theorem processnode_lists (S : Schema) (auth : Option Authoriser) (sch : Option Nat)
    (path : List String) (r rf : results)
    (h : processnode S auth sch path r = some rf) :
    ∃ ext, rf.m = r.m ++ ext ∧ ext.length ≤ path.length ∧
      ∀ l ∈ ext.dropLast, l.length = 1 :=
  processnode_lists_of S auth path.length
    (fun p _ sch r rf => processchildren_lists_aux S auth p.length p (Nat.le_refl _) sch r rf)
    path (Nat.le_refl _) sch r rf h

/-- The loop of `ProcessMatches` reads `path[idx]` for the lists it is given
only: with no more lists than tokens left it returns. -/
theorem processMatchesLoop_returns (path : List String) (ms : List (List Match)) :
    ∀ idx epath, idx + ms.length ≤ path.length →
      ∃ res, processMatchesLoop path idx epath ms = some res := by
  induction ms with
  | nil => intro idx epath _; exact ⟨_, by rw [processMatchesLoop]⟩
  | cons entry rest ih =>
    intro idx epath hlen
    have hidx : idx < path.length := by simp at hlen; omega
    have hrest : idx + 1 + rest.length ≤ path.length := by simp at hlen; omega
    have htok : path[idx]? = some path[idx] := List.getElem?_eq_getElem hidx
    rcases entry with _ | ⟨e, _ | ⟨e2, es⟩⟩
    · exact ⟨_, by rw [processMatchesLoop, htok]⟩
    · rw [processMatchesLoop]
      split
      · rw [htok]; exact ih _ _ hrest
      · exact ih _ _ hrest
    · rw [processMatchesLoop]
      · rw [htok]
        simp only
        split
        · exact ⟨_, rfl⟩
        · exact ih _ _ hrest
      · intro h0; cases h0
      · intro e0 h0; cases h0

theorem commandScan_returns (S : Schema) (sch : Nat) (tok : String) (chs : List Nat)
    (h : S.Arguments sch ≠ [] ∨ chs = []) : ∃ b, commandScan S sch tok chs = some b := by
  induction chs with
  | nil => exact ⟨false, rfl⟩
  | cons ch chs ih =>
    have ha : S.Arguments sch ≠ [] := by
      rcases h with h | h
      · exact h
      · cases h
    obtain ⟨b, hb⟩ := ih (Or.inl ha)
    cases hargs : S.Arguments sch with
    | nil => exact absurd hargs ha
    | cons a as =>
      simp only [commandScan, hargs, List.getElem?_cons_zero]
      split
      · exact ⟨b, hb⟩
      · split
        · exact ⟨true, rfl⟩
        · exact ⟨b, hb⟩

theorem processopdcommand_returns (S : Schema) (auth : Option Authoriser) (x : Nat)
    (path : List String) (r : results)
    (hargs : S.Children x ≠ [] → S.Arguments x ≠ [])
    (ih : ∃ rf, processchildren S auth x path r = some rf) :
    ∃ rf, processopdcommand S auth x path r = some rf := by
  cases path with
  | nil => exact ⟨r, by rw [processopdcommand]⟩
  | cons tok rest =>
    rw [processopdcommand]
    have hc : S.Arguments x ≠ [] ∨ S.Children x = [] := by
      by_cases h : S.Children x = []
      · exact Or.inr h
      · exact Or.inl (hargs h)
    obtain ⟨b, hb⟩ := commandScan_returns S x tok (S.Children x) hc
    rw [hb]
    exact ih

theorem processnode_returns_of (S : Schema) (auth : Option Authoriser)
    (hargs : ∀ x, (S.Kind x = .OpdCommand ∨ S.Kind x = .OpdOption) →
      S.Children x ≠ [] → S.Arguments x ≠ [])
    (n : Nat)
    (ih : ∀ path : List String, path.length ≤ n → ∀ sch r,
      ∃ rf, processchildren S auth sch path r = some rf)
    (path : List String) (hlen : path.length ≤ n) (sch : Option Nat) (r : results) :
    ∃ rf, processnode S auth sch path r = some rf := by
  cases sch with
  | none => exact ⟨r, by rw [processnode]⟩
  | some x =>
    cases path with
    | nil => exact ⟨r, processnode_nil S auth _ r⟩
    | cons val rest =>
      cases hk : S.Kind x with
      | Tree =>
        have h : processnode S auth (some x) (val :: rest) r =
            processchildren S auth x (val :: rest) r := by
          rw [processnode]; simp only [hk]
        rw [h]; exact ih _ hlen x r
      | OpdArgument =>
        have h : processnode S auth (some x) (val :: rest) r =
            processchildren S auth x (val :: rest) r := by
          rw [processnode]; simp only [hk]
        rw [h]; exact ih _ hlen x r
      | Other =>
        have h : processnode S auth (some x) (val :: rest) r = some r := by
          rw [processnode]; simp only [hk]
        exact ⟨r, h⟩
      | OpdCommand =>
        have h : processnode S auth (some x) (val :: rest) r =
            processopdcommand S auth x (val :: rest) r := by
          rw [processnode]; simp only [hk]
        rw [h]
        exact processopdcommand_returns S auth x _ r (hargs x (Or.inl hk)) (ih _ hlen x r)
      | OpdOption =>
        cases ht : S.TypeIsEmpty x with
        | false =>
          rw [processnode_option_typed S auth x val rest r hk ht]
          exact ih rest (by simp at hlen; omega) x _
        | true =>
          have h : processnode S auth (some x) (val :: rest) r =
              processopdcommand S auth x (val :: rest) r := by
            rw [processnode]; simp only [hk]
            rw [processopdoption]; simp [ht]
          rw [h]
          exact processopdcommand_returns S auth x _ r (hargs x (Or.inr hk)) (ih _ hlen x r)

theorem processchildren_returns_aux (S : Schema) (auth : Option Authoriser)
    (hargs : ∀ x, (S.Kind x = .OpdCommand ∨ S.Kind x = .OpdOption) →
      S.Children x ≠ [] → S.Arguments x ≠ []) :
    ∀ n, ∀ path : List String, path.length ≤ n → ∀ sch r,
      ∃ rf, processchildren S auth sch path r = some rf := by
  intro n
  induction n with
  | zero =>
    intro path hlen sch r
    have hp : path = [] := List.length_eq_zero.1 (Nat.le_zero.1 hlen)
    subst hp
    exact ⟨r, processchildren_nil S auth sch r⟩
  | succ n ih =>
    intro path hlen sch r
    cases path with
    | nil => exact ⟨r, processchildren_nil S auth sch r⟩
    | cons val rest =>
      have hrest : rest.length ≤ n := by simp at hlen; omega
      rw [processchildren]
      split
      · split
        · exact processnode_returns_of S auth hargs n ih rest hrest _ _
        · exact ⟨_, rfl⟩
      · exact processnode_returns_of S auth hargs n ih rest hrest _ _
      · exact ⟨_, rfl⟩

/-- Where every command and option that has children declares an argument
name, the walk of `ExpandMatches` returns. -/
theorem processnode_returns (S : Schema) (auth : Option Authoriser)
    (hargs : ∀ x, (S.Kind x = .OpdCommand ∨ S.Kind x = .OpdOption) →
      S.Children x ≠ [] → S.Arguments x ≠ [])
    (sch : Option Nat) (path : List String) (r : results) :
    ∃ rf, processnode S auth sch path r = some rf :=
  processnode_returns_of S auth hargs path.length
    (fun p _ sch r => processchildren_returns_aux S auth hargs p.length p (Nat.le_refl _) sch r)
    path (Nat.le_refl _) sch r

/-- C30: `ExpandMatches` returns at most `len(path)` candidate lists, and every
list but the last holds exactly one candidate; `ProcessMatches`, applied to
them as `Expand` does, reads `path` within its bounds and returns.  (With no
schema loaded `ExpandMatches` returns no list.  It returns whenever every
command and option that has children declares an argument name.) -/
theorem ExpandMatches_lists (y : Yang) (path : List String) (auth : Option Authoriser) :
    (∀ ms, ExpandMatches y path auth = some ms →
      ms.length ≤ path.length ∧ (∀ l ∈ ms.dropLast, l.length = 1) ∧
        ∃ res, ProcessMatches path ms = some res) ∧
    ((∀ S, y.stOpd = some S → ∀ x, (S.Kind x = .OpdCommand ∨ S.Kind x = .OpdOption) →
        S.Children x ≠ [] → S.Arguments x ≠ []) →
      ∃ ms, ExpandMatches y path auth = some ms) := by
  cases hy : y.stOpd with
  | none =>
    have he : ExpandMatches y path auth = some [] := by simp [ExpandMatches, hy]
    refine ⟨?_, fun _ => ⟨[], he⟩⟩
    intro ms hms
    rw [he] at hms
    simp only [Option.some.injEq] at hms
    subst hms
    exact ⟨Nat.zero_le _, by simp, ⟨_, rfl⟩⟩
  | some S =>
    have he : ExpandMatches y path auth =
        (processnode S auth (some S.root) path ⟨[], []⟩).map
          (fun r => r.m.map (List.map (expandMatch.toMatch S))) := by
      simp [ExpandMatches, hy]
    constructor
    · intro ms hms
      rw [he] at hms
      obtain ⟨rf, hrf, hm⟩ := Option.map_eq_some'.1 hms
      obtain ⟨ext, hext, hlen, hone⟩ := processnode_lists S auth _ path _ rf hrf
      simp only [List.nil_append] at hext
      have hmlen : ms.length ≤ path.length := by
        rw [← hm, List.length_map, hext]; exact hlen
      refine ⟨hmlen, ?_, ?_⟩
      · intro l hl
        rw [← hm, ← List.map_dropLast, hext] at hl
        obtain ⟨l0, hl0, rfl⟩ := List.mem_map.1 hl
        rw [List.length_map]
        exact hone l0 hl0
      · exact processMatchesLoop_returns path ms 0 [] (by omega)
    · intro hargs
      obtain ⟨rf, hrf⟩ := processnode_returns S auth (hargs S rfl) (some S.root) path ⟨[], []⟩
      rw [he, hrf]
      exact ⟨_, rfl⟩

theorem partialCommands_lists :
    ExpandMatches ⟨some partialCommands⟩ ["a", "a"] none =
      some [[⟨"alternative-command", "", false⟩],
        [⟨"a-command", "", false⟩, ⟨"an-option", "", false⟩,
          ⟨"another-option", "", false⟩]] := by
  simp [ExpandMatches, processnode, processchildren, processopdcommand, partialCommands,
    scanChildren, effChildren, effArgNm, HasPrefix, permitted, authorise, commandScan,
    expandMatch.toMatch]

theorem flaggedCommands_arguments (x : Nat)
    (_hk : flaggedCommands.Kind x = .OpdCommand ∨ flaggedCommands.Kind x = .OpdOption)
    (hc : flaggedCommands.Children x ≠ []) : flaggedCommands.Arguments x ≠ [] := by
  match x with
  | 0 => simp [flaggedCommands] at _hk
  | 1 => simp [flaggedCommands]
  | n + 2 => simp [flaggedCommands] at hc

/-- C30 at the schema of `TestExpandPartialCommands`: for `a a` there are two
lists, the first of one candidate, the second of three, and `ProcessMatches`
returns on them; on `flaggedCommands`, where the command declares its
argument, `ExpandMatches` returns. -/
theorem ExpandMatches_lists_witness :
    (([[⟨"alternative-command", "", false⟩],
        [⟨"a-command", "", false⟩, ⟨"an-option", "", false⟩,
          ⟨"another-option", "", false⟩]] : List (List Match)).length ≤ 2 ∧
      (∀ l ∈ ([[⟨"alternative-command", "", false⟩],
        [⟨"a-command", "", false⟩, ⟨"an-option", "", false⟩,
          ⟨"another-option", "", false⟩]] : List (List Match)).dropLast, l.length = 1) ∧
      ∃ res, ProcessMatches ["a", "a"]
        [[⟨"alternative-command", "", false⟩],
          [⟨"a-command", "", false⟩, ⟨"an-option", "", false⟩,
            ⟨"another-option", "", false⟩]] = some res) ∧
    ∃ ms, ExpandMatches ⟨some flaggedCommands⟩ ["test-command", "x", "y"] none = some ms :=
  ⟨(ExpandMatches_lists ⟨some partialCommands⟩ ["a", "a"] none).1 _ partialCommands_lists,
    (ExpandMatches_lists ⟨some flaggedCommands⟩ ["test-command", "x", "y"] none).2
      (fun S hS x hk hc => by
        cases hS
        exact flaggedCommands_arguments x hk hc)⟩

/-! ## The items of the lexer and the error of the parser -/

theorem key_keyword (w : String) (t : itemType) (h : key w = some t) :
    itemType.itemKeyword.toNat < t.toNat := by
  unfold key at h
  split_ifs at h <;> cases h <;> decide

theorem key_lower (w : String) (t : itemType) (h : key w = some t) :
    ∀ c ∈ w.toList, isLowerLetter c = true := by
  unfold key at h
  split_ifs at h <;> cases h <;> subst_vars <;> decide

/-- What `lexField` and `lexValue` send is of the form `Sent`; `lexValue`
sends a value first. -/
theorem lex_sent_aux :
    ∀ n (pending rest : List Char), rest.length ≤ n →
      Sent (lexField pending rest) ∧
        ∃ val l, lexValue pending rest = ⟨.itemValue, val⟩ :: l ∧ Sent l := by
  intro n
  induction n with
  | zero =>
    intro pending rest hlen
    have hr : rest = [] := List.length_eq_zero.1 (Nat.le_zero.1 hlen)
    subst hr
    exact ⟨by rw [lexField_eof pending [] rfl]; exact .eof, _, [], lexValue_nil pending,
      .done⟩
  | succ n ih =>
    intro pending rest hlen
    constructor
    · cases hd : rest.dropWhile isLowerLetter with
      | nil => rw [lexField_eof _ _ hd]; exact .eof
      | cons c rest2 =>
        have hl := (List.dropWhile_suffix (l := rest) isLowerLetter).length_le
        rw [hd] at hl
        simp only [List.length_cons] at hl
        have hlen2 : rest2.length ≤ n := by omega
        by_cases hc : c = fieldDelim
        · subst hc
          cases hk : key (String.mk (pending ++ rest.takeWhile isLowerLetter)) with
          | none => rw [lexField_bad _ _ _ hd hk]; exact .bad _
          | some t =>
            rw [lexField_field _ _ _ t hd hk]
            obtain ⟨val, l, hv, hs⟩ := (ih [] rest2 hlen2).2
            rw [hv]
            exact .field _ _ l (key_keyword _ t hk) rfl hs
        · rw [lexField_skip _ _ c rest2 hd hc]
          exact (ih [] rest2 hlen2).1
    · cases rest with
      | nil => exact ⟨_, [], lexValue_nil pending, .done⟩
      | cons c rest1 =>
        have hlen1 : rest1.length ≤ n := by simp at hlen; omega
        by_cases hc : c = '\n'
        · subst hc
          by_cases hex : ∃ rest2, rest1.dropWhile isLowerLetter = fieldDelim :: rest2
          · obtain ⟨rest2, h2⟩ := hex
            have hl := (List.dropWhile_suffix (l := rest1) isLowerLetter).length_le
            rw [h2] at hl
            rw [lexValue_newline_field _ _ _ h2]
            exact ⟨_, _, rfl, (ih _ _ (by omega)).1⟩
          · rw [lexValue_newline_other _ _ (fun rest2 h2 => hex ⟨rest2, h2⟩)]
            have hl := (List.dropWhile_suffix (l := rest1) isLowerLetter).length_le
            exact (ih _ _ (by omega)).2
        · rw [lexValue_char _ _ _ hc]
          exact (ih _ _ hlen1).2

theorem lex_sent (name text : String) : Sent (lex name text) :=
  (lex_sent_aux text.toList.length [] text.toList (Nat.le_refl _)).1

/-- On what the lexer sends, the parser returns the error that names the bad
field when the lexer met one, and no error otherwise. -/
theorem parseLoop_error_iff (l : List item) (hs : Sent l) :
    ∀ (t : OpTmpl) (msg : String),
      (parseLoop l t).2 = some msg ↔ (⟨.itemError, msg⟩ : item) ∈ l := by
  induction hs with
  | done => intro t msg; simp [parseLoop]
  | eof => intro t msg; simp [parseLoop, itemType.toNat]
  | bad word =>
    intro t msg
    simp only [parseLoop, if_true, Option.some.injEq, List.mem_singleton, item.mk.injEq,
      true_and]
    exact eq_comm
  | field k v rest hk hv _ ih =>
    intro t msg
    have hke : k.typ ≠ .itemError := by
      intro h; rw [h] at hk; simp [itemType.toNat] at hk
    have hkm : (⟨.itemError, msg⟩ : item) ≠ k := by
      intro h; apply hke; rw [← h]
    have hvm : (⟨.itemError, msg⟩ : item) ≠ v := by
      intro h; rw [← h] at hv; cases hv
    have hgt : k.typ.toNat > itemType.itemKeyword.toNat := hk
    simp only [parseLoop, hke, if_false, hgt, if_true, hv, ne_eq, not_true_eq_false,
      List.mem_cons, hkm, hvm, false_or]
    exact ih _ msg

theorem Parse_error_iff (name text msg : String) :
    (Parse name text).2 = some msg ↔ (⟨.itemError, msg⟩ : item) ∈ lex name text := by
  unfold Parse newParser
  exact parseLoop_error_iff _ (lex_sent name text) _ msg

theorem dropWhile_lower_delim (k r : List Char) (h : ∀ c ∈ k, isLowerLetter c = true) :
    (k ++ fieldDelim :: r).dropWhile isLowerLetter = fieldDelim :: r ∧
      (k ++ fieldDelim :: r).takeWhile isLowerLetter = k := by
  induction k with
  | nil => exact ⟨rfl, rfl⟩
  | cons c k ih =>
    have hc : isLowerLetter c = true := h c (List.mem_cons_self _ _)
    obtain ⟨h1, h2⟩ := ih (fun d hd => h d (List.mem_cons_of_mem _ hd))
    simp only [List.cons_append, List.dropWhile_cons, List.takeWhile_cons, hc, if_true, h1, h2]
    exact ⟨trivial, trivial⟩

/-- The lexer on an entry `field:value` whose field is recognised and whose
value is on one line. -/
theorem lexField_entry (pending run : List Char) (t : itemType) (v rest : List Char)
    (hk : key (String.mk (pending ++ run)) = some t)
    (hrun : ∀ c ∈ run, isLowerLetter c = true) (hv : ∀ c ∈ v, c ≠ '\n') :
    lexField pending (run ++ fieldDelim :: (v ++ '\n' :: rest)) =
      ⟨t, String.mk (pending ++ run)⟩ :: lexValue v ('\n' :: rest) := by
  obtain ⟨h1, h2⟩ := dropWhile_lower_delim run (v ++ '\n' :: rest) hrun
  rw [lexField_field _ _ _ t h1 (by rw [h2]; exact hk), h2, lexValue_chars v _ _ hv]
  rfl

theorem lex_entries_aux (es : List (String × String))
    (hes : ∀ e ∈ es, key e.1 ≠ none ∧ ∀ c ∈ e.2.toList, c ≠ '\n') :
    (∀ i ∈ lexField [] (entriesChars es), i.typ ≠ .itemError) ∧
      ∀ pending, ∀ i ∈ lexValue pending ('\n' :: entriesChars es), i.typ ≠ .itemError := by
  induction es with
  | nil =>
    constructor
    · intro i hi
      rw [entriesChars, lexField_eof [] [] rfl] at hi
      simp only [List.mem_singleton] at hi
      rw [hi]; decide
    · intro pending i hi
      rw [entriesChars, lexValue_newline_other _ _ (fun rest2 h2 => by cases h2)] at hi
      simp only [List.dropWhile_nil, lexValue_nil, List.mem_singleton] at hi
      rw [hi]; intro h; cases h
  | cons e es ih =>
    obtain ⟨k, v⟩ := e
    obtain ⟨hkey, hval⟩ := hes (k, v) (List.mem_cons_self _ _)
    obtain ⟨ih1, ih2⟩ := ih (fun e he => hes e (List.mem_cons_of_mem _ he))
    cases hk : key k with
    | none => exact absurd hk hkey
    | some t =>
      have hne : t ≠ .itemError := by
        intro h
        have := key_keyword k t hk
        rw [h] at this
        simp [itemType.toNat] at this
      constructor
      · intro i hi
        rw [entriesChars, lexField_entry [] k.toList t v.toList _ hk (key_lower k t hk) hval,
          List.mem_cons] at hi
        rcases hi with rfl | hi
        · exact hne
        · exact ih2 _ i hi
      · intro pending i hi
        obtain ⟨h1, h2⟩ := dropWhile_lower_delim k.toList
          (v.toList ++ '\n' :: entriesChars es) (key_lower k t hk)
        have h3 := lexField_entry k.toList [] t v.toList (entriesChars es)
          (by simpa using hk) (by simp) hval
        simp only [List.nil_append, List.append_nil] at h3
        rw [entriesChars, lexValue_newline_field _ _ _ h1, h2, h3,
          List.mem_cons, List.mem_cons] at hi
        rcases hi with rfl | rfl | hi
        · intro h; cases h
        · exact hne
        · exact ih2 _ i hi

/-- C27: when the lexer, in field position, reaches a `:` after a run of
lower-case letters that is not a field name, `Parse` returns the error `bad
field` followed by that run; for a text made of entries `field:value` with a
recognised field, each on a line of its own, `Parse` returns no error.  (The
lexer is in field position with `pending` read and `rest` to read when what it
sends from there on is `lexField pending rest`.) -/
theorem Parse_bad_field (name text : String) :
    (∀ sent pending rest rest2, lex name text = sent ++ lexField pending rest →
      rest.dropWhile isLowerLetter = fieldDelim :: rest2 →
      key (String.mk (pending ++ rest.takeWhile isLowerLetter)) = none →
      (Parse name text).2 =
        some ("bad field " ++ String.mk (pending ++ rest.takeWhile isLowerLetter))) ∧
    (∀ es : List (String × String),
      (∀ e ∈ es, key e.1 ≠ none ∧ ∀ c ∈ e.2.toList, c ≠ '\n') →
      text = String.mk (entriesChars es) → (Parse name text).2 = none) := by
  constructor
  · intro sent pending rest rest2 hlex hd hk
    rw [Parse_error_iff, hlex, lexField_bad _ _ _ hd hk]
    simp
  · intro es hes htext
    cases hp : (Parse name text).2 with
    | none => rfl
    | some msg =>
      have hm := (Parse_error_iff name text msg).1 hp
      rw [htext] at hm
      exact absurd rfl ((lex_entries_aux es hes).1 _ hm)

/-- C27 at the text `foo: bar`, and at a text of two entries. -/
theorem Parse_bad_field_witness :
    (Parse "node.def" "foo: bar").2 = some "bad field foo" ∧
    (Parse "node.def" "help: Show things\nrun: ls -l\n").2 = none :=
  ⟨(Parse_bad_field "node.def" "foo: bar").1 [] [] "foo: bar".toList " bar".toList rfl rfl rfl,
    (Parse_bad_field "node.def" "help: Show things\nrun: ls -l\n").2
      [("help", " Show things"), ("run", " ls -l")]
      (by decide) rfl⟩

theorem lex_help_then_bare_help :
    lex "node.def" "help: x\nhelp:" =
      [⟨.itemHelp, "help"⟩, ⟨.itemValue, " x\n"⟩, ⟨.itemHelp, "help"⟩, ⟨.itemValue, ""⟩] := by
  have h1 : "help: x\nhelp:".toList =
      "help".toList ++ fieldDelim :: (" x".toList ++ '\n' :: "help:".toList) := by rfl
  have h2 : "help:".toList.dropWhile isLowerLetter = fieldDelim :: [] := by rfl
  have h3 : [fieldDelim].dropWhile isLowerLetter = fieldDelim :: [] := by rfl
  unfold lex
  rw [h1, lexField_entry [] "help".toList .itemHelp " x".toList _ (by rfl) (by decide)
      (by decide),
    lexValue_newline_field _ _ _ h2, lexField_field _ _ _ .itemHelp h3 (by rfl), lexValue_nil]
  rfl

theorem lex_help :
    lex "node.def" "help: x" = [⟨.itemHelp, "help"⟩, ⟨.itemValue, " x"⟩] := by
  have h1 : "help: x".toList.dropWhile isLowerLetter = fieldDelim :: (" x".toList ++ []) := by
    rfl
  unfold lex
  rw [lexField_field _ _ _ .itemHelp h1 (by rfl), lexValue_chars _ _ _ (by decide),
    lexValue_nil]
  rfl

/-- C28: the text `help: x` gives the help `x`; followed by a line `help:`
with no value, `Parse` returns no error, as the claim says, but the help is
then the empty string, not `x`: the lexer sends an empty value after the
trailing field, so the parser does not pass the field over but assigns it. -/
theorem Parse_trailing_help :
    Parse "node.def" "help: x" =
      ({ allowed := "", comptype := "", help := "x", include_ := "", run := "", features := "",
         priv := true, local_ := false, secret := false, yang := false,
         passOpcArgs := false }, none) ∧
    lex "node.def" "help: x\nhelp:" =
      [⟨.itemHelp, "help"⟩, ⟨.itemValue, " x\n"⟩, ⟨.itemHelp, "help"⟩, ⟨.itemValue, ""⟩] ∧
    Parse "node.def" "help: x\nhelp:" =
      ({ allowed := "", comptype := "", help := "", include_ := "", run := "", features := "",
         priv := true, local_ := false, secret := false, yang := false,
         passOpcArgs := false }, none) := by
  refine ⟨?_, lex_help_then_bare_help, ?_⟩
  · unfold Parse newParser
    rw [lex_help]
    rfl
  · unfold Parse newParser
    rw [lex_help_then_bare_help]
    rfl

/-! ## The type tag of `TmplGet` -/

theorem mapGet_tmplMapType_type (S : Schema) (sn : Nat) (m : List (String × String)) :
    mapGet (tmplMapType S sn m) "type" =
      if S.TypeIsEmpty sn then mapGet m "type"
      else
        match S.TypeClass sn with
        | .Integer => "u32"
        | .Uinteger => "u32"
        | .Boolean => "bool"
        | .Other => "txt" := by
  unfold tmplMapType
  split
  · rfl
  · cases S.TypeClass sn <;> simp [mapGet_mapSet]

/-- The record of `TmplGet` for a node, without the switch on the node's type. -/
theorem tmplOfNode_no_type (S : Schema) (sn : Nat) (val : Bool) :
    tmplOfNode S sn val =
      (let m := tmplMapHead S sn val
       let q : List (String × String) × Bool × Bool × Bool :=
         match S.Kind sn with
         | .OpdCommand => (tmplMapKind S sn m, S.Local sn, S.Secret sn, S.PassOpcArgs sn)
         | .OpdArgument => (tmplMapKind S sn m, S.Local sn, S.Secret sn, S.PassOpcArgs sn)
         | .OpdOption =>
           (tmplMapKind S sn m, if val then S.Local sn else false, S.Secret sn,
             S.PassOpcArgs sn)
         | _ => (m, false, false, false)
       let template := NewOpTmpl (mapGet q.1 "allowed") (mapGet q.1 "help") ""
         (mapGet q.1 "run")
       let template :=
         if mapGet q.1 "privileged" = "1" then template.SetPriv true else template
       let template := template.SetLocal q.2.1
       let template :=
         if mapGet q.1 "is_value" = "1" then template.SetSecret q.2.2.1 else template
       let template := template.SetPassOpcArgs q.2.2.2
       template.SetYang true) := by
  unfold tmplOfNode
  cases S.Kind sn <;>
    simp only [mapGet_tmplMapType _ _ _ _ (by decide : "type" ≠ "allowed"),
      mapGet_tmplMapType _ _ _ _ (by decide : "type" ≠ "help"),
      mapGet_tmplMapType _ _ _ _ (by decide : "type" ≠ "run"),
      mapGet_tmplMapType _ _ _ _ (by decide : "type" ≠ "privileged"),
      mapGet_tmplMapType _ _ _ _ (by decide : "type" ≠ "is_value")]

theorem tmplOfNode_type_free (S : Schema) (sn : Nat) (val : Bool) (te : Nat → Bool)
    (tc : Nat → TypeClass) :
    tmplOfNode { S with TypeIsEmpty := te, TypeClass := tc } sn val = tmplOfNode S sn val := by
  rw [tmplOfNode_no_type, tmplOfNode_no_type]
  rfl

theorem validatePathLoop_type_free (S : Schema) (te : Nat → Bool) (tc : Nat → TypeClass)
    (ps : List String) :
    ∀ (rest : List String) (i sn : Nat),
      validatePathLoop { S with TypeIsEmpty := te, TypeClass := tc } ps i sn rest =
        validatePathLoop S ps i sn rest := by
  intro rest
  induction rest with
  | nil => intro i sn; rfl
  | cons v rest ih =>
    intro i sn
    simp only [validatePathLoop]
    cases S.SchemaChild sn v with
    | none => rfl
    | some c => exact ih _ _

theorem TmplGet_type_free (S : Schema) (te : Nat → Bool) (tc : Nat → TypeClass)
    (path : List String) :
    TmplGet ⟨some { S with TypeIsEmpty := te, TypeClass := tc }⟩ path =
      TmplGet ⟨some S⟩ path := by
  simp only [TmplGet, opdSchemaPathDescendant, getPathError, validatePath,
    validatePathLoop_type_free]
  cases S.OpdPathDescendant path with
  | none => rfl
  | some d =>
    obtain ⟨sn, val⟩ := d
    simp only [tmplOfNode_type_free]

/-- C33, amended: `TmplGet` works out the type tag of the node in its map `m`
(`u32` for the integer family, `bool` for boolean, `txt` for every other type
that is not `Empty`, no entry for `Empty`), but the record it returns is built
from other entries of `m` only: it is the same whatever the type of the node,
so nodes that differ in their type only yield equal records. -/
theorem TmplGet_type_tag (S : Schema) (sn : Nat) (m : List (String × String)) :
    (mapGet (tmplMapType S sn m) "type" =
      if S.TypeIsEmpty sn then mapGet m "type"
      else
        match S.TypeClass sn with
        | .Integer => "u32"
        | .Uinteger => "u32"
        | .Boolean => "bool"
        | .Other => "txt") ∧
    (∀ val, mapGet (tmplMapHead S sn val) "type" = "" ∧
      mapGet (tmplMapKind S sn (tmplMapHead S sn val)) "type" = "") ∧
    (∀ val te tc,
      tmplOfNode { S with TypeIsEmpty := te, TypeClass := tc } sn val = tmplOfNode S sn val) ∧
    (∀ path te tc,
      TmplGet ⟨some { S with TypeIsEmpty := te, TypeClass := tc }⟩ path =
        TmplGet ⟨some S⟩ path) := by
  refine ⟨mapGet_tmplMapType_type S sn m, ?_, fun val te tc => tmplOfNode_type_free S sn val te tc,
    fun path te tc => TmplGet_type_free S te tc path⟩
  intro val
  have h1 : mapGet (tmplMapHead S sn val) "type" = "" := by
    unfold tmplMapHead
    simp only
    repeat' split
    all_goals simp [mapGet, mapSet]
  refine ⟨h1, ?_⟩
  rw [mapGet_tmplMapKind_other _ _ _ "type" (by decide) (by decide) (by decide), h1]

/-- C33 as stated fails at `flaggedCommands`: with the argument of the type class
integer and with it of the type class boolean, `TmplGet` returns the same
record, one whose `comptype` is empty. -/
theorem TmplGet_same_record_for_types :
    (flaggedTyped .Integer).TypeClass 3 ≠ (flaggedTyped .Boolean).TypeClass 3 ∧
    TmplGet ⟨some (flaggedTyped .Integer)⟩ ["test-command", "arg"] =
      TmplGet ⟨some (flaggedTyped .Boolean)⟩ ["test-command", "arg"] ∧
    TmplGet ⟨some (flaggedTyped .Integer)⟩ ["test-command", "arg"] =
      .ok (some { allowed := "", comptype := "", help := "", include_ := "", run := "",
                  features := "", priv := true, local_ := true, secret := true, yang := true,
                  passOpcArgs := true }) :=
  ⟨by decide, rfl, rfl⟩

/-- C33 at `flaggedCommands`: the tag of the argument, of the type class
integer, is `u32` in the map, and the record is that of the same schema with
the type class boolean. -/
theorem TmplGet_type_tag_witness :
    mapGet (tmplMapType (flaggedTyped .Integer) 3 []) "type" = "u32" ∧
    TmplGet ⟨some { flaggedTyped .Integer with
        TypeIsEmpty := (flaggedTyped .Integer).TypeIsEmpty,
        TypeClass := fun _ => .Boolean }⟩ ["test-command", "arg"] =
      TmplGet ⟨some (flaggedTyped .Integer)⟩ ["test-command", "arg"] :=
  ⟨(TmplGet_type_tag (flaggedTyped .Integer) 3 []).1,
    (TmplGet_type_tag (flaggedTyped .Integer) 3 []).2.2.2 ["test-command", "arg"]
      (flaggedTyped .Integer).TypeIsEmpty (fun _ => .Boolean)⟩

/-! ## Pruning in `buildOpTree` -/

/-- Directories of different names: a name stands for one directory. -/
theorem dir_sub_unique (es : List FsNode) (hnd : (dirNames es).Nodup) (nm : String)
    (s1 s2 : List FsNode) (h1 : FsNode.dir nm s1 ∈ es) (h2 : FsNode.dir nm s2 ∈ es) :
    s1 = s2 := by
  induction es with
  | nil => cases h1
  | cons e es ih =>
    cases e with
    | file fname parsed =>
      rw [dirNames_cons_file] at hnd
      rcases List.mem_cons.1 h1 with h | h
      · cases h
      · rcases List.mem_cons.1 h2 with h' | h'
        · cases h'
        · exact ih hnd h h'
    | dir dname dsub =>
      rw [dirNames_cons_dir] at hnd
      obtain ⟨hnot, hnd2⟩ := List.nodup_cons.1 hnd
      rcases List.mem_cons.1 h1 with h | h
      · rcases List.mem_cons.1 h2 with h' | h'
        · injection h with _ ha
          injection h' with _ hb
          rw [ha, hb]
        · injection h with ha _
          exact absurd (ha ▸ mem_dirNames _ _ _ h') hnot
      · rcases List.mem_cons.1 h2 with h' | h'
        · injection h' with hb _
          exact absurd (hb ▸ mem_dirNames _ _ _ h) hnot
        · exact ih hnd2 h h'

/-- C34: the tree built for a directory among the entries of a directory that
builds is attached to the tree of that directory exactly when its record has a
run script or it has a child of its own left (the directories being of
different names, as in a file system); the tree of the directory the build was
asked for is returned whatever its record and its children. -/
theorem buildOpTree_prunes (path : String) (caps : List (String × Bool)) (name : String)
    (es : List FsNode) (t : BuiltTree) (hnd : (dirNames es).Nodup)
    (ht : buildOpTree path caps (.dir name es) = .ok t) :
    (∀ nm sub c, FsNode.dir nm sub ∈ es →
      buildOpTree (path ++ "/" ++ nm) caps (.dir nm sub) = .ok c →
      (c ∈ t.children ↔ (c.Run ≠ "" ∨ c.children ≠ [])) ∧
        ((c.Run = "" ∧ c.children = []) → ∀ d ∈ t.children, d.name ≠ nm)) ∧
    (∀ c ∈ t.children, c.Run ≠ "" ∨ c.children ≠ []) ∧
    (nodeDefFails caps es = false ∧ t.name = name) ∧
    buildOpTree path caps (.dir name []) = .ok (.node name none []) := by
  have hloop : buildLoop path caps es (NewOpTree name none) = .ok t := by
    rw [buildOpTree] at ht; exact ht
  have hsub := buildLoop_children_sub path caps es _ t hloop
  have hsurv : ∀ c ∈ t.children, c.Run ≠ "" ∨ c.children ≠ [] := by
    intro c hc
    rcases hsub c hc with h | ⟨_, _, _, _, h⟩
    · cases h
    · exact h
  refine ⟨?_, hsurv, ⟨?_, buildOpTree_name path caps name es t ht⟩, rfl⟩
  · intro nm sub c hm hc
    refine ⟨⟨hsurv c, fun hs => ?_⟩, ?_⟩
    · exact buildLoop_children_add path caps es _ t hloop hnd (fun d hd => by cases hd)
        nm sub c hm hc hs
    · rintro ⟨h1, h2⟩ d hd hdn
      rcases hsub d hd with h | ⟨nm2, sub2, hm2, hb2, hs2⟩
      · cases h
      · have hn2 : d.name = nm2 := buildOpTree_name _ caps nm2 sub2 d hb2
        have hnm : nm2 = nm := hn2.symm.trans hdn
        subst hnm
        have hsame : sub2 = sub := dir_sub_unique es hnd nm2 sub2 sub hm2 hm
        subst hsame
        rw [hc] at hb2
        injection hb2 with hcd
        subst hcd
        rcases hs2 with h | h
        · exact h h1
        · exact h h2
  · cases hf : nodeDefFails caps es with
    | false => rfl
    | true =>
      obtain ⟨e, he⟩ := (buildLoop_error_iff path caps es (NewOpTree name none)).2 hf
      rw [hloop] at he
      cases he

/-- C34 at `showHierarchy` with the capability `vrouter:bgp`: `version`, with a
run script, is attached; `tech`, built with no run script and no child, is not;
and a directory with nothing in it is built, as the tree asked for, all the
same. -/
theorem buildOpTree_prunes_witness :
    buildOpTree "/opt/show/version" bgpCaps
      (.dir "version" [.file "node.def"
        (.ok ((NewOpTmpl "" "Show version" "" "uname -a").SetPriv true))]) =
      .ok (.node "version" (some ((NewOpTmpl "" "Show version" "" "uname -a").SetPriv true))
        []) ∧
    BuiltTree.node "version"
      (some ((NewOpTmpl "" "Show version" "" "uname -a").SetPriv true)) [] ∈
        showBuilt.children ∧
    (∀ d ∈ showBuilt.children, d.name ≠ "tech") ∧
    buildOpTree "/opt/show/tech" bgpCaps (.dir "tech" []) = .ok (.node "tech" none []) :=
  ⟨rfl,
    ((buildOpTree_prunes "/opt/show" bgpCaps "show"
      (showHead ++ .dir "ospf" ospfEntries :: showTail) showBuilt (by decide) rfl).1
      "version"
      [.file "node.def" (.ok ((NewOpTmpl "" "Show version" "" "uname -a").SetPriv true))]
      (.node "version" (some ((NewOpTmpl "" "Show version" "" "uname -a").SetPriv true)) [])
      (by simp [showHead, showTail]) rfl).1.2 (Or.inl (by decide)),
    ((buildOpTree_prunes "/opt/show" bgpCaps "show"
      (showHead ++ .dir "ospf" ospfEntries :: showTail) showBuilt (by decide) rfl).1
      "tech"
      [.file "node.def"
        (.ok (((NewOpTmpl "" "Show tech" "" "").SetPriv true).SetFeatures ";vrouter:bgp"))]
      (.node "tech"
        (some (((NewOpTmpl "" "Show tech" "" "").SetPriv true).SetFeatures ";vrouter:bgp")) [])
      (by simp [showHead, showTail]) rfl).2 ⟨rfl, rfl⟩,
    rfl⟩

/-! ## Termination of `Child` -/

theorem includeAt_succ (s : Store) (t : Nat) :
    ∀ i, includeAt s t (i + 1) =
      match (s t).include_ with
      | none => none
      | some x => includeAt s x i := by
  intro i
  induction i with
  | zero =>
    simp only [includeAt]
    cases (s t).include_ <;> rfl
  | succ i ih =>
    rw [includeAt, ih]
    cases (s t).include_ with
    | none => rfl
    | some x => simp only [includeAt]

theorem includeEnds_of_includeAt (s : Store) :
    ∀ i t, includeAt s t (i + 1) = none → includeEnds s i t = true := by
  intro i
  induction i with
  | zero =>
    intro t h
    rw [includeAt_succ] at h
    cases hi : (s t).include_ with
    | none => simp [includeEnds, hi]
    | some x => rw [hi] at h; simp [includeAt] at h
  | succ i ih =>
    intro t h
    rw [includeAt_succ] at h
    cases hi : (s t).include_ with
    | none => rw [includeEnds]; simp [hi]
    | some x =>
      rw [hi] at h
      rw [includeEnds]
      simp only [hi]
      exact ih x h

theorem includeAt_none_succ (s : Store) (t i : Nat) (h : includeAt s t i = none) :
    includeAt s t (i + 1) = none := by
  simp [includeAt, h]

theorem includeAt_none_le (s : Store) (t i j : Nat) (hij : i ≤ j)
    (h : includeAt s t i = none) : includeAt s t j = none := by
  induction hij with
  | refl => exact h
  | step _ ih => exact includeAt_none_succ s t _ ih

/-- An acyclic chain of include links in a heap of `n` nodes ends: it has at
most `n` nodes. -/
theorem includeAt_ends (s : Store) (t n : Nat) (hac : includeAcyclic s t)
    (hfin : ∀ i x, includeAt s t i = some x → x < n) : includeAt s t n = none := by
  by_contra hne
  have hsome : ∀ i : Fin (n + 1), ∃ x : Fin n, includeAt s t i.1 = some x.1 := by
    intro i
    cases hi : includeAt s t i.1 with
    | none => exact absurd (includeAt_none_le s t i.1 n (Nat.lt_succ_iff.1 i.2) hi) hne
    | some x => exact ⟨⟨x, hfin _ _ hi⟩, rfl⟩
  choose f hf using hsome
  obtain ⟨a, b, hab, hfab⟩ := Fintype.exists_ne_map_eq_of_card_lt f (by simp)
  have hne2 : a.1 ≠ b.1 := fun h => hab (Fin.ext h)
  rcases Nat.lt_or_gt_of_ne hne2 with hlt | hlt
  · exact hac a.1 b.1 (f a).1 hlt (hf a) (by rw [hfab]; exact hf b)
  · exact hac b.1 a.1 (f b).1 hlt (hf b) (by rw [← hfab]; exact hf a)

/-- On two nodes that include each other and have no local child of the name,
`Child` does not return, however many include links it may follow. -/
theorem Child_cycle (s : Store) (a b : Nat) (k : String)
    (hab : (s a).include_ = some b) (hba : (s b).include_ = some a)
    (hka : childGet (s a).children k = none) (hkb : childGet (s b).children k = none) :
    ∀ fuel, OpTree.Child s fuel a k = none ∧ OpTree.Child s fuel b k = none := by
  intro fuel
  induction fuel with
  | zero => exact ⟨Child_zero_include s a b k hka hab, Child_zero_include s b a k hkb hba⟩
  | succ fuel ih =>
    exact ⟨by rw [Child_of_include s fuel a b k hka hab]; exact ih.2,
      by rw [Child_of_include s fuel b a k hkb hba]; exact ih.1⟩

/-- C35: `Child(name)` returns on every node whose chain of include links is
acyclic (in a heap of `n` nodes the chain then ends after fewer than `n`
links, and `Child` returns an answer that is the same however many more links
it may follow); on nodes `a` and `b` that include each other, neither with a
local child `k`, `Child(k)` on `a` does not return, however many links it may
follow. -/
theorem Child_terminates (s : Store) (k : String) :
    (∀ t n, includeAcyclic s t → (∀ i x, includeAt s t i = some x → x < n) →
      ∃ r, ∀ fuel, n ≤ fuel → OpTree.Child s fuel t k = some r) ∧
    (∀ a b, (s a).include_ = some b → (s b).include_ = some a →
      childGet (s a).children k = none → childGet (s b).children k = none →
      ∀ fuel, OpTree.Child s fuel a k = none) := by
  constructor
  · intro t n hac hfin
    have hend := includeAt_ends s t n hac hfin
    have hn : 0 < n := by
      rcases Nat.eq_zero_or_pos n with h0 | h0
      · subst h0; simp [includeAt] at hend
      · exact h0
    obtain ⟨m, rfl⟩ : ∃ m, n = m + 1 := ⟨n - 1, by omega⟩
    obtain ⟨r, hr⟩ := Child_returns s k m t (includeEnds_of_includeAt s m t hend)
    exact ⟨r, fun fuel hle => Child_fuel_le s k t r m hr fuel (by omega)⟩
  · intro a b hab hba hka hkb fuel
    exact (Child_cycle s a b k hab hba hka hkb fuel).1

/-- C35 at `includeStore`, where the chain from `show` is `show`, `common`,
`base`, and at `cycleStore`, where `a` and `b` include each other: there
`Child` finds the local child `x` of `a` and, through the include, the child
`y` of `b`, and does not return for `k`. -/
theorem Child_terminates_witness :
    (∃ r, ∀ fuel, 9 ≤ fuel → OpTree.Child includeStore fuel 0 "nothing" = some r) ∧
    OpTree.Child cycleStore 5 0 "x" = some (.ok 2) ∧
    OpTree.Child cycleStore 5 0 "y" = some (.ok 3) ∧
    (∀ fuel, OpTree.Child cycleStore fuel 0 "k" = none) :=
  ⟨(Child_terminates includeStore "nothing").1 0 9
      (by
        intro i j x hij hi hj
        match i, j with
        | 0, 1 => simp [includeAt, includeStore] at hi hj; omega
        | 0, 2 => simp [includeAt, includeStore] at hi hj; omega
        | 1, 2 => simp [includeAt, includeStore] at hi hj; omega
        | i, j + 3 =>
          have h3 : includeAt includeStore 0 3 = none := by simp [includeAt, includeStore]
          rw [includeAt_none_le includeStore 0 3 (j + 3) (by omega) h3] at hj
          cases hj
        | i + 1, 1 => omega
        | i + 2, 2 => omega
        | i, 0 => omega)
      (by
        intro i x hi
        match i with
        | 0 => simp [includeAt] at hi; omega
        | 1 => simp [includeAt, includeStore] at hi; omega
        | 2 => simp [includeAt, includeStore] at hi; omega
        | i + 3 =>
          have h3 : includeAt includeStore 0 3 = none := by simp [includeAt, includeStore]
          rw [includeAt_none_le includeStore 0 3 (i + 3) (by omega) h3] at hi
          cases hi),
    rfl, rfl,
    (Child_terminates cycleStore "k").2 0 1 rfl rfl rfl rfl⟩

/-! ## The index `Arguments()[0]` in `processopdcommand` -/

theorem commandScan_none (S : Schema) (sch : Nat) (tok : String) (ch : Nat) (chs : List Nat)
    (h : S.Arguments sch = []) : commandScan S sch tok (ch :: chs) = none := by
  simp [commandScan, h]

/-- At a command that has a child and an empty `Arguments` list, a further
token makes `processopdcommand` read `sch.Arguments()[0]` out of range. -/
theorem processopdcommand_panics (S : Schema) (auth : Option Authoriser) (sch : Nat)
    (tok : String) (rest : List String) (r : results)
    (hc : S.Children sch ≠ []) (ha : S.Arguments sch = []) :
    processopdcommand S auth sch (tok :: rest) r = none := by
  rw [processopdcommand]
  cases hch : S.Children sch with
  | nil => exact absurd hch hc
  | cons ch chs => rw [commandScan_none S sch tok ch chs ha]

/-- C39 as stated fails at `bareCommand`, whose command `show` has the child
`version` and an empty `Arguments` list: the token `show` alone is expanded,
but a token after it makes `processopdcommand` read `sch.Arguments()[0]` out of
range: `ExpandMatches` and `Expand` panic (`none`), whatever that token is. -/
theorem ExpandMatches_index_out_of_range :
    bareCommand.Kind 1 = .OpdCommand ∧ bareCommand.Children 1 = [2] ∧
    bareCommand.Arguments 1 = [] ∧
    ExpandMatches ⟨some bareCommand⟩ ["show"] none = some [[⟨"show", "", false⟩]] ∧
    ExpandMatches ⟨some bareCommand⟩ ["show", "version"] none = none ∧
    Expand ⟨some bareCommand⟩ ["show", "version"] none = none ∧
    (∀ tok rest, ExpandMatches ⟨some bareCommand⟩ ("show" :: tok :: rest) none = none) := by
  have hstep : ∀ tok rest, processnode bareCommand none (some bareCommand.root)
      ("show" :: tok :: rest) ⟨[], []⟩ = none := by
    intro tok rest
    have h1 : processnode bareCommand none (some bareCommand.root) ("show" :: tok :: rest)
        ⟨[], []⟩ =
        processnode bareCommand none (some 1) (tok :: rest) ⟨[[⟨1, false⟩]], ["show"]⟩ := by
      rw [processnode]
      simp only [bareCommand]
      rw [processchildren]
      simp [scanChildren, effChildren, effArgNm, HasPrefix, permitted, authorise]
    rw [h1, processnode]
    simp only [bareCommand]
    exact processopdcommand_panics _ none 1 tok rest _ (by simp) rfl
  refine ⟨rfl, rfl, rfl, ?_, ?_, ?_, ?_⟩
  · simp [ExpandMatches, processnode, processchildren, processopdcommand, bareCommand,
      scanChildren, effChildren, effArgNm, HasPrefix, permitted, authorise, commandScan,
      expandMatch.toMatch]
  · rw [ExpandMatches_eq, hstep]; rfl
  · rw [Expand_eq, hstep]
  · intro tok rest
    rw [ExpandMatches_eq, hstep]; rfl

/-! ## Tokens that match nothing, and denied exact matches -/

/-- With no name candidate and no argument child among the children
enumerated, the loop of `processchildren` keeps nothing. -/
theorem scanAt_nothing (S : Schema) (auth : Option Authoriser) (sch : Nat) (r : results)
    (val : String)
    (hnc : ∀ c ∈ effChildren S sch,
      nameCandidate S auth r.cpath (effArgNm S sch) val c = false)
    (hna : ∀ c ∈ effChildren S sch, S.Name c ≠ effArgNm S sch) :
    (scanAt S auth sch r val).matched = [] ∧ (scanAt S auth sch r val).argChild = none := by
  have hf : (effChildren S sch).find?
      (exactCandidate S auth r.cpath (effArgNm S sch) val) = none := by
    rw [List.find?_eq_none]
    intro c hc hx
    have := ((exactCandidate_iff S auth r.cpath _ val c).1 hx).1
    rw [hnc c hc] at this
    exact absurd this (by simp)
  constructor
  · rw [scanAt_matched_complete S auth sch r val hf]
    rw [List.filter_eq_nil_iff.2 (fun c hc => by rw [hnc c hc]; simp)]
    rfl
  · unfold scanAt
    rw [scanChildren_argChild S auth r.cpath _ val _ hf]
    rw [List.filter_eq_nil_iff.2 (fun c hc => by simpa using hna c hc)]
    rfl

/-- When the loop of `processchildren` keeps nothing for the token at the
cursor, the list for the token is empty and `Expand` reports the token
invalid. -/
theorem AtChildren.children_invalid {S : Schema} {auth : Option Authoriser}
    {path : List String} {sch : Nat} {r : results} (hat : AtChildren S auth path sch r)
    (val : String) (rest : List String) (htok : path.drop r.m.length = val :: rest)
    (hm : (scanAt S auth sch r val).matched = [])
    (ha : (scanAt S auth sch r val).argChild = none) :
    candidatesAt S auth sch r val = [] ∧
    (∀ ms, ExpandMatches ⟨some S⟩ path auth = some ms → ms[r.m.length]? = some []) ∧
    Expand ⟨some S⟩ path auth = some (.error (.CommandInval r.cpath val)) := by
  have hcand : candidatesAt S auth sch r val = [] := by simp [candidatesAt, hm, ha]
  refine ⟨hcand, ?_, ?_⟩
  · intro ms hms
    rw [hat.children_list val rest htok ms hms, hcand]
    rfl
  · obtain ⟨_, hget, _⟩ := drop_eq_cons path _ val rest htok
    rw [Expand_eq, hat.2, htok, processchildren_nomatch S auth sch val rest r hm ha]
    have h2 := hat.1.2
    unfold ProcessMatches results.matchLists at h2 ⊢
    simp only [List.map_append, List.map_cons, List.map_nil]
    rw [processMatchesLoop_append, h2]
    simp only [Nat.zero_add, List.length_map, processMatchesLoop, hget]

/-- C31, amended: at a cursor where no argument name is in force (the
`Arguments` list of the cursor, or of its parent when the cursor has no
children and has a parent, is empty) and none of the children enumerated has
the empty string as its name, a token that is neither the name nor a prefix of
the name of any permitted child gets the empty candidate list, and `Expand`
reports it invalid. -/
theorem Expand_invalid_without_argument (S : Schema) (auth : Option Authoriser)
    (path : List String) (sch : Nat) (r : results) (val : String) (rest : List String)
    (hat : AtChildren S auth path sch r)
    (htok : path.drop r.m.length = val :: rest)
    (hargs : effArgNm S sch = "")
    (hnames : ∀ c ∈ effChildren S sch, S.Name c ≠ "")
    (hnone : ∀ c ∈ effChildren S sch,
      permitted (authorise r.cpath (S.Name c) auth) = true →
        HasPrefix (S.Name c) val = false) :
    candidatesAt S auth sch r val = [] ∧
    (∀ ms, ExpandMatches ⟨some S⟩ path auth = some ms → ms[r.m.length]? = some []) ∧
    Expand ⟨some S⟩ path auth = some (.error (.CommandInval r.cpath val)) := by
  have hnc : ∀ c ∈ effChildren S sch,
      nameCandidate S auth r.cpath (effArgNm S sch) val c = false := by
    intro c hc
    cases hx : nameCandidate S auth r.cpath (effArgNm S sch) val c with
    | false => rfl
    | true =>
      obtain ⟨_, h2, h3⟩ := (nameCandidate_iff S auth r.cpath _ val c).1 hx
      rw [hnone c hc h3] at h2
      exact absurd h2 (by simp)
  obtain ⟨hm, ha⟩ := scanAt_nothing S auth sch r val hnc
    (fun c hc => by rw [hargs]; exact hnames c hc)
  exact hat.children_invalid val rest htok hm ha

theorem effArgNm_of_no_arguments (S : Schema) (sch : Nat) (h : S.Arguments sch = [])
    (hown : S.Children sch ≠ [] ∨ S.Parent sch = none) : effArgNm S sch = "" := by
  unfold effArgNm
  rcases hown with hc | hp
  · cases hch : S.Children sch with
    | nil => exact absurd hch hc
    | cons c cs => simp [h]
  · rw [hp]
    cases S.Children sch <;> simp [h]

/-- C31 at the schema of `TestExpandInvalid`: the model set declares no
argument, and `foo` is no prefix of the name of its child `test-command`. -/
theorem Expand_invalid_without_argument_witness :
    partialCommands.Arguments 0 = [] ∧
    Expand ⟨some partialCommands⟩ ["foo"] none = some (.error (.CommandInval [] "foo")) :=
  ⟨rfl, (Expand_invalid_without_argument partialCommands none ["foo"] 0 ⟨[], []⟩ "foo" []
    ((AtNode.root partialCommands none ["foo"]).toChildren (Or.inl rfl)) rfl
    (effArgNm_of_no_arguments partialCommands 0 rfl (Or.inr rfl))
    (by decide) (by decide)).2.2⟩

/-- C31 as stated fails at `emptyNameCommands`: the model set has an empty
`Arguments` list and `zzz` is neither the name nor a prefix of the name of any
of its children, yet the child whose name is the empty string is taken as the
argument child: the list for `zzz` is that child as an argument candidate, and
`Expand` returns `zzz`. -/
theorem Expand_empty_name_child_accepts :
    emptyNameCommands.Arguments 0 = [] ∧
    (∀ c ∈ emptyNameCommands.Children 0,
      emptyNameCommands.Name c ≠ "zzz" ∧ HasPrefix (emptyNameCommands.Name c) "zzz" = false) ∧
    ExpandMatches ⟨some emptyNameCommands⟩ ["zzz"] none = some [[⟨"", "", true⟩]] ∧
    Expand ⟨some emptyNameCommands⟩ ["zzz"] none = some (.ok ["zzz"]) := by
  have h : ExpandMatches ⟨some emptyNameCommands⟩ ["zzz"] none = some [[⟨"", "", true⟩]] := by
    simp [ExpandMatches, processnode, processchildren, processopdcommand, emptyNameCommands,
      scanChildren, effChildren, effArgNm, HasPrefix, permitted, authorise, commandScan,
      expandMatch.toMatch]
  refine ⟨rfl, by decide, h, ?_⟩
  rw [Expand, h]
  rfl

/-- C40: when a child of the cursor named exactly like the token is denied by
the authoriser and exactly one permitted non-argument child `c` has the token
as a prefix of its name, that child is another one, of a longer name; the
token is consumed with the single candidate `c`, the walk goes on from `c`, and
`Expand` emits the name of `c` for the token: it is not reported invalid. -/
theorem Expand_denied_exact_match (S : Schema) (auth : Option Authoriser)
    (path : List String) (sch : Nat) (r : results) (val : String) (rest : List String)
    (x c : Nat)
    (hat : AtChildren S auth path sch r)
    (htok : path.drop r.m.length = val :: rest)
    (_hx : x ∈ effChildren S sch) (hxn : S.Name x = val)
    (hxd : permitted (authorise r.cpath (S.Name x) auth) = false)
    (huniq : (effChildren S sch).filter
      (nameCandidate S auth r.cpath (effArgNm S sch) val) = [c]) :
    c ≠ x ∧ S.Name c ≠ val ∧ HasPrefix (S.Name c) val = true ∧
    candidatesAt S auth sch r val = [⟨c, false⟩] ∧
    AtNode S auth path (some c)
      { m := r.m ++ [[⟨c, false⟩]], cpath := r.cpath ++ [S.Name c] } ∧
    (∀ ms, ExpandMatches ⟨some S⟩ path auth = some ms →
      ms[r.m.length]? = some [⟨S.Name c, S.GetHelp c, false⟩]) ∧
    (rest = [] → Expand ⟨some S⟩ path auth = some (.ok (r.cpath ++ [S.Name c]))) ∧
    (∀ out, Expand ⟨some S⟩ path auth = some (.ok out) →
      out[r.m.length]? = some (S.Name c)) := by
  have hcm : c ∈ (effChildren S sch).filter
      (nameCandidate S auth r.cpath (effArgNm S sch) val) := by
    rw [huniq]; exact List.mem_singleton_self c
  obtain ⟨_, hnc⟩ := List.mem_filter.1 hcm
  obtain ⟨_, hpre, hperm⟩ := (nameCandidate_iff S auth r.cpath _ val c).1 hnc
  have hname : S.Name c ≠ val := by
    intro h
    rw [h, ← hxn, hxd] at hperm
    cases hperm
  obtain ⟨hm, hn⟩ := scanAt_unique S auth sch r val c huniq
  have hnode : AtNode S auth path (some c)
      { m := r.m ++ [[⟨c, false⟩]], cpath := r.cpath ++ [S.Name c] } :=
    hat.step val rest htok ⟨c, false⟩ (some c)
      (processchildren_single S auth sch val rest r c hm hn)
  refine ⟨fun h => hname (h ▸ hxn), hname, hpre, ?_, hnode, ?_, ?_,
    fun out hout => hnode.emitted out hout⟩
  · rw [candidatesAt_of_matched S auth sch r val (by rw [hm]; simp), hm]
  · intro ms hms
    rw [hnode.list ms hms]
    rfl
  · intro hrest
    subst hrest
    refine hnode.done ?_
    simp only [List.length_append, List.length_cons, List.length_nil]
    exact (drop_eq_cons path _ val [] htok).2.2

/-- C40 at `showCommands` with an authoriser that denies `show` alone: the
token `show` is expanded to `show-all`. -/
theorem Expand_denied_exact_match_witness :
    permitted (authorise [] "show" (some authoriseDenyShow)) = false ∧
    Expand ⟨some showCommands⟩ ["show"] (some authoriseDenyShow) = some (.ok ["show-all"]) :=
  ⟨by decide, (Expand_denied_exact_match showCommands (some authoriseDenyShow) ["show"] 0
    ⟨[], []⟩ "show" [] 1 2
    ((AtNode.root showCommands (some authoriseDenyShow) ["show"]).toChildren (Or.inl rfl)) rfl
    (by decide) rfl (by decide) (by decide)).2.2.2.2.2.2.1 rfl⟩

/-! ## The children a cursor enumerates -/

theorem processchildren_congr (S : Schema) (auth : Option Authoriser) (sch p : Nat)
    (path : List String) (r : results) (hc : effChildren S sch = effChildren S p)
    (ha : effArgNm S sch = effArgNm S p) :
    processchildren S auth sch path r = processchildren S auth p path r := by
  cases path with
  | nil => rw [processchildren_nil, processchildren_nil]
  | cons val rest =>
    rw [processchildren, processchildren]
    simp only [hc, ha]

/-- C32: at a cursor that has no children and has a parent, the loop of
`processchildren` runs over the children of the parent with the first entry of
the parent's `Arguments` as the argument name, and `processchildren` returns
what it returns on the parent (which has children: the cursor is one); at a
cursor that has children it runs over the cursor's own children with the
first entry of the cursor's own `Arguments`. -/
theorem processchildren_parent_children (S : Schema) (auth : Option Authoriser) (sch : Nat)
    (r : results) :
    (∀ p, S.Children sch = [] → S.Parent sch = some p →
      effChildren S sch = S.Children p ∧ effArgNm S sch = (S.Arguments p).headD "" ∧
      (∀ val, scanAt S auth sch r val =
        scanChildren S auth r.cpath ((S.Arguments p).headD "") val (S.Children p)
          ⟨none, none, []⟩) ∧
      (S.Children p ≠ [] →
        (∀ val, scanAt S auth sch r val = scanAt S auth p r val ∧
          candidatesAt S auth sch r val = candidatesAt S auth p r val) ∧
        ∀ path, processchildren S auth sch path r = processchildren S auth p path r)) ∧
    (S.Children sch ≠ [] →
      effChildren S sch = S.Children sch ∧ effArgNm S sch = (S.Arguments sch).headD "" ∧
      ∀ val, scanAt S auth sch r val =
        scanChildren S auth r.cpath ((S.Arguments sch).headD "") val (S.Children sch)
          ⟨none, none, []⟩) := by
  constructor
  · intro p hc hp
    have h1 : effChildren S sch = S.Children p := by simp [effChildren, hc, hp]
    have h2 : effArgNm S sch = (S.Arguments p).headD "" := by simp [effArgNm, hc, hp]
    refine ⟨h1, h2, fun val => by simp only [scanAt, h1, h2], ?_⟩
    intro hpc
    obtain ⟨h3, h4⟩ := effChildren_of_ne_nil S p hpc
    have hs : ∀ val, scanAt S auth sch r val = scanAt S auth p r val := by
      intro val
      simp only [scanAt, h1, h2, h3, h4]
    refine ⟨fun val => ⟨hs val, by simp only [candidatesAt, hs val]⟩, fun path => ?_⟩
    exact processchildren_congr S auth sch p path r (h1.trans h3.symm) (h2.trans h4.symm)
  · intro hne
    obtain ⟨h1, h2⟩ := effChildren_of_ne_nil S sch hne
    exact ⟨h1, h2, fun val => by simp only [scanAt, h1, h2]⟩

/-- C32 at `showCommands`: `show` (1) has no children and the model set (0) as
its parent; the token after `show` is matched against `show` and `show-all`,
the children of the model set, as it is at the model set itself. -/
theorem processchildren_parent_children_witness :
    effChildren showCommands 1 = [1, 2] ∧
    candidatesAt showCommands none 1 ⟨[[⟨1, false⟩]], ["show"]⟩ "show-a" = [⟨2, false⟩] ∧
    candidatesAt showCommands none 1 ⟨[[⟨1, false⟩]], ["show"]⟩ "show-a" =
      candidatesAt showCommands none 0 ⟨[[⟨1, false⟩]], ["show"]⟩ "show-a" :=
  ⟨((processchildren_parent_children showCommands none 1 ⟨[[⟨1, false⟩]], ["show"]⟩).1 0
      rfl rfl).1,
    by decide,
    ((((processchildren_parent_children showCommands none 1 ⟨[[⟨1, false⟩]], ["show"]⟩).1 0
      rfl rfl).2.2.2 (by decide)).1 "show-a").2⟩

/-! ## Argument candidates and the authoriser -/

/-- The loop of `processchildren` asks the authoriser about children whose
name is not the argument name only. -/
theorem scanChildren_auth_congr (S : Schema) (auth auth2 : Option Authoriser)
    (cpath : List String) (argNm val : String) (cs : List Nat)
    (h : ∀ c ∈ cs, S.Name c ≠ argNm →
      permitted (authorise cpath (S.Name c) auth) =
        permitted (authorise cpath (S.Name c) auth2)) :
    ∀ st, scanChildren S auth cpath argNm val cs st =
      scanChildren S auth2 cpath argNm val cs st := by
  induction cs with
  | nil => intro st; rfl
  | cons c cs ih =>
    intro st
    have ih2 := ih (fun d hd => h d (List.mem_cons_of_mem _ hd))
    rw [scanChildren, scanChildren]
    by_cases h1 : S.Name c = argNm
    · simp only [h1, if_true]; exact ih2 _
    · have hp := h c (List.mem_cons_self _ _) h1
      simp only [h1, if_false, hp, ih2]

/-- With no name candidate, the candidate list is the last child named by the
argument name, as an argument candidate. -/
theorem candidatesAt_argument (S : Schema) (auth : Option Authoriser) (sch : Nat)
    (r : results) (val : String)
    (hnc : ∀ c ∈ effChildren S sch,
      nameCandidate S auth r.cpath (effArgNm S sch) val c = false) :
    (scanAt S auth sch r val).matched = [] ∧
    (scanAt S auth sch r val).argChild =
      lastOr none ((effChildren S sch).filter (fun c => S.Name c == effArgNm S sch)) := by
  have hf : (effChildren S sch).find?
      (exactCandidate S auth r.cpath (effArgNm S sch) val) = none := by
    rw [List.find?_eq_none]
    intro c hc hx
    have := ((exactCandidate_iff S auth r.cpath _ val c).1 hx).1
    rw [hnc c hc] at this
    exact absurd this (by simp)
  constructor
  · rw [scanAt_matched_complete S auth sch r val hf]
    rw [List.filter_eq_nil_iff.2 (fun c hc => by rw [hnc c hc]; simp)]
    rfl
  · unfold scanAt
    rw [scanChildren_argChild S auth r.cpath _ val _ hf]

theorem nameCandidate_denyAll (S : Schema) (cpath : List String) (argNm val : String)
    (c : Nat) : nameCandidate S (some authoriseDenyAll) cpath argNm val c = false := by
  simp [nameCandidate, permitted, authorise, authoriseDenyAll]

theorem candidatesAt_eq_argument (S : Schema) (auth : Option Authoriser) (sch : Nat)
    (r : results) (val : String) (a : Nat)
    (h : candidatesAt S auth sch r val = [⟨a, true⟩]) :
    (scanAt S auth sch r val).matched = [] ∧ (scanAt S auth sch r val).argChild = some a := by
  unfold candidatesAt at h
  rcases hm : (scanAt S auth sch r val).matched with _ | ⟨m0, ms⟩
  · rw [hm] at h
    cases ha : (scanAt S auth sch r val).argChild with
    | none => rw [ha] at h; cases h
    | some a2 =>
      rw [ha] at h
      simp only [List.cons.injEq, expandMatch.mk.injEq, and_true] at h
      exact ⟨rfl, by rw [h]⟩
  · rw [hm] at h
    simp only at h
    have hm0 : m0 ∈ (scanAt S auth sch r val).matched := by rw [hm]; exact List.mem_cons_self _ _
    have := (scanAt_matched_sound S auth sch r val m0 hm0).1
    simp only [List.cons.injEq] at h
    rw [h.1] at this
    cases this

/-- C38: argument candidates are not submitted to the authoriser.  The loop
of `processchildren` gives the same result for two authorisers that answer
alike on the children whose name is not the argument name; a token accepted
as an argument value under one authoriser is accepted so under every
authoriser that permits no child the first denies; under the authoriser that
denies every path, every token is accepted as an argument value at a cursor
that has an argument child, and the walk goes on from that child; and an
option with a value type takes the next token as its value without asking. -/
theorem ExpandMatches_argument_not_authorised (S : Schema) (sch : Nat) (r : results)
    (val : String) :
    (∀ auth auth2 : Option Authoriser,
      (∀ c ∈ effChildren S sch, S.Name c ≠ effArgNm S sch →
        permitted (authorise r.cpath (S.Name c) auth) =
          permitted (authorise r.cpath (S.Name c) auth2)) →
      scanAt S auth sch r val = scanAt S auth2 sch r val) ∧
    (∀ (auth auth2 : Option Authoriser) (a : Nat),
      candidatesAt S auth sch r val = [⟨a, true⟩] →
      (∀ c ∈ effChildren S sch, permitted (authorise r.cpath (S.Name c) auth2) = true →
        permitted (authorise r.cpath (S.Name c) auth) = true) →
      candidatesAt S auth2 sch r val = [⟨a, true⟩]) ∧
    (∀ a ∈ effChildren S sch, S.Name a = effArgNm S sch →
      ∃ a2 ∈ effChildren S sch, S.Name a2 = effArgNm S sch ∧
        candidatesAt S (some authoriseDenyAll) sch r val = [⟨a2, true⟩] ∧
        ∀ rest, processchildren S (some authoriseDenyAll) sch (val :: rest) r =
          processnode S (some authoriseDenyAll) (some a2) rest
            { m := r.m ++ [[⟨a2, true⟩]], cpath := r.cpath ++ [val] }) ∧
    (∀ (auth : Option Authoriser) (rest : List String), S.Kind sch = .OpdOption →
      S.TypeIsEmpty sch = false →
      processnode S auth (some sch) (val :: rest) r =
        processchildren S auth sch rest
          { m := r.m ++ [[⟨sch, true⟩]], cpath := r.cpath ++ [val] }) := by
  refine ⟨?_, ?_, ?_, ?_⟩
  · intro auth auth2 h
    exact scanChildren_auth_congr S auth auth2 r.cpath _ val _ h _
  · intro auth auth2 a hc hle
    obtain ⟨hm, ha⟩ := candidatesAt_eq_argument S auth sch r val a hc
    have hno : ∀ c ∈ effChildren S sch,
        nameCandidate S auth r.cpath (effArgNm S sch) val c = false := by
      intro c hcm
      cases hx : nameCandidate S auth r.cpath (effArgNm S sch) val c with
      | false => rfl
      | true =>
        have hmem : (⟨c, false⟩ : expandMatch) ∈ (scanAt S auth sch r val).matched := by
          cases hf : (effChildren S sch).find?
              (exactCandidate S auth r.cpath (effArgNm S sch) val) with
          | some e =>
            rw [(scanAt_exact S auth sch r val e hf).1] at hm
            cases hm
          | none =>
            rw [scanAt_matched_complete S auth sch r val hf]
            exact List.mem_map.2 ⟨c, List.mem_filter.2 ⟨hcm, hx⟩, rfl⟩
        rw [hm] at hmem
        cases hmem
    have hno2 : ∀ c ∈ effChildren S sch,
        nameCandidate S auth2 r.cpath (effArgNm S sch) val c = false := by
      intro c hcm
      cases hx : nameCandidate S auth2 r.cpath (effArgNm S sch) val c with
      | false => rfl
      | true =>
        obtain ⟨h1, h2, h3⟩ := (nameCandidate_iff S auth2 r.cpath _ val c).1 hx
        have := (nameCandidate_iff S auth r.cpath _ val c).2 ⟨h1, h2, hle c hcm h3⟩
        rw [hno c hcm] at this
        cases this
    obtain ⟨_, ha1⟩ := candidatesAt_argument S auth sch r val hno
    obtain ⟨hm2, ha2⟩ := candidatesAt_argument S auth2 sch r val hno2
    rw [← ha1, ha] at ha2
    simp [candidatesAt, hm2, ha2]
  · intro a ham han
    have hno : ∀ c ∈ effChildren S sch,
        nameCandidate S (some authoriseDenyAll) r.cpath (effArgNm S sch) val c = false :=
      fun c _ => nameCandidate_denyAll S r.cpath _ val c
    obtain ⟨hm, ha⟩ := candidatesAt_argument S (some authoriseDenyAll) sch r val hno
    have hfil : (effChildren S sch).filter (fun c => S.Name c == effArgNm S sch) ≠ [] :=
      List.ne_nil_of_mem (List.mem_filter.2 ⟨ham, by simpa using han⟩)
    obtain ⟨a2, ha2m, hlast⟩ := lastOr_mem none _ hfil
    rw [hlast] at ha
    obtain ⟨h1, h2⟩ := List.mem_filter.1 ha2m
    refine ⟨a2, h1, by simpa using h2, by simp [candidatesAt, hm, ha], fun rest => ?_⟩
    exact processchildren_arg S (some authoriseDenyAll) sch val rest r a2 hm ha
  · intro auth rest hk ht
    exact processnode_option_typed S auth sch val rest r hk ht

theorem rootArgument_denied :
    ExpandMatches ⟨some rootArgument⟩ ["show"] (some authoriseDenyAll) =
      some [[⟨"host", "", true⟩]] := by
  simp [ExpandMatches, processnode, processchildren, processopdcommand, rootArgument,
    scanChildren, effChildren, effArgNm, HasPrefix, permitted, authorise, commandScan,
    expandMatch.toMatch, authoriseDenyAll]

/-- C38 at `rootArgument` with the authoriser that denies every path: the
command `show` is denied, and the token `show` is accepted as a value of the
argument `host`. -/
theorem ExpandMatches_argument_not_authorised_witness :
    permitted (authorise [] "show" (some authoriseDenyAll)) = false ∧
    (∃ a2, a2 ∈ effChildren rootArgument 0 ∧ rootArgument.Name a2 = "host" ∧
      candidatesAt rootArgument (some authoriseDenyAll) 0 ⟨[], []⟩ "show" = [⟨a2, true⟩]) ∧
    ExpandMatches ⟨some rootArgument⟩ ["show"] (some authoriseDenyAll) =
      some [[⟨"host", "", true⟩]] ∧
    Expand ⟨some rootArgument⟩ ["show"] (some authoriseDenyAll) = some (.ok ["show"]) :=
  ⟨by decide,
    ((ExpandMatches_argument_not_authorised rootArgument 0 ⟨[], []⟩ "show").2.2.1 1
      (by decide) rfl).imp (fun _ h => ⟨h.1, h.2.1, h.2.2.1⟩),
    rootArgument_denied, by rw [Expand, rootArgument_denied]; rfl⟩

/-! ## The walk of `ExpandMatches`, token by token -/

theorem commandScan_eq_none_iff (S : Schema) (sch : Nat) (tok : String) (chs : List Nat) :
    commandScan S sch tok chs = none ↔ chs ≠ [] ∧ S.Arguments sch = [] := by
  constructor
  · intro h
    cases chs with
    | nil => simp [commandScan] at h
    | cons ch chs =>
      refine ⟨by simp, ?_⟩
      by_contra ha
      obtain ⟨b, hb⟩ := commandScan_returns S sch tok (ch :: chs) (Or.inl ha)
      rw [h] at hb
      cases hb
  · rintro ⟨hc, ha⟩
    cases chs with
    | nil => exact absurd rfl hc
    | cons ch chs => exact commandScan_none S sch tok ch chs ha

theorem processopdcommand_cons (S : Schema) (auth : Option Authoriser) (x : Nat)
    (tok : String) (rest : List String) (r : results) :
    processopdcommand S auth x (tok :: rest) r =
      if S.Children x ≠ [] ∧ S.Arguments x = [] then none
      else processchildren S auth x (tok :: rest) r := by
  rw [processopdcommand]
  by_cases h : S.Children x ≠ [] ∧ S.Arguments x = []
  · rw [if_pos h, (commandScan_eq_none_iff S x tok _).2 h]
  · rw [if_neg h]
    cases hs : commandScan S x tok (S.Children x) with
    | none => exact absurd ((commandScan_eq_none_iff S x tok _).1 hs) h
    | some b => rfl

/-- C39, amended: on a schema in which every command and every option that
has a child has an `Arguments` list that is not empty, `ExpandMatches` and
`Expand` read within range and return, for every path and authoriser, and at a
command that has a child the next token is processed and its candidate list
appended; so they do with no schema loaded.  At a command cursor in general,
the next token is processed by `processchildren` unless the command has a
child and an empty `Arguments` list: there `processopdcommand` reads
`sch.Arguments()[0]` out of range. -/
theorem ExpandMatches_in_range (S : Schema) (auth : Option Authoriser) :
    ((∀ x, (S.Kind x = .OpdCommand ∨ S.Kind x = .OpdOption) →
        S.Children x ≠ [] → S.Arguments x ≠ []) →
      (∀ path, (∃ ms, ExpandMatches ⟨some S⟩ path auth = some ms) ∧
        ∃ res, Expand ⟨some S⟩ path auth = some res) ∧
      ∀ x tok rest r, S.Kind x = .OpdCommand → S.Children x ≠ [] →
        ∃ rf ext, processnode S auth (some x) (tok :: rest) r = some rf ∧
          rf.m = r.m ++ candidatesAt S auth x r tok :: ext) ∧
    (∀ path, ExpandMatches ⟨none⟩ path auth = some [] ∧
      Expand ⟨none⟩ path auth = some (.ok [])) ∧
    (∀ x tok rest r, S.Kind x = .OpdCommand →
      processnode S auth (some x) (tok :: rest) r =
        if S.Children x ≠ [] ∧ S.Arguments x = [] then none
        else processchildren S auth x (tok :: rest) r) := by
  have hcmd : ∀ x tok rest r, S.Kind x = .OpdCommand →
      processnode S auth (some x) (tok :: rest) r =
        if S.Children x ≠ [] ∧ S.Arguments x = [] then none
        else processchildren S auth x (tok :: rest) r := by
    intro x tok rest r hk
    rw [processnode]
    simp only [hk]
    exact processopdcommand_cons S auth x tok rest r
  refine ⟨fun hargs => ⟨fun path => ?_, ?_⟩, fun path => ⟨rfl, rfl⟩, hcmd⟩
  · obtain ⟨rf, hrf⟩ := processnode_returns S auth hargs (some S.root) path ⟨[], []⟩
    refine ⟨⟨_, by rw [ExpandMatches_eq, hrf]; rfl⟩, ?_⟩
    rw [Expand_eq, hrf]
    obtain ⟨ext, hext, hlen, _⟩ := processnode_lists S auth _ path _ rf hrf
    simp only [List.nil_append] at hext
    exact processMatchesLoop_returns path _ 0 []
      (by simp only [results.matchLists, List.length_map, hext]; omega)
  · intro x tok rest r hk hc
    obtain ⟨rf, hrf⟩ := processnode_returns S auth hargs (some x) (tok :: rest) r
    have hne : ¬ (S.Children x ≠ [] ∧ S.Arguments x = []) :=
      fun h => hargs x (Or.inl hk) hc h.2
    have hp := hcmd x tok rest r hk
    rw [if_neg hne, hrf] at hp
    obtain ⟨ext, hext⟩ := processchildren_cons_m S auth x tok rest r rf hp.symm
    exact ⟨rf, ext, hrf, hext⟩

/-- C39 at `flaggedCommands`, whose one command with children declares its
argument: `ExpandMatches` and `Expand` return on `test-command x y`. -/
theorem ExpandMatches_in_range_witness :
    (∀ x, (flaggedCommands.Kind x = .OpdCommand ∨ flaggedCommands.Kind x = .OpdOption) →
      flaggedCommands.Children x ≠ [] → flaggedCommands.Arguments x ≠ []) ∧
    (∃ ms, ExpandMatches ⟨some flaggedCommands⟩ ["test-command", "x", "y"] none = some ms) ∧
    ∃ res, Expand ⟨some flaggedCommands⟩ ["test-command", "x", "y"] none = some res :=
  ⟨flaggedCommands_arguments,
    ((ExpandMatches_in_range flaggedCommands none).1 flaggedCommands_arguments).1
      ["test-command", "x", "y"]⟩

/-- What `processnode` does with a path that is not empty depends on the node
and not on the tokens: it returns its results as they are (the node is of no
kind the switch knows), it panics, it goes to `processchildren` with the same
path, or (an option with a value type) it takes the first token as the value
and goes to `processchildren` with the rest. -/
theorem processnode_cons_cases (S : Schema) (auth : Option Authoriser) (x : Nat) :
    (S.Kind x = .Other ∧ ∀ (p : List String) (r : results),
      processnode S auth (some x) p r = some r) ∨
    (∀ (val : String) (rest : List String) (r : results),
      processnode S auth (some x) (val :: rest) r = none) ∨
    (∀ (p : List String) (r : results),
      processnode S auth (some x) p r = processchildren S auth x p r) ∨
    (∀ (val : String) (rest : List String) (r : results),
      processnode S auth (some x) (val :: rest) r =
        processchildren S auth x rest
          { m := r.m ++ [[⟨x, true⟩]], cpath := r.cpath ++ [val] }) := by
  have hcmd : (∀ (p : List String) (r : results),
      processnode S auth (some x) p r = processopdcommand S auth x p r) →
      (∀ (val : String) (rest : List String) (r : results),
        processnode S auth (some x) (val :: rest) r = none) ∨
      (∀ (p : List String) (r : results),
        processnode S auth (some x) p r = processchildren S auth x p r) := by
    intro h
    by_cases hc : S.Children x ≠ [] ∧ S.Arguments x = []
    · left
      intro val rest r
      rw [h, processopdcommand_cons, if_pos hc]
    · right
      intro p r
      rw [h]
      cases p with
      | nil => rw [processchildren_nil, processopdcommand]
      | cons tok rest => rw [processopdcommand_cons, if_neg hc]
  cases hk : S.Kind x with
  | Tree =>
    right; right; left
    intro p r
    rw [processnode]; simp only [hk]
  | OpdArgument =>
    right; right; left
    intro p r
    rw [processnode]; simp only [hk]
  | Other =>
    left
    refine ⟨rfl, fun p r => ?_⟩
    rw [processnode]; simp only [hk]
  | OpdCommand =>
    right
    rcases hcmd (fun p r => by rw [processnode]; simp only [hk]) with h | h
    · exact Or.inl h
    · exact Or.inr (Or.inl h)
  | OpdOption =>
    right
    cases ht : S.TypeIsEmpty x with
    | false =>
      right; right
      intro val rest r
      exact processnode_option_typed S auth x val rest r hk ht
    | true =>
      rcases hcmd (fun p r => by
        cases p with
        | nil => rw [processnode_nil, processopdcommand]
        | cons v rs =>
          rw [processnode]; simp only [hk]
          rw [processopdoption]; simp [ht]) with h | h
      · exact Or.inl h
      · exact Or.inr (Or.inl h)

/-- The node the walk goes on from after a single name match is the node
matched. -/
theorem scanAt_nextNode_of_one (S : Schema) (auth : Option Authoriser) (sch : Nat)
    (r : results) (val : String) (m0 : expandMatch)
    (hm : (scanAt S auth sch r val).matched = [m0]) :
    (scanAt S auth sch r val).nextNode = some m0.node := by
  cases hf : (effChildren S sch).find?
      (exactCandidate S auth r.cpath (effArgNm S sch) val) with
  | some e =>
    obtain ⟨h1, h2⟩ := scanAt_exact S auth sch r val e hf
    rw [h1] at hm
    simp only [List.cons.injEq, and_true] at hm
    rw [h2, ← hm]
  | none =>
    have h1 := scanAt_matched_complete S auth sch r val hf
    rw [hm] at h1
    unfold scanAt
    rw [scanChildren_nextNode, hf]
    simp only
    cases hfl : (effChildren S sch).filter
        (nameCandidate S auth r.cpath (effArgNm S sch) val) with
    | nil => rw [hfl] at h1; cases h1
    | cons c cs =>
      rw [hfl] at h1
      cases cs with
      | nil =>
        simp only [List.map_cons, List.map_nil, List.cons.injEq, and_true] at h1
        rw [h1]; rfl
      | cons c2 cs => simp at h1

/-- In a list of several name matches none is named exactly like the token. -/
theorem scanAt_several_not_exact (S : Schema) (auth : Option Authoriser) (sch : Nat)
    (r : results) (val : String) (m1 m2 : expandMatch) (ms : List expandMatch)
    (hm : (scanAt S auth sch r val).matched = m1 :: m2 :: ms) :
    ∀ e ∈ (scanAt S auth sch r val).matched, S.Name e.node ≠ val := by
  cases hf : (effChildren S sch).find?
      (exactCandidate S auth r.cpath (effArgNm S sch) val) with
  | some x =>
    rw [(scanAt_exact S auth sch r val x hf).1] at hm
    simp at hm
  | none =>
    intro e he hname
    obtain ⟨_, hmem, hnc⟩ := scanAt_matched_sound S auth sch r val e he
    have hex := (exactCandidate_iff S auth r.cpath (effArgNm S sch) val e.node).2 ⟨hnc, hname⟩
    have := List.find?_eq_none.1 hf e.node hmem
    exact this hex

theorem ListsComplete_cons (val : String) (rest : List String) (l : List expandMatch)
    (ls : List (List expandMatch)) (h : ListsComplete rest ls) :
    ListsComplete (val :: rest) (l :: ls) := by
  rcases h with h | ⟨l2, h1, h2⟩
  · left; simp [h]
  · right
    cases ls with
    | nil => simp at h1
    | cons a as => exact ⟨l2, by rw [List.getLast?_cons_cons]; exact h1, h2⟩

theorem ListsFor_nil (S : Schema) (p : List String) : ListsFor S p [] := by
  cases p <;> trivial

theorem ListFor_argument (S : Schema) (tok : String) (a : Nat) :
    ListFor S tok [⟨a, true⟩] :=
  ⟨fun e he => Or.inl (by simp only [List.mem_singleton] at he; rw [he]),
    fun h => by simp at h⟩

theorem ListFor_matched (S : Schema) (auth : Option Authoriser) (sch : Nat) (r : results)
    (val : String) : ListFor S val (scanAt S auth sch r val).matched := by
  constructor
  · intro e he
    obtain ⟨_, hmem, hnc⟩ := scanAt_matched_sound S auth sch r val e he
    exact Or.inr ⟨((nameCandidate_iff S auth r.cpath _ val e.node).1 hnc).2.1, sch, hmem⟩
  · intro hlen e he
    rcases hm : (scanAt S auth sch r val).matched with _ | ⟨m1, _ | ⟨m2, ms⟩⟩
    · rw [hm] at hlen; simp at hlen
    · rw [hm] at hlen; simp at hlen
    · exact ⟨(scanAt_matched_sound S auth sch r val e he).1,
        scanAt_several_not_exact S auth sch r val m1 m2 ms hm e he⟩

/-- From the property of `processchildren` on paths of length at most `n` that
the lists it appends fit the tokens, the same property of `processnode`. -/
theorem processnode_fits_of (S : Schema) (auth : Option Authoriser) (n : Nat)
    (ih : ∀ path : List String, path.length ≤ n → ∀ sch r rf,
      processchildren S auth sch path r = some rf →
        ∃ ext, rf.m = r.m ++ ext ∧ ListsFor S path ext ∧
          ((∀ x, S.Kind x ≠ .Other) → ListsComplete path ext))
    (path : List String) (hlen : path.length ≤ n) (x : Nat) (r rf : results)
    (h : processnode S auth (some x) path r = some rf) :
    ∃ ext, rf.m = r.m ++ ext ∧ ListsFor S path ext ∧
      ((∀ x, S.Kind x ≠ .Other) → ListsComplete path ext) := by
  cases path with
  | nil =>
    rw [processnode_nil] at h
    simp only [Option.some.injEq] at h
    subst h
    exact ⟨[], by simp, trivial, fun _ => Or.inl rfl⟩
  | cons val rest =>
    rcases processnode_cons_cases S auth x with ⟨hk, h1⟩ | h1 | h1 | h1
    · rw [h1] at h
      simp only [Option.some.injEq] at h
      subst h
      exact ⟨[], by simp, trivial, fun hno => absurd hk (hno x)⟩
    · rw [h1] at h; cases h
    · rw [h1] at h; exact ih _ hlen x r rf h
    · rw [h1] at h
      obtain ⟨ext, he, hf, hc⟩ := ih rest (by simp at hlen; omega) x _ rf h
      exact ⟨[⟨x, true⟩] :: ext, by simp [he], ⟨ListFor_argument S val x, hf⟩,
        fun hno => ListsComplete_cons val rest _ ext (hc hno)⟩

theorem processchildren_fits_aux (S : Schema) (auth : Option Authoriser) :
    ∀ n, ∀ path : List String, path.length ≤ n → ∀ sch r rf,
      processchildren S auth sch path r = some rf →
        ∃ ext, rf.m = r.m ++ ext ∧ ListsFor S path ext ∧
          ((∀ x, S.Kind x ≠ .Other) → ListsComplete path ext) := by
  intro n
  induction n with
  | zero =>
    intro path hlen sch r rf h
    have hp : path = [] := List.length_eq_zero.1 (Nat.le_zero.1 hlen)
    subst hp
    rw [processchildren_nil] at h
    simp only [Option.some.injEq] at h
    subst h
    exact ⟨[], by simp, trivial, fun _ => Or.inl rfl⟩
  | succ n ih =>
    intro path hlen sch r rf h
    cases path with
    | nil =>
      rw [processchildren_nil] at h
      simp only [Option.some.injEq] at h
      subst h
      exact ⟨[], by simp, trivial, fun _ => Or.inl rfl⟩
    | cons val rest =>
      have hrest : rest.length ≤ n := by simp at hlen; omega
      rcases hm : (scanAt S auth sch r val).matched with _ | ⟨m0, _ | ⟨m1, ms⟩⟩
      · cases ha : (scanAt S auth sch r val).argChild with
        | none =>
          rw [processchildren_nomatch S auth sch val rest r hm ha] at h
          simp only [Option.some.injEq] at h
          subst h
          refine ⟨[[]], rfl,
            ⟨⟨fun e he => (by cases he), fun hl => (by simp at hl)⟩, ListsFor_nil S rest⟩,
            fun _ => Or.inr ⟨[], rfl, by simp⟩⟩
        | some a =>
          rw [processchildren_arg S auth sch val rest r a hm ha] at h
          obtain ⟨ext, he, hf, hc⟩ := processnode_fits_of S auth n ih rest hrest a _ rf h
          exact ⟨[⟨a, true⟩] :: ext, by simp [he], ⟨ListFor_argument S val a, hf⟩,
            fun hno => ListsComplete_cons val rest _ ext (hc hno)⟩
      · rw [processchildren_one S auth sch val rest r m0 hm,
          scanAt_nextNode_of_one S auth sch r val m0 hm] at h
        obtain ⟨ext, he, hf, hc⟩ := processnode_fits_of S auth n ih rest hrest _ _ rf h
        have hl := ListFor_matched S auth sch r val
        rw [hm] at hl
        exact ⟨[m0] :: ext, by simp [he], ⟨hl, hf⟩,
          fun hno => ListsComplete_cons val rest _ ext (hc hno)⟩
      · rw [processchildren_several S auth sch val rest r m0 m1 ms hm] at h
        simp only [Option.some.injEq] at h
        subst h
        have hl := ListFor_matched S auth sch r val
        rw [hm] at hl
        exact ⟨[m0 :: m1 :: ms], rfl, ⟨hl, ListsFor_nil S rest⟩,
          fun _ => Or.inr ⟨_, rfl, by simp⟩⟩

/-- The lists `processnode` appends fit the tokens of its path, and cover the
path or end in a list that is not of one candidate when every node is of a
kind the switch knows. -/
theorem processnode_fits (S : Schema) (auth : Option Authoriser) (x : Nat)
    (path : List String) (r rf : results)
    (h : processnode S auth (some x) path r = some rf) :
    ∃ ext, rf.m = r.m ++ ext ∧ ListsFor S path ext ∧
      ((∀ x, S.Kind x ≠ .Other) → ListsComplete path ext) :=
  processnode_fits_of S auth path.length
    (fun p _ sch r rf => processchildren_fits_aux S auth p.length p (Nat.le_refl _) sch r rf)
    path (Nat.le_refl _) x r rf h

theorem ListsFor_length (S : Schema) (ls : List (List expandMatch)) :
    ∀ p, ListsFor S p ls → ls.length ≤ p.length := by
  induction ls with
  | nil => intro p _; exact Nat.zero_le _
  | cons l ls ih =>
    intro p h
    cases p with
    | nil => exact absurd h (by simp [ListsFor])
    | cons tok p =>
      simp only [ListsFor] at h
      simp only [List.length_cons]
      exact Nat.succ_le_succ (ih p h.2)

theorem emitTokens_length (S : Schema) (ls : List (List expandMatch)) :
    ∀ p, ls.length ≤ p.length → (emitTokens S p ls).length = ls.length := by
  induction ls with
  | nil => intro p _; cases p <;> rfl
  | cons l ls ih =>
    intro p h
    cases p with
    | nil => simp at h
    | cons tok p =>
      simp only [emitTokens, List.length_cons]
      rw [ih p (by simpa using h)]

/-- When the loop of `ProcessMatches` returns a path for lists that fit the
tokens, every list is of one candidate and the path is what `emitTokens`
gives. -/
theorem processMatchesLoop_emits (S : Schema) (path : List String)
    (ls : List (List expandMatch)) :
    ∀ (p : List String) (idx : Nat) (epath q : List String), path.drop idx = p →
      ListsFor S p ls →
      processMatchesLoop path idx epath (ls.map (List.map (expandMatch.toMatch S))) =
        some (.ok q) →
      (∀ l ∈ ls, l.length = 1) ∧ q = epath ++ emitTokens S p ls := by
  induction ls with
  | nil =>
    intro p idx epath q _ _ h
    simp only [List.map_nil, processMatchesLoop, Option.some.injEq, Except.ok.injEq] at h
    refine ⟨fun l hl => (by cases hl), ?_⟩
    cases p <;> simp [emitTokens, h]
  | cons l ls ih =>
    intro p idx epath q hp hf h
    cases p with
    | nil => exact absurd hf (by simp [ListsFor])
    | cons tok p =>
      obtain ⟨_, hget, hdrop⟩ := drop_eq_cons path idx tok p hp
      simp only [ListsFor] at hf
      obtain ⟨hl, hls⟩ := hf
      rcases l with _ | ⟨e, _ | ⟨e2, es⟩⟩
      · simp [processMatchesLoop, hget] at h
      · simp only [List.map_cons, List.map_nil, processMatchesLoop, expandMatch.toMatch,
          hget] at h
        cases hi : e.isarg with
        | true =>
          simp only [hi, if_true] at h
          obtain ⟨h1, h2⟩ := ih p (idx + 1) _ q hdrop hls h
          refine ⟨fun l hl => ?_, ?_⟩
          · rcases List.mem_cons.1 hl with rfl | hl
            · rfl
            · exact h1 l hl
          · rw [h2]; simp [emitTokens, emitToken, hi]
        | false =>
          simp only [hi, Bool.false_eq_true, if_false] at h
          obtain ⟨h1, h2⟩ := ih p (idx + 1) _ q hdrop hls h
          refine ⟨fun l hl => ?_, ?_⟩
          · rcases List.mem_cons.1 hl with rfl | hl
            · rfl
            · exact h1 l hl
          · rw [h2]; simp [emitTokens, emitToken, hi]
      · exfalso
        have hno : ∀ c ∈ (e :: e2 :: es).map (expandMatch.toMatch S),
            c.Name ≠ tok ∧ c.IsArg = false := by
          intro c hc
          obtain ⟨e0, he0, rfl⟩ := List.mem_map.1 hc
          obtain ⟨h1, h2⟩ := hl.2 (by simp) e0 he0
          exact ⟨h2, h1⟩
        simp only [List.map_cons] at hno h
        rw [processMatchesLoop_several_none path idx epath _ _ _ _ tok hget hno] at h
        cases h

/-- On lists of one candidate each, no more than tokens left, the loop of
`ProcessMatches` returns the path `emitTokens` gives. -/
theorem processMatchesLoop_of_single (S : Schema) (path : List String)
    (ls : List (List expandMatch)) :
    ∀ (p : List String) (idx : Nat) (epath : List String), path.drop idx = p →
      ls.length ≤ p.length → (∀ l ∈ ls, l.length = 1) →
      processMatchesLoop path idx epath (ls.map (List.map (expandMatch.toMatch S))) =
        some (.ok (epath ++ emitTokens S p ls)) := by
  induction ls with
  | nil =>
    intro p idx epath _ _ _
    cases p <;> simp [emitTokens, processMatchesLoop]
  | cons l ls ih =>
    intro p idx epath hp hlen hone
    cases p with
    | nil => simp at hlen
    | cons tok p =>
      obtain ⟨_, hget, hdrop⟩ := drop_eq_cons path idx tok p hp
      have hl := hone l (List.mem_cons_self _ _)
      have hls : ∀ l2 ∈ ls, l2.length = 1 := fun l2 h2 => hone l2 (List.mem_cons_of_mem _ h2)
      rcases l with _ | ⟨e, _ | ⟨e2, es⟩⟩
      · simp at hl
      · simp only [List.map_cons, List.map_nil, processMatchesLoop, expandMatch.toMatch, hget]
        cases hi : e.isarg with
        | true =>
          simp only [if_true]
          rw [ih p (idx + 1) _ hdrop (by simpa using hlen) hls]
          simp [emitTokens, emitToken, hi]
        | false =>
          simp only [Bool.false_eq_true, if_false]
          rw [ih p (idx + 1) _ hdrop (by simpa using hlen) hls]
          simp [emitTokens, emitToken, hi]
      · simp at hl

/-! ## Walking the expanded path again -/

theorem find?_of_unique {α : Type} (p : α → Bool) (c : α) :
    ∀ l : List α, c ∈ l → p c = true → (∀ d ∈ l, p d = true → d = c) →
      l.find? p = some c := by
  intro l
  induction l with
  | nil => intro h; cases h
  | cons a l ih =>
    intro hc hp hu
    rw [List.find?_cons]
    cases hpa : p a with
    | true =>
      simp only
      rw [hu a (List.mem_cons_self _ _) hpa]
    | false =>
      simp only
      rcases List.mem_cons.1 hc with h | h
      · rw [← h, hp] at hpa; cases hpa
      · exact ih h hp (fun d hd => hu d (List.mem_cons_of_mem _ hd))

/-- When the loop of `processchildren` keeps the single name match `m0` for a
token, it keeps the same for the name of `m0` as the token. -/
theorem scanAt_of_name (S : Schema) (auth : Option Authoriser) (sch : Nat) (r : results)
    (val : String) (m0 : expandMatch)
    (hm : (scanAt S auth sch r val).matched = [m0]) :
    (scanAt S auth sch r (S.Name m0.node)).matched = [m0] ∧
      (scanAt S auth sch r (S.Name m0.node)).nextNode = some m0.node := by
  have hmem : m0 ∈ (scanAt S auth sch r val).matched := by rw [hm]; exact List.mem_singleton_self _
  obtain ⟨hna, hch, hnc⟩ := scanAt_matched_sound S auth sch r val m0 hmem
  have hm0 : m0 = ⟨m0.node, false⟩ := by
    cases m0 with
    | mk node isarg => simp only at hna; rw [hna]
  obtain ⟨h1, h2, h3⟩ := (nameCandidate_iff S auth r.cpath _ val m0.node).1 hnc
  have hself : exactCandidate S auth r.cpath (effArgNm S sch) (S.Name m0.node) m0.node = true :=
    (exactCandidate_iff S auth r.cpath _ _ m0.node).2
      ⟨(nameCandidate_iff S auth r.cpath _ _ m0.node).2 ⟨h1, HasPrefix_self _, h3⟩, rfl⟩
  have hfind : (effChildren S sch).find?
      (exactCandidate S auth r.cpath (effArgNm S sch) (S.Name m0.node)) = some m0.node := by
    cases hf : (effChildren S sch).find?
        (exactCandidate S auth r.cpath (effArgNm S sch) val) with
    | some e =>
      have he := (scanAt_exact S auth sch r val e hf).1
      rw [hm] at he
      simp only [List.cons.injEq, and_true] at he
      have hem : e = m0.node := by rw [he]
      have hee := (exactCandidate_iff S auth r.cpath _ val e).1 (List.find?_some hf)
      have hval : S.Name m0.node = val := by rw [← hem]; exact hee.2
      rw [hval, ← hem]
      exact hf
    | none =>
      apply find?_of_unique _ _ _ hch hself
      intro d hd hde
      obtain ⟨hdn, hdname⟩ := (exactCandidate_iff S auth r.cpath _ _ d).1 hde
      obtain ⟨d1, _, d3⟩ := (nameCandidate_iff S auth r.cpath _ _ d).1 hdn
      have hdc : nameCandidate S auth r.cpath (effArgNm S sch) val d = true :=
        (nameCandidate_iff S auth r.cpath _ val d).2 ⟨d1, by rw [hdname]; exact h2, d3⟩
      have hfl := scanAt_matched_complete S auth sch r val hf
      rw [hm] at hfl
      have hdm : (⟨d, false⟩ : expandMatch) ∈
          ((effChildren S sch).filter
            (nameCandidate S auth r.cpath (effArgNm S sch) val)).map (fun c => ⟨c, false⟩) :=
        List.mem_map.2 ⟨d, List.mem_filter.2 ⟨hd, hdc⟩, rfl⟩
      rw [← hfl] at hdm
      simp only [List.mem_singleton] at hdm
      rw [← hdm]
  obtain ⟨e1, e2⟩ := scanAt_exact S auth sch r _ m0.node hfind
  exact ⟨by rw [e1, ← hm0], e2⟩

theorem ext_of_append (m : List (List expandMatch)) (l : List expandMatch)
    (ext ext1 : List (List expandMatch)) (rm : List (List expandMatch))
    (h : rm = m ++ ext) (h1 : rm = (m ++ [l]) ++ ext1) : ext = l :: ext1 := by
  rw [h1, List.append_assoc] at h
  exact (List.append_cancel_left h).symm

/-- From the property of `processchildren` on paths of length at most `n` that
the walk on the tokens emitted returns the same results, the same property of
`processnode`. -/
theorem processnode_rewalk_of (S : Schema) (auth : Option Authoriser) (n : Nat)
    (ih : ∀ path : List String, path.length ≤ n → ∀ sch r rf ext,
      processchildren S auth sch path r = some rf → rf.m = r.m ++ ext →
        (∀ l ∈ ext, l.length = 1) →
        processchildren S auth sch (emitTokens S path ext) r = some rf)
    (path : List String) (hlen : path.length ≤ n) (x : Nat) (r rf : results)
    (ext : List (List expandMatch))
    (h : processnode S auth (some x) path r = some rf) (he : rf.m = r.m ++ ext)
    (hone : ∀ l ∈ ext, l.length = 1) :
    processnode S auth (some x) (emitTokens S path ext) r = some rf := by
  cases path with
  | nil =>
    rw [processnode_nil] at h
    simp only [emitTokens]
    rw [processnode_nil]
    exact h
  | cons val rest =>
    rcases processnode_cons_cases S auth x with ⟨_, h1⟩ | h1 | h1 | h1
    · rw [h1] at h ⊢; exact h
    · rw [h1] at h; cases h
    · rw [h1] at h ⊢; exact ih _ hlen x r rf ext h he hone
    · rw [h1] at h
      obtain ⟨ext1, he1, _⟩ := processchildren_grows S auth x rest _ rf h
      have hext := ext_of_append r.m _ ext ext1 rf.m he he1
      subst hext
      have hone1 : ∀ l ∈ ext1, l.length = 1 := fun l hl => hone l (List.mem_cons_of_mem _ hl)
      simp only [emitTokens, emitToken, if_true]
      rw [h1]
      exact ih rest (by simp at hlen; omega) x _ rf ext1 h he1 hone1

theorem processchildren_rewalk_aux (S : Schema) (auth : Option Authoriser) :
    ∀ n, ∀ path : List String, path.length ≤ n → ∀ sch r rf ext,
      processchildren S auth sch path r = some rf → rf.m = r.m ++ ext →
        (∀ l ∈ ext, l.length = 1) →
        processchildren S auth sch (emitTokens S path ext) r = some rf := by
  intro n
  induction n with
  | zero =>
    intro path hlen sch r rf ext h _ _
    have hp : path = [] := List.length_eq_zero.1 (Nat.le_zero.1 hlen)
    subst hp
    simp only [emitTokens]
    exact h
  | succ n ih =>
    intro path hlen sch r rf ext h he hone
    cases path with
    | nil => simp only [emitTokens]; exact h
    | cons val rest =>
      have hrest : rest.length ≤ n := by simp at hlen; omega
      rcases hm : (scanAt S auth sch r val).matched with _ | ⟨m0, _ | ⟨m1, ms⟩⟩
      · cases ha : (scanAt S auth sch r val).argChild with
        | none =>
          rw [processchildren_nomatch S auth sch val rest r hm ha] at h
          simp only [Option.some.injEq] at h
          subst h
          have hext := ext_of_append r.m [] ext [] _ he (by simp)
          subst hext
          have := hone [] (List.mem_singleton_self _)
          simp at this
        | some a =>
          rw [processchildren_arg S auth sch val rest r a hm ha] at h
          obtain ⟨ext1, he1, _⟩ := processnode_grows S auth _ rest _ rf h
          have hext := ext_of_append r.m _ ext ext1 rf.m he he1
          subst hext
          have hone1 : ∀ l ∈ ext1, l.length = 1 :=
            fun l hl => hone l (List.mem_cons_of_mem _ hl)
          simp only [emitTokens, emitToken, if_true]
          rw [processchildren_arg S auth sch val _ r a hm ha]
          exact processnode_rewalk_of S auth n ih rest hrest a _ rf ext1 h he1 hone1
      · have hnx := scanAt_nextNode_of_one S auth sch r val m0 hm
        rw [processchildren_one S auth sch val rest r m0 hm, hnx] at h
        obtain ⟨ext1, he1, _⟩ := processnode_grows S auth _ rest _ rf h
        have hext := ext_of_append r.m _ ext ext1 rf.m he he1
        subst hext
        have hone1 : ∀ l ∈ ext1, l.length = 1 :=
          fun l hl => hone l (List.mem_cons_of_mem _ hl)
        have hmem : m0 ∈ (scanAt S auth sch r val).matched := by
          rw [hm]; exact List.mem_singleton_self _
        have hna := (scanAt_matched_sound S auth sch r val m0 hmem).1
        obtain ⟨hm2, hn2⟩ := scanAt_of_name S auth sch r val m0 hm
        simp only [emitTokens, emitToken, hna, Bool.false_eq_true, if_false]
        rw [processchildren_one S auth sch _ _ r m0 hm2, hn2]
        exact processnode_rewalk_of S auth n ih rest hrest _ _ rf ext1 h he1 hone1
      · rw [processchildren_several S auth sch val rest r m0 m1 ms hm] at h
        simp only [Option.some.injEq] at h
        subst h
        have hext := ext_of_append r.m (m0 :: m1 :: ms) ext [] _ he (by simp)
        subst hext
        have := hone (m0 :: m1 :: ms) (List.mem_singleton_self _)
        simp at this

/-- The walk of `processnode` on the tokens `ProcessMatches` emits for its
lists, when each is of one candidate, returns the same results. -/
theorem processnode_rewalk (S : Schema) (auth : Option Authoriser) (x : Nat)
    (path : List String) (r rf : results) (ext : List (List expandMatch))
    (h : processnode S auth (some x) path r = some rf) (he : rf.m = r.m ++ ext)
    (hone : ∀ l ∈ ext, l.length = 1) :
    processnode S auth (some x) (emitTokens S path ext) r = some rf :=
  processnode_rewalk_of S auth path.length
    (fun p _ sch r rf ext =>
      processchildren_rewalk_aux S auth p.length p (Nat.le_refl _) sch r rf ext)
    path (Nat.le_refl _) x r rf ext h he hone

theorem emitTokens_idem (S : Schema) (ls : List (List expandMatch)) :
    ∀ p, (∀ l ∈ ls, l.length = 1) → emitTokens S (emitTokens S p ls) ls = emitTokens S p ls := by
  induction ls with
  | nil => intro p _; cases p <;> simp [emitTokens]
  | cons l ls ih =>
    intro p hone
    cases p with
    | nil => simp [emitTokens]
    | cons tok p =>
      have hl := hone l (List.mem_cons_self _ _)
      simp only [emitTokens]
      rw [ih p (fun l2 h2 => hone l2 (List.mem_cons_of_mem _ h2))]
      rcases l with _ | ⟨e, _ | ⟨e2, es⟩⟩
      · simp at hl
      · cases hi : e.isarg <;> simp [emitToken, hi]
      · simp at hl

/-- The tokens emitted for lists of one candidate each that fit the tokens of
a path: each is the token of the path itself or the name of a child, of some
cursor, that has the token as a prefix. -/
theorem emitTokens_getElem (S : Schema) (ls : List (List expandMatch)) :
    ∀ (p : List String) (i : Nat) (tok t : String), ListsFor S p ls →
      (∀ l ∈ ls, l.length = 1) → p[i]? = some tok → (emitTokens S p ls)[i]? = some t →
      t = tok ∨ (HasPrefix t tok = true ∧ ∃ sch c, c ∈ effChildren S sch ∧ S.Name c = t) := by
  induction ls with
  | nil => intro p i tok t _ _ _ h; cases p <;> simp [emitTokens] at h
  | cons l ls ih =>
    intro p i tok t hf hone hp ht
    cases p with
    | nil => simp at hp
    | cons tok0 p =>
      simp only [ListsFor] at hf
      simp only [emitTokens] at ht
      cases i with
      | zero =>
        simp only [List.getElem?_cons_zero, Option.some.injEq] at hp ht
        subst hp
        have hl := hone l (List.mem_cons_self _ _)
        rcases l with _ | ⟨e, _ | ⟨e2, es⟩⟩
        · simp at hl
        · cases hi : e.isarg with
          | true => left; simp [emitToken, hi] at ht; exact ht.symm
          | false =>
            right
            simp only [emitToken, hi, Bool.false_eq_true, if_false] at ht
            rcases hf.1.1 e (List.mem_singleton_self _) with h | ⟨h1, sch, h2⟩
            · rw [hi] at h; cases h
            · rw [← ht]; exact ⟨h1, sch, e.node, h2, rfl⟩
        · simp at hl
      | succ i =>
        simp only [List.getElem?_cons_succ] at hp ht
        exact ih p i tok t hf.2 (fun l2 h2 => hone l2 (List.mem_cons_of_mem _ h2)) hp ht

theorem effChildren_sub (S : Schema) (sch c : Nat) (h : c ∈ effChildren S sch) :
    ∃ p, c ∈ S.Children p := by
  unfold effChildren at h
  split at h
  · exact ⟨_, h⟩
  · exact ⟨sch, h⟩

theorem partialCommands_kinds : ∀ x, partialCommands.Kind x ≠ .Other := by
  intro x
  simp only [partialCommands]
  split <;> simp

theorem partialCommands_expand_option :
    Expand ⟨some partialCommands⟩ ["t", "test-o", "value"] none =
      some (.ok ["test-command", "test-option", "value"]) := by
  simp [Expand, ExpandMatches, ProcessMatches, processMatchesLoop, processnode,
    processchildren, processopdcommand, processopdoption, partialCommands, scanChildren,
    effChildren, effArgNm, HasPrefix, permitted, authorise, commandScan,
    expandMatch.toMatch]

/-- C36: with a schema loaded whose nodes are all of the `Tree`, `OpdCommand`,
`OpdOption` or `OpdArgument` variants, when `Expand(path, auth)` returns a
path without error that path has the length of `path`, and at every index its
token is the token of `path` there or the name of a child in the schema that
has the token of `path` as a prefix. -/
theorem Expand_length_and_tokens (S : Schema) (auth : Option Authoriser)
    (path q : List String) (hk : ∀ x, S.Kind x ≠ .Other)
    (h : Expand ⟨some S⟩ path auth = some (.ok q)) :
    q.length = path.length ∧
    ∀ (i : Nat) (tok t : String), path[i]? = some tok → q[i]? = some t →
      t = tok ∨ (HasPrefix t tok = true ∧ ∃ p c, c ∈ S.Children p ∧ S.Name c = t) := by
  rw [Expand_eq] at h
  cases hw : processnode S auth (some S.root) path ⟨[], []⟩ with
  | none => rw [hw] at h; cases h
  | some rf =>
    rw [hw] at h
    simp only at h
    obtain ⟨ext, he, hfor, hcomp⟩ := processnode_fits S auth S.root path ⟨[], []⟩ rf hw
    simp only [List.nil_append] at he
    have hl : ProcessMatches path (rf.matchLists S) =
        processMatchesLoop path 0 [] (ext.map (List.map (expandMatch.toMatch S))) := by
      simp only [ProcessMatches, results.matchLists, he]
    rw [hl] at h
    obtain ⟨hone, hq⟩ := processMatchesLoop_emits S path ext path 0 [] q rfl hfor h
    simp only [List.nil_append] at hq
    have hlen : ext.length = path.length := by
      rcases hcomp hk with h1 | ⟨l, h1, h2⟩
      · exact h1
      · exact absurd (hone l (List.mem_of_getLast?_eq_some h1)) h2
    refine ⟨by rw [hq, emitTokens_length S ext path (Nat.le_of_eq hlen), hlen], ?_⟩
    intro i tok t hp ht
    rw [hq] at ht
    rcases emitTokens_getElem S ext path i tok t hfor hone hp ht with h1 | ⟨h1, sch, c, h2, h3⟩
    · exact Or.inl h1
    · obtain ⟨p, hp2⟩ := effChildren_sub S sch c h2
      exact Or.inr ⟨h1, p, c, hp2, h3⟩

/-- C36 at `partialCommands`: the path `t test-o value` is expanded to a path
of three tokens, the second the child name `test-option`. -/
theorem Expand_length_and_tokens_witness :
    (∀ x, partialCommands.Kind x ≠ .Other) ∧
    Expand ⟨some partialCommands⟩ ["t", "test-o", "value"] none =
      some (.ok ["test-command", "test-option", "value"]) ∧
    (["test-command", "test-option", "value"].length = ["t", "test-o", "value"].length ∧
      ∀ (i : Nat) (tok t : String), ["t", "test-o", "value"][i]? = some tok →
        ["test-command", "test-option", "value"][i]? = some t →
        t = tok ∨ (HasPrefix t tok = true ∧
          ∃ p c, c ∈ partialCommands.Children p ∧ partialCommands.Name c = t)) :=
  ⟨partialCommands_kinds, partialCommands_expand_option,
    Expand_length_and_tokens partialCommands none ["t", "test-o", "value"]
      ["test-command", "test-option", "value"] partialCommands_kinds
      partialCommands_expand_option⟩

/-- C37: `Expand` is idempotent on its successes: for every schema loaded or
not, every authoriser (a function of its path argument) and every path `p`,
when `Expand(p, auth)` returns `q` without error, `Expand(q, auth)` returns
`q` without error. -/
theorem Expand_idempotent (y : Yang) (auth : Option Authoriser) (p q : List String)
    (h : Expand y p auth = some (.ok q)) : Expand y q auth = some (.ok q) := by
  obtain ⟨st⟩ := y
  cases st with
  | none =>
    simp only [Expand, ExpandMatches, ProcessMatches, processMatchesLoop, Option.some.injEq,
      Except.ok.injEq] at h ⊢
    exact h
  | some S =>
    rw [Expand_eq] at h
    cases hw : processnode S auth (some S.root) p ⟨[], []⟩ with
    | none => rw [hw] at h; cases h
    | some rf =>
      rw [hw] at h
      simp only at h
      obtain ⟨ext, he, hfor, _⟩ := processnode_fits S auth S.root p ⟨[], []⟩ rf hw
      have he0 := he
      simp only [List.nil_append] at he
      have hl : ∀ path, ProcessMatches path (rf.matchLists S) =
          processMatchesLoop path 0 [] (ext.map (List.map (expandMatch.toMatch S))) := by
        intro path
        simp only [ProcessMatches, results.matchLists, he]
      rw [hl] at h
      obtain ⟨hone, hq⟩ := processMatchesLoop_emits S p ext p 0 [] q rfl hfor h
      simp only [List.nil_append] at hq
      have hre := processnode_rewalk S auth S.root p ⟨[], []⟩ rf ext hw he0 hone
      rw [← hq] at hre
      have hlen : ext.length ≤ q.length := by
        rw [hq, emitTokens_length S ext p (ListsFor_length S ext p hfor)]
      rw [Expand_eq, hre]
      simp only
      rw [hl, processMatchesLoop_of_single S q ext q 0 [] rfl hlen hone, List.nil_append,
        hq, emitTokens_idem S ext p hone]

/-- C37 at `partialCommands`: the expansion of `t test-o value` is expanded to
itself. -/
theorem Expand_idempotent_witness :
    Expand ⟨some partialCommands⟩ ["t", "test-o", "value"] none =
      some (.ok ["test-command", "test-option", "value"]) ∧
    Expand ⟨some partialCommands⟩ ["test-command", "test-option", "value"] none =
      some (.ok ["test-command", "test-option", "value"]) :=
  ⟨partialCommands_expand_option,
    Expand_idempotent ⟨some partialCommands⟩ none ["t", "test-o", "value"]
      ["test-command", "test-option", "value"] partialCommands_expand_option⟩

end Op
